import Mathlib

/-!
# Shared Transport core (`drivers/misc/ti-st/st_core.c`)

A shallow embedding of the receive assembler (`st_int_recv`), the transmit
scheduler (`st_int_enqueue`, `st_int_dequeue`, `st_tx_wakeup`, `st_wakeup_ack`),
the client write entry point (`st_write`) and the registration of the protocol
stacks (`st_register`, `st_unregister`, `st_reg_complete`).

The engine singleton `st_gdata`, the static local `protoid` of `st_int_recv`,
the global `st_recv`, the answers of the environment (tty writes, frame
allocation) and the logs of what the engine did to its collaborators are
gathered in one record, `World`, which every operation passes on.  An operation that would dereference a null
pointer, read past its input buffer or hit `skb_over_panic` returns a `Fault`.
-/

namespace StCore

/-! ## Constants and layouts of headers that are not part of the sources -/

/-- Constants, header layouts and buffer capacities that `st_core.c` takes from
`st.h`, `st_ll.h`, `fm.h`, `st_core.h` and `net/bluetooth/hci.h`, and the range of
the type `char`, which the compiler fixes.  None of these headers is available, so
every value is a parameter of the development. -/
structure Hdr where
  /-- Tag byte of a Bluetooth event packet. -/
  HCI_EVENT_PKT : Nat
  /-- Tag byte of a Bluetooth ACL packet. -/
  HCI_ACLDATA_PKT : Nat
  /-- Tag byte of a Bluetooth SCO packet. -/
  HCI_SCODATA_PKT : Nat
  /-- Tag byte of an FM (channel 8) packet. -/
  ST_FM_CH8_PKT : Nat
  /-- Low-power control byte: sleep indication. -/
  LL_SLEEP_IND : Nat
  /-- Low-power control byte: sleep acknowledge. -/
  LL_SLEEP_ACK : Nat
  /-- Low-power control byte: wake-up indication. -/
  LL_WAKE_UP_IND : Nat
  /-- Low-power control byte: wake-up acknowledge. -/
  LL_WAKE_UP_ACK : Nat
  /-- Size of `struct hci_event_hdr`. -/
  HCI_EVENT_HDR_SIZE : Nat
  /-- Size of `struct hci_acl_hdr`. -/
  HCI_ACL_HDR_SIZE : Nat
  /-- Size of `struct hci_sco_hdr`. -/
  HCI_SCO_HDR_SIZE : Nat
  /-- Size of `struct fm_event_hdr`. -/
  FM_EVENT_HDR_SIZE : Nat
  /-- Reads `eh->plen` from the bytes buffered in `rx_skb->data`. -/
  eh_plen : List Nat → Nat
  /-- Reads `__le16_to_cpu(ah->dlen)` from the bytes buffered in `rx_skb->data`. -/
  ah_dlen : List Nat → Nat
  /-- Reads `sh->dlen` from the bytes buffered in `rx_skb->data`. -/
  sh_dlen : List Nat → Nat
  /-- Reads `fm->plen` from the bytes buffered in `rx_skb->data`. -/
  fm_plen : List Nat → Nat
  /-- Reads `gps->plen` from the bytes buffered in `rx_skb->data`. -/
  gps_plen : List Nat → Nat
  /-- Value of `skb_tailroom` on a frame fresh from `bt_skb_alloc(HCI_MAX_FRAME_SIZE, _)`. -/
  bt_room : Nat
  /-- Value of `skb_tailroom` on a frame fresh from `alloc_skb(FM_MAX_FRAME_SIZE, _)`
  after `skb_reserve(_, 1)`. -/
  fm_room : Nat
  /-- Value of `skb_tailroom` on a frame fresh from `alloc_skb(100, _)` after
  `skb_reserve(_, 1)`. -/
  gps_room : Nat
  /-- Status code `ST_SUCCESS`. -/
  ST_SUCCESS : Int
  /-- Status code `ST_ERR_FAILURE`. -/
  ST_ERR_FAILURE : Int
  /-- Status code `ST_ERR_NOPROTO`. -/
  ST_ERR_NOPROTO : Int
  /-- Status code `ST_ERR_ALREADY`. -/
  ST_ERR_ALREADY : Int
  /-- Status code `ST_ERR_PENDING`. -/
  ST_ERR_PENDING : Int
  /-- Value `ST_EMPTY` that `is_protocol_list_empty` returns for an empty registry. -/
  ST_EMPTY : Int
  /-- Value `ST_NOTEMPTY` that `is_protocol_list_empty` returns otherwise. -/
  ST_NOTEMPTY : Int
  /-- Argument `KIM_GPIO_ACTIVE` of `st_kim_chip_toggle`. -/
  KIM_GPIO_ACTIVE : Int
  /-- Argument `KIM_GPIO_INACTIVE` of `st_kim_chip_toggle`. -/
  KIM_GPIO_INACTIVE : Int
  /-- Value `CHAR_MIN` of `limits.h`: the least value of the type `char`, which is
  -128 where `char` is signed and 0 where it is unsigned. -/
  CHAR_MIN : Int

/-- The case labels of `switch (*ptr)` in `st_int_recv` are pairwise distinct
(a C compiler rejects a switch with a repeated label). -/
def Hdr.DistinctTags (k : Hdr) : Prop :=
  [k.HCI_EVENT_PKT, k.HCI_ACLDATA_PKT, k.HCI_SCODATA_PKT, k.ST_FM_CH8_PKT, 0x9,
    k.LL_SLEEP_IND, k.LL_SLEEP_ACK, k.LL_WAKE_UP_IND, k.LL_WAKE_UP_ACK].Nodup

/-- Little-endian 16-bit value of the bytes at offsets `off` and `off + 1`. -/
def le16 (d : List Nat) (off : Nat) : Nat :=
  d.getD off 0 + 256 * d.getD (off + 1) 0

/-- The values the headers of the Linux tree of this driver give to the
parameters: HCI tags 4/2/3, FM tag 8, low-power codes 0x30..0x33, header sizes
2/4/3/1, `HCI_MAX_FRAME_SIZE = 1028`, `FM_MAX_FRAME_SIZE = 0xff`, the status
codes `ST_SUCCESS = 0`, `ST_ERR_FAILURE = -1`, `ST_ERR_NOPROTO = -2`,
`ST_ERR_ALREADY = -4`, `ST_ERR_PENDING = -5`, the registry states
`ST_EMPTY = 0`, `ST_NOTEMPTY = 1` and the GPIO states inactive 0, active 1; the
type `char` is signed, as gcc has it on x86. -/
def linux : Hdr where
  HCI_EVENT_PKT := 0x04
  HCI_ACLDATA_PKT := 0x02
  HCI_SCODATA_PKT := 0x03
  ST_FM_CH8_PKT := 0x08
  LL_SLEEP_IND := 0x30
  LL_SLEEP_ACK := 0x31
  LL_WAKE_UP_IND := 0x32
  LL_WAKE_UP_ACK := 0x33
  HCI_EVENT_HDR_SIZE := 2
  HCI_ACL_HDR_SIZE := 4
  HCI_SCO_HDR_SIZE := 3
  FM_EVENT_HDR_SIZE := 1
  eh_plen := fun d => d.getD 1 0
  ah_dlen := fun d => le16 d 2
  sh_dlen := fun d => d.getD 2 0
  fm_plen := fun d => d.getD 0 0
  gps_plen := fun d => le16 d 1
  bt_room := 1028
  fm_room := 254
  gps_room := 99
  ST_SUCCESS := 0
  ST_ERR_FAILURE := -1
  ST_ERR_NOPROTO := -2
  ST_ERR_ALREADY := -4
  ST_ERR_PENDING := -5
  ST_EMPTY := 0
  ST_NOTEMPTY := 1
  KIM_GPIO_ACTIVE := 1
  KIM_GPIO_INACTIVE := 0
  CHAR_MIN := -128

/-- Protocol identifiers are array indices into `st_gdata->list`. -/
abbrev proto_type := Nat

/-- Modelled from the spec: `enum proto_type` is declared in `st.h`, which is not
available; protocol ids are array indices and `st_core.c` walks the registry
from `0` to `ST_MAX - 1` over the entries Bluetooth, FM, GPS in this order. -/
def ST_BT : proto_type := 0

/-- Modelled from the spec: second value of `enum proto_type` (see `ST_BT`). -/
def ST_FM : proto_type := 1

/-- Modelled from the spec: third value of `enum proto_type` (see `ST_BT`). -/
def ST_GPS : proto_type := 2

/-- Modelled from the spec: number of protocols, one past the last id (see `ST_BT`). -/
def ST_MAX : proto_type := 3

/-- Values of `st_gdata->rx_state`. -/
inductive rx_state_t
  | ST_W4_PACKET_TYPE
  | ST_BT_W4_EVENT_HDR
  | ST_BT_W4_ACL_HDR
  | ST_BT_W4_SCO_HDR
  | ST_BT_W4_DATA
  | ST_FM_W4_EVENT_HDR
  | ST_GPS_W4_EVENT_HDR
  deriving DecidableEq, Repr

/-- Values returned by `st_ll_getstate()`; `other` stands for any value that is
none of the four recognised states. -/
inductive ll_state_t
  | ST_LL_ASLEEP
  | ST_LL_ASLEEP_TO_AWAKE
  | ST_LL_AWAKE
  | ST_LL_AWAKE_TO_ASLEEP
  | other (v : Int)
  deriving DecidableEq, Repr

/-- A socket buffer: the bytes between `data` and `tail`, the room left behind
`tail`, and the packet-type byte kept in the control block (`cb[0]`). -/
structure sk_buff where
  data : List Nat
  tailroom : Nat
  pkt_type : Nat
  deriving DecidableEq, Repr

/-- Appends bytes at the tail (`skb_put` followed by `memcpy`); `none` is
`skb_over_panic`. -/
def skb_put (skb : sk_buff) (bytes : List Nat) : Option sk_buff :=
  if bytes.length ≤ skb.tailroom then
    some { skb with data := skb.data ++ bytes, tailroom := skb.tailroom - bytes.length }
  else none

/-- Removes `len` bytes from the head (`skb_pull`).  The C parameter is unsigned:
a negative `int` or a value above `skb->len` leaves the buffer as it is. -/
def skb_pull (skb : sk_buff) (len : Int) : sk_buff :=
  if 0 ≤ len ∧ len ≤ (skb.data.length : Int) then
    { skb with data := skb.data.drop len.toNat }
  else skb

/-- A client binding (`struct st_proto_s`): `recv` maps a frame to the status the
callback returns, `reg_complete_cb` names the completion callback, `write` tells
whether the engine has assigned `st_write` as the write handle. -/
structure st_proto_s where
  type : proto_type
  recv : Option (sk_buff → Int)
  reg_complete_cb : Option Nat
  write : Bool

/-- What the engine does to its collaborators, in the order it does it. -/
inductive Event
  /-- The receive callback of the protocol was invoked with the frame. -/
  | recv (protoid : proto_type) (skb : sk_buff)
  /-- The frame was released with `kfree_skb`. -/
  | kfree_skb (skb : sk_buff)
  /-- Call of `st_ll_sleep_state(cmd)`. -/
  | st_ll_sleep_state (cmd : Nat)
  /-- Call of `st_ll_wakeup()`. -/
  | st_ll_wakeup
  /-- Call of `st_kim_chip_toggle(type, state)`. -/
  | st_kim_chip_toggle (type : proto_type) (state : Int)
  /-- Call of `st_ll_enable()`. -/
  | st_ll_enable
  /-- Call of `st_kim_start()`. -/
  | st_kim_start
  /-- The registration-complete callback `cb` of the binding of `protoid` was
  invoked with the status `err`. -/
  | reg_complete_cb (protoid : proto_type) (cb : Nat) (err : Int)
  /-- Call of `tty_ldisc_flush(st_gdata->tty)`. -/
  | tty_ldisc_flush
  /-- Call of `stop_tty(st_gdata->tty)`. -/
  | stop_tty
  /-- Call of `st_kim_stop()`. -/
  | st_kim_stop
  /-- Call of `st_ll_disable()`. -/
  | st_ll_disable
  deriving DecidableEq, Repr

/-- Ways in which the C code stops without returning. -/
inductive Fault
  | null_deref
  | oob_read
  | skb_over_panic
  | out_of_fuel
  deriving DecidableEq, Repr

/-- Values of the global function pointer `st_recv`, the sink of the bytes the
tty delivers. -/
inductive recv_sink
  /-- The pointer has not been assigned yet. -/
  | null
  | st_int_recv
  | st_kim_recv
  deriving DecidableEq, Repr

/-- The engine singleton (`struct st_data_s`), the static local `protoid` of
`st_int_recv`, the global `st_recv`, the pending answers of the environment and
the logs. -/
structure World where
  /-- Registry `st_gdata->list`. -/
  list : List (Option st_proto_s)
  rx_state : rx_state_t
  rx_count : Nat
  rx_skb : Option sk_buff
  txq : List sk_buff
  tx_waitq : List sk_buff
  tx_skb : Option sk_buff
  /-- Bit `ST_TX_SENDING` of `tx_state`. -/
  ST_TX_SENDING : Bool
  /-- Bit `ST_TX_WAKEUP` of `tx_state`. -/
  ST_TX_WAKEUP : Bool
  /-- Bit `ST_REG_IN_PROGRESS` of `st_state`. -/
  ST_REG_IN_PROGRESS : Bool
  /-- Bit `ST_REG_PENDING` of `st_state`. -/
  ST_REG_PENDING : Bool
  /-- Whether `st_gdata->tty` is non-null. -/
  tty : Bool
  /-- Static local `protoid` of `st_int_recv`. -/
  protoid : proto_type
  /-- Results of the coming frame allocations (`false` is a null return); every
  allocation after the listed ones succeeds. -/
  alloc_ok : List Bool
  /-- Answers of the coming `tty->ops->write` calls: the returned count (negative
  for an error code), and whether `st_tx_wakeup` was invoked from another context
  while the write was running.  After the listed answers every write takes all
  it is offered. -/
  tty_ret : List (Int × Bool)
  /-- Log of collaborator calls. -/
  trace : List Event
  /-- Bytes the tty has accepted from `st_tx_wakeup`, in order. -/
  tty_out : List Nat
  /-- Global function pointer `st_recv`. -/
  st_recv : recv_sink

/-- Appends an entry to the log of collaborator calls. -/
def World.log (w : World) (e : Event) : World :=
  { w with trace := w.trace ++ [e] }

/-- Result of one pass through the body of `while (count)` in `st_int_recv`:
`cont` goes back to the loop test with the rest of the input, `ret` is the
`return` of the allocation-failure paths. -/
inductive Iter
  | cont (w : World) (ptr : List Nat)
  | ret (w : World)
  | fault (e : Fault)

/-! ## Receive side -/

/-- Source function `st_send_frame`: pushes the frame to the protocol stack. -/
def st_send_frame (k : Hdr) (w : World) (protoid : proto_type) (skb : Option sk_buff) :
    Except Fault World :=
  match skb with
  | none => .ok w
  | some s =>
    if ST_MAX ≤ protoid then .error .oob_read
    else
      match w.list.getD protoid none with
      | none => .ok (w.log (.kfree_skb s))
      | some p =>
        match p.recv with
        | some f =>
          let w1 := w.log (.recv protoid s)
          if f s ≠ k.ST_SUCCESS then .ok (w1.log (.kfree_skb s)) else .ok w1
        | none => .ok (w.log (.kfree_skb s))

/-- Source function `st_check_data_len`; the first component is its return value. -/
def st_check_data_len (k : Hdr) (w : World) (protoid : proto_type) (len : Nat) :
    Except Fault (Nat × World) :=
  match w.rx_skb with
  | none => .error .null_deref
  | some skb =>
    let room := skb.tailroom
    if len = 0 then
      match st_send_frame k w protoid (some skb) with
      | .error e => .error e
      | .ok w1 =>
        .ok (0, { w1 with rx_state := .ST_W4_PACKET_TYPE, rx_skb := none, rx_count := 0 })
    else if len > room then
      .ok (0, { w.log (.kfree_skb skb) with
                  rx_state := .ST_W4_PACKET_TYPE, rx_skb := none, rx_count := 0 })
    else
      .ok (len, { w with rx_state := .ST_BT_W4_DATA, rx_count := len })

/-! ## Transmit side -/

/-- Source function `st_int_write`: wrapper of `tty->ops->write`.  The tty takes
at most what it is offered. -/
def st_int_write (k : Hdr) (w : World) (data : List Nat) : Int × World :=
  if w.tty = false then (k.ST_ERR_FAILURE, w)
  else
    match w.tty_ret with
    | [] => ((data.length : Int), { w with tty_out := w.tty_out ++ data })
    | (r, wake) :: rest =>
      let n : Int := min r (data.length : Int)
      (n, { w with tty_ret := rest,
                   tty_out := w.tty_out ++ data.take n.toNat,
                   ST_TX_WAKEUP := w.ST_TX_WAKEUP || wake })

/-- Source function `st_int_dequeue`. -/
def st_int_dequeue (w : World) : Option sk_buff × World :=
  match w.tx_skb with
  | some s => (some s, { w with tx_skb := none })
  | none =>
    match w.txq with
    | [] => (none, w)
    | s :: q => (some s, { w with txq := q })

/-- Source function `st_int_enqueue`; `ll` is the value `st_ll_getstate()` returns. -/
def st_int_enqueue (w : World) (ll : ll_state_t) (skb : sk_buff) : World :=
  match ll with
  | .ST_LL_AWAKE => { w with txq := w.txq ++ [skb] }
  | .ST_LL_ASLEEP_TO_AWAKE => { w with tx_waitq := w.tx_waitq ++ [skb] }
  | .ST_LL_AWAKE_TO_ASLEEP => w.log (.kfree_skb skb)
  | .ST_LL_ASLEEP => ({ w with tx_waitq := w.tx_waitq ++ [skb] }).log .st_ll_wakeup
  | .other _ => w.log (.kfree_skb skb)

/-- The inner loop `while ((skb = st_int_dequeue(st_data)))` of `st_tx_wakeup`.
The log keeps the frames that are dropped: the release of a frame that has been
written in full is not an entry of it. -/
def st_tx_drain (k : Hdr) : Nat → World → Except Fault World
  | 0, _ => .error .out_of_fuel
  | fuel + 1, w =>
    match st_int_dequeue w with
    | (none, w1) => .ok w1
    | (some skb, w1) =>
      if w1.tty = false then .error .null_deref
      else
        let (len, w2) := st_int_write k w1 skb.data
        let skb1 := skb_pull skb len
        if skb1.data.length ≠ 0 then .ok { w2 with tx_skb := some skb1 }
        else st_tx_drain k fuel w2

/-- The outer loop `do { ... } while (test_bit(ST_TX_WAKEUP, ...))` of
`st_tx_wakeup`. -/
def st_tx_pass (k : Hdr) : Nat → World → Except Fault World
  | 0, _ => .error .out_of_fuel
  | fuel + 1, w =>
    let w1 := { w with ST_TX_WAKEUP := false }
    match st_tx_drain k (w1.txq.length + 2) w1 with
    | .error e => .error e
    | .ok w2 => if w2.ST_TX_WAKEUP then st_tx_pass k fuel w2 else .ok w2

/-- Source function `st_tx_wakeup`. -/
def st_tx_wakeup (k : Hdr) (w : World) : Except Fault World :=
  if w.ST_TX_SENDING then .ok { w with ST_TX_WAKEUP := true }
  else
    match st_tx_pass k (w.tty_ret.length + 1) { w with ST_TX_SENDING := true } with
    | .error e => .error e
    | .ok w2 => .ok { w2 with ST_TX_SENDING := false }

/-- The loop of `st_wakeup_ack` that moves the wait queue: each frame taken from
the head of `tx_waitq` is put at the tail of `txq`. -/
def waitq_to_txq (txq : List sk_buff) : List sk_buff → List sk_buff
  | [] => txq
  | s :: rest => waitq_to_txq (txq ++ [s]) rest

/-- Source function `st_wakeup_ack`. -/
def st_wakeup_ack (k : Hdr) (w : World) (cmd : Nat) : Except Fault World :=
  let w1 := { w with txq := waitq_to_txq w.txq w.tx_waitq, tx_waitq := [] }
  let w2 := w1.log (.st_ll_sleep_state cmd)
  st_tx_wakeup k w2

/-- Source function `st_write`; `ll` is the value `st_ll_getstate()` returns
inside `st_int_enqueue`.  The first component is the returned `long`. -/
def st_write (k : Hdr) (w : World) (ll : ll_state_t) (skb : Option sk_buff) :
    Except Fault (Int × World) :=
  match skb with
  | none => .ok (k.ST_ERR_FAILURE, w)
  | some s =>
    if w.tty = false then .ok (k.ST_ERR_FAILURE, w)
    else
      let len : Int := (s.data.length : Int)
      let w1 := st_int_enqueue w ll s
      match st_tx_wakeup k w1 with
      | .error e => .error e
      | .ok w2 => .ok (len, w2)

/-! ## The receive loop -/

/-- A frame allocation: takes the next answer of the allocator. -/
def alloc_skb (w : World) : Bool × World :=
  match w.alloc_ok with
  | [] => (true, w)
  | b :: rest => (b, { w with alloc_ok := rest })

/-- The `switch (protoid)` at the end of the loop body of `st_int_recv`: allocates
the frame of the packet whose tag was just read; `type` is the local `type`. -/
def rx_alloc (k : Hdr) (w : World) (type : Nat) (ptr : List Nat) : Iter :=
  if w.protoid = ST_BT then
    match alloc_skb w with
    | (false, w1) =>
      .ret { w1 with rx_skb := none, rx_state := .ST_W4_PACKET_TYPE, rx_count := 0 }
    | (true, w1) =>
      .cont { w1 with rx_skb := some ⟨[], k.bt_room, type⟩ } ptr
  else if w.protoid = ST_FM then
    match alloc_skb w with
    | (false, w1) =>
      .ret { w1 with rx_skb := none, rx_state := .ST_W4_PACKET_TYPE, rx_count := 0 }
    | (true, w1) =>
      .cont { w1 with rx_skb := some ⟨[], k.fm_room, k.ST_FM_CH8_PKT⟩ } ptr
  else if w.protoid = ST_GPS then
    match alloc_skb w with
    | (false, w1) =>
      .ret { w1 with rx_skb := none, rx_state := .ST_W4_PACKET_TYPE, rx_count := 0 }
    | (true, w1) =>
      .cont { w1 with rx_skb := some ⟨[], k.gps_room, 0x09⟩ } ptr
  else .cont w ptr

/-- The `switch (*ptr)` of `st_int_recv` on the tag byte `b`, with the code that
follows it; `ptr` is the input after the tag. -/
def rx_tag (k : Hdr) (w : World) (b : Nat) (ptr : List Nat) : Iter :=
  if b = k.HCI_EVENT_PKT then
    rx_alloc k { w with rx_state := .ST_BT_W4_EVENT_HDR, rx_count := k.HCI_EVENT_HDR_SIZE,
                        protoid := ST_BT } k.HCI_EVENT_PKT ptr
  else if b = k.HCI_ACLDATA_PKT then
    rx_alloc k { w with rx_state := .ST_BT_W4_ACL_HDR, rx_count := k.HCI_ACL_HDR_SIZE,
                        protoid := ST_BT } k.HCI_ACLDATA_PKT ptr
  else if b = k.HCI_SCODATA_PKT then
    rx_alloc k { w with rx_state := .ST_BT_W4_SCO_HDR, rx_count := k.HCI_SCO_HDR_SIZE,
                        protoid := ST_BT } k.HCI_SCODATA_PKT ptr
  else if b = k.ST_FM_CH8_PKT then
    rx_alloc k { w with rx_state := .ST_FM_W4_EVENT_HDR, rx_count := k.FM_EVENT_HDR_SIZE,
                        protoid := ST_FM } k.ST_FM_CH8_PKT ptr
  else if b = 0x9 then
    rx_alloc k { w with rx_state := .ST_GPS_W4_EVENT_HDR, rx_count := 3,
                        protoid := ST_GPS } 0x9 ptr
  else if b = k.LL_SLEEP_IND ∨ b = k.LL_SLEEP_ACK ∨ b = k.LL_WAKE_UP_IND then
    .cont (w.log (.st_ll_sleep_state b)) ptr
  else if b = k.LL_WAKE_UP_ACK then
    match st_wakeup_ack k w b with
    | .error e => .fault e
    | .ok w1 => .cont w1 ptr
  else .cont w ptr

/-- Reads `*ptr` and runs the tag switch; with no input left the read is past
the end of the buffer. -/
def rx_tag_at (k : Hdr) (w : World) (ptr : List Nat) : Iter :=
  match ptr with
  | [] => .fault .oob_read
  | b :: rest => rx_tag k w b rest

/-- Turns the result of `st_check_data_len` (whose return value the callers
drop) into the `continue` that follows it. -/
def rx_continue (r : Except Fault (Nat × World)) (ptr : List Nat) : Iter :=
  match r with
  | .error e => .fault e
  | .ok (_, w) => .cont w ptr

/-- The `switch (st_gdata->rx_state)` of `st_int_recv`, reached once the bytes
awaited have all been copied (`rx_count` is back to zero). -/
def rx_complete (k : Hdr) (w : World) (ptr : List Nat) : Iter :=
  match w.rx_state with
  | .ST_BT_W4_DATA =>
    match st_send_frame k w w.protoid w.rx_skb with
    | .error e => .fault e
    | .ok w2 =>
      .cont { w2 with rx_state := .ST_W4_PACKET_TYPE, rx_skb := none, protoid := ST_MAX } ptr
  | .ST_BT_W4_EVENT_HDR =>
    match w.rx_skb with
    | none => .fault .null_deref
    | some skb => rx_continue (st_check_data_len k w w.protoid (k.eh_plen skb.data)) ptr
  | .ST_BT_W4_ACL_HDR =>
    match w.rx_skb with
    | none => .fault .null_deref
    | some skb => rx_continue (st_check_data_len k w w.protoid (k.ah_dlen skb.data)) ptr
  | .ST_BT_W4_SCO_HDR =>
    match w.rx_skb with
    | none => .fault .null_deref
    | some skb => rx_continue (st_check_data_len k w w.protoid (k.sh_dlen skb.data)) ptr
  | .ST_FM_W4_EVENT_HDR =>
    match w.rx_skb with
    | none => .fault .null_deref
    | some skb => rx_continue (st_check_data_len k w ST_FM (k.fm_plen skb.data)) ptr
  | .ST_GPS_W4_EVENT_HDR =>
    match w.rx_skb with
    | none => .fault .null_deref
    | some skb => rx_continue (st_check_data_len k w ST_GPS (k.gps_plen skb.data)) ptr
  | .ST_W4_PACKET_TYPE => rx_tag_at k w ptr

/-- One pass through the body of `while (count)` in `st_int_recv`, entered with
`count = data.length > 0`. -/
def rx_iter (k : Hdr) (w : World) (data : List Nat) : Iter :=
  if w.rx_count ≠ 0 then
    let len := min w.rx_count data.length
    match w.rx_skb with
    | none => .fault .null_deref
    | some skb =>
      match skb_put skb (data.take len) with
      | none => .fault .skb_over_panic
      | some skb1 =>
        let w1 := { w with rx_skb := some skb1, rx_count := w.rx_count - len }
        let ptr := data.drop len
        if w1.rx_count ≠ 0 then .cont w1 ptr
        else rx_complete k w1 ptr
  else rx_tag_at k w data

/-- The loop `while (count)` of `st_int_recv`; `fuel` bounds the number of
iterations. -/
def st_int_recv_loop (k : Hdr) : Nat → World → List Nat → Except Fault World
  | _, w, [] => .ok w
  | 0, _, _ :: _ => .error .out_of_fuel
  | fuel + 1, w, b :: r =>
    match rx_iter k w (b :: r) with
    | .cont w1 ptr => st_int_recv_loop k fuel w1 ptr
    | .ret w1 => .ok w1
    | .fault e => .error e

/-- Source function `st_int_recv` on a non-null chunk `data` of `count =
data.length` bytes.  Every iteration consumes a byte, so `data.length`
iterations are enough. -/
def st_int_recv (k : Hdr) (w : World) (data : List Nat) : Except Fault World :=
  st_int_recv_loop k data.length w data


/-! ## Notions used to state the properties -/

/-- The bytes of a queue of frames, in queue order. -/
def bytes_of : List sk_buff → List Nat
  | [] => []
  | s :: q => s.data ++ bytes_of q

/-- The bytes that `st_tx_wakeup` still has to write: the frame kept in the
in-flight slot `tx_skb`, then the frames of `txq`. -/
def pending (w : World) : List Nat :=
  (match w.tx_skb with
   | some s => s.data
   | none => []) ++ bytes_of w.txq

/-- Forgets the fields that a transmit pass may change. -/
def World.tx_erase (w : World) : World :=
  { w with txq := [], tx_skb := none, ST_TX_SENDING := false, ST_TX_WAKEUP := false,
           tty_ret := [], tty_out := [] }

/-- What the drain loop of `st_tx_wakeup` keeps between two worlds. -/
structure TxStep (w w1 : World) : Prop where
  erase : w1.tx_erase = w.tx_erase
  sending : w1.ST_TX_SENDING = w.ST_TX_SENDING
  bytes : w1.tty_out ++ pending w1 = w.tty_out ++ pending w
  ret_le : w1.tty_ret.length ≤ w.tty_ret.length
  wake : w1.ST_TX_WAKEUP = true → w.ST_TX_WAKEUP = true ∨ w1.tty_ret.length < w.tty_ret.length

/-- The five packet classes that `switch (*ptr)` of `st_int_recv` recognises. -/
inductive pkt_class
  | event
  | acl
  | sco
  | fm
  | gps
  deriving DecidableEq, Repr

/-- Tag byte of the class. -/
def pkt_class.tag (k : Hdr) : pkt_class → Nat
  | .event => k.HCI_EVENT_PKT
  | .acl => k.HCI_ACLDATA_PKT
  | .sco => k.HCI_SCODATA_PKT
  | .fm => k.ST_FM_CH8_PKT
  | .gps => 0x9

/-- Fixed header length of the class: the value given to `rx_count` by the tag. -/
def pkt_class.hdr_size (k : Hdr) : pkt_class → Nat
  | .event => k.HCI_EVENT_HDR_SIZE
  | .acl => k.HCI_ACL_HDR_SIZE
  | .sco => k.HCI_SCO_HDR_SIZE
  | .fm => k.FM_EVENT_HDR_SIZE
  | .gps => 3

/-- Payload length declared by the header of the class. -/
def pkt_class.plen (k : Hdr) : pkt_class → List Nat → Nat
  | .event => k.eh_plen
  | .acl => k.ah_dlen
  | .sco => k.sh_dlen
  | .fm => k.fm_plen
  | .gps => k.gps_plen

/-- Protocol the class belongs to. -/
def pkt_class.proto : pkt_class → proto_type
  | .event => ST_BT
  | .acl => ST_BT
  | .sco => ST_BT
  | .fm => ST_FM
  | .gps => ST_GPS

/-- Header-wait state the tag of the class puts the assembler in. -/
def pkt_class.hdr_state : pkt_class → rx_state_t
  | .event => .ST_BT_W4_EVENT_HDR
  | .acl => .ST_BT_W4_ACL_HDR
  | .sco => .ST_BT_W4_SCO_HDR
  | .fm => .ST_FM_W4_EVENT_HDR
  | .gps => .ST_GPS_W4_EVENT_HDR

/-- Tailroom of the frame allocated for the class. -/
def pkt_class.room (k : Hdr) : pkt_class → Nat
  | .event => k.bt_room
  | .acl => k.bt_room
  | .sco => k.bt_room
  | .fm => k.fm_room
  | .gps => k.gps_room

/-- Replaces the input position of a `cont` result. -/
def Iter.withPtr : Iter → List Nat → Iter
  | .cont w _, p => .cont w p
  | .ret w, _ => .ret w
  | .fault e, _ => .fault e

/-- Every coming frame allocation succeeds. -/
def AllocOk (w : World) : Prop := ∀ b ∈ w.alloc_ok, b = true

/-- Delivers the chunks one after the other, each by its own call of `st_int_recv`. -/
def rx_chunks (k : Hdr) : World → List (List Nat) → Except Fault World
  | w, [] => .ok w
  | w, c :: cs =>
    match st_int_recv k w c with
    | .ok w1 => rx_chunks k w1 cs
    | .error e => .error e

/-- Receive state of a freshly initialised engine: `kzalloc` leaves `rx_state`,
`rx_count` and `rx_skb` zero, and the static `protoid` starts as `ST_MAX`. -/
def RxInit (w : World) : Prop :=
  w.rx_state = .ST_W4_PACKET_TYPE ∧ w.rx_count = 0 ∧ w.rx_skb = none ∧ w.protoid = ST_MAX

/-- Worlds whose receive state is reachable from the initial one: by calls of
`st_int_recv` that return, and by anything that leaves the receive state alone. -/
inductive RxReachable (k : Hdr) : World → Prop
  | init (w : World) : RxInit w → RxReachable k w
  | recv (w w1 : World) (data : List Nat) :
      RxReachable k w → st_int_recv k w data = .ok w1 → RxReachable k w1
  | other (w w1 : World) :
      RxReachable k w → w1.rx_state = w.rx_state → w1.rx_count = w.rx_count →
      w1.rx_skb = w.rx_skb → w1.protoid = w.protoid → RxReachable k w1

/-- The protocol has a binding with a receive callback. -/
def Bound (l : List (Option st_proto_s)) (p : proto_type) : Prop :=
  ∃ b f, l.getD p none = some b ∧ b.recv = some f

/-- The frame is the fixed-size header of some class of protocol `p`, followed by
exactly as many payload bytes as that header declares. -/
def FrameOk (k : Hdr) (p : proto_type) (s : sk_buff) : Prop :=
  ∃ c : pkt_class, p = c.proto ∧ s.pkt_type = c.tag k ∧ c.hdr_size k ≤ s.data.length ∧
    s.data.length = c.hdr_size k + c.plen k (s.data.take (c.hdr_size k))

/-- Invariant of the receive assembler: while bytes are awaited there is a frame
under construction, of some class `c`, whose content and counter agree with the
stage `rx_state` names. -/
def RxBody (k : Hdr) (w : World) : Prop :=
  ∃ skb c, w.rx_skb = some skb ∧ w.protoid = pkt_class.proto c ∧ skb.pkt_type = c.tag k ∧
    skb.data.length + skb.tailroom = c.room k ∧
    ((w.rx_state = c.hdr_state ∧ skb.data.length + w.rx_count = c.hdr_size k) ∨
     (w.rx_state = .ST_BT_W4_DATA ∧ c.hdr_size k ≤ skb.data.length ∧
      skb.data.length + w.rx_count
        = c.hdr_size k + c.plen k (skb.data.take (c.hdr_size k)) ∧
      w.rx_count ≤ skb.tailroom))

/-- Invariant of the receive assembler: `RxBody` holds whenever bytes are awaited. -/
def RxInv (k : Hdr) (w : World) : Prop :=
  w.rx_count ≠ 0 → RxBody k w

/-- The fixed header of every class fits the frame allocated for it. -/
def HdrFits (k : Hdr) : Prop := ∀ c : pkt_class, c.hdr_size k ≤ c.room k

/-- What a run of the receive loop guarantees between two worlds, `P` being what
is known of the first one. -/
structure RxStep (k : Hdr) (P : Prop) (w w1 : World) : Prop where
  list : w1.list = w.list
  trace : ∃ evs, w1.trace = w.trace ++ evs ∧
    ∀ p s, Event.recv p s ∈ evs → Bound w.list p ∧ (P → FrameOk k p s)
  inv : P → RxInv k w1
  alloc : AllocOk w → AllocOk w1
  tty : w1.tty = w.tty

/-- A Bluetooth binding whose receive callback always reports `ST_SUCCESS` of `linux`. -/
def bt_binding : st_proto_s := ⟨ST_BT, some (fun _ => 0), some 1, true⟩

/-- A freshly initialised engine with a tty attached and Bluetooth registered;
the environment gives no special answers. -/
def idle_world : World :=
  { list := [some bt_binding, none, none], rx_state := .ST_W4_PACKET_TYPE, rx_count := 0,
    rx_skb := none, txq := [], tx_waitq := [], tx_skb := none, ST_TX_SENDING := false,
    ST_TX_WAKEUP := false, ST_REG_IN_PROGRESS := false, ST_REG_PENDING := false, tty := true,
    protoid := ST_MAX, alloc_ok := [], tty_ret := [], trace := [], tty_out := [],
    st_recv := .st_int_recv }

/-- The frame `skb` after `bytes` have been appended to it. -/
def sk_buff.append (skb : sk_buff) (bytes : List Nat) : sk_buff :=
  { skb with data := skb.data ++ bytes, tailroom := skb.tailroom - bytes.length }

/-- The world after the awaited `bytes` have been copied into the frame under
construction `skb`. -/
def World.rx_copied (w : World) (skb : sk_buff) (bytes : List Nat) : World :=
  { w with rx_skb := some (skb.append bytes), rx_count := w.rx_count - bytes.length }

/-- The world after the last awaited `bytes` have been copied into the frame under
construction `skb`: nothing more is awaited. -/
def World.rx_filled (w : World) (skb : sk_buff) (bytes : List Nat) : World :=
  { w with rx_skb := some (skb.append bytes), rx_count := 0 }

/-- The world after the tag of class `c` has been read and its frame allocated. -/
def World.rx_tagged (k : Hdr) (w : World) (c : pkt_class) : World :=
  { (alloc_skb w).2 with rx_state := c.hdr_state, rx_count := c.hdr_size k,
                         protoid := c.proto, rx_skb := some ⟨[], c.room k, c.tag k⟩ }

/-- The world after a frame has been handed over or dropped: the assembler waits
for the next tag. -/
def World.rx_reset (w : World) : World :=
  { w with rx_state := .ST_W4_PACKET_TYPE, rx_skb := none, rx_count := 0 }

/-- The world with another registry and another log. -/
def World.relog (w : World) (l : List (Option st_proto_s)) (t : List Event) : World :=
  { w with list := l, trace := t }

/-- The world without its registry and its log: what the control flow of the
engine depends on. -/
def World.untraced (w : World) : World :=
  { w with list := [], trace := [] }

/-- Forgets the registry and the log in the result of a pass of the receive loop. -/
def Iter.untraced : Iter → Iter
  | .cont w p => .cont w.untraced p
  | .ret w => .ret w.untraced
  | .fault e => .fault e

/-- The world `idle_world` is in after the tag of an event packet and the first
byte of its header. -/
def mid_header_world : World :=
  { idle_world with rx_state := .ST_BT_W4_EVENT_HDR, rx_count := 1,
                    rx_skb := some ⟨[1], 1027, 4⟩, protoid := ST_BT }

/-- A step on the transmit side: a call of `st_int_enqueue` (with the link state it
reads), a wake-up acknowledge handled by `st_wakeup_ack`, or a call of
`st_tx_wakeup`. -/
inductive TxOp
  | enqueue (ll : ll_state_t) (skb : sk_buff)
  | wake_ack (cmd : Nat)
  | pump

/-- Runs a sequence of transmit-side steps. -/
def tx_run (k : Hdr) : World → List TxOp → Except Fault World
  | w, [] => .ok w
  | w, .enqueue ll skb :: ops => tx_run k (st_int_enqueue w ll skb) ops
  | w, .wake_ack cmd :: ops =>
    match st_wakeup_ack k w cmd with
    | .ok w1 => tx_run k w1 ops
    | .error e => .error e
  | w, .pump :: ops =>
    match st_tx_wakeup k w with
    | .ok w1 => tx_run k w1 ops
    | .error e => .error e

/-- Whether `st_int_enqueue` keeps a frame submitted in this link state. -/
def ll_state_t.queues : ll_state_t → Bool
  | .ST_LL_AWAKE => true
  | .ST_LL_ASLEEP_TO_AWAKE => true
  | .ST_LL_ASLEEP => true
  | .ST_LL_AWAKE_TO_ASLEEP => false
  | .other _ => false

/-- The frames submitted by a sequence of steps and not discarded, in submission
order. -/
def tx_accepted : List TxOp → List sk_buff
  | [] => []
  | .enqueue ll skb :: ops => if ll.queues then skb :: tx_accepted ops else tx_accepted ops
  | .wake_ack _ :: ops => tx_accepted ops
  | .pump :: ops => tx_accepted ops

/-- Every frame is submitted while the link is reported Awake, and no wake-up
acknowledge comes in. -/
def AwakeOnly : List TxOp → Prop
  | [] => True
  | .enqueue ll _ :: ops => ll = .ST_LL_AWAKE ∧ AwakeOnly ops
  | .wake_ack _ :: _ => False
  | .pump :: ops => AwakeOnly ops

/-- Along the run, the link is reported Awake to `st_int_enqueue` only while
`tx_waitq` is empty. -/
def TxOrdered (k : Hdr) : World → List TxOp → Prop
  | _, [] => True
  | w, .enqueue ll skb :: ops =>
    (ll = .ST_LL_AWAKE → w.tx_waitq = []) ∧ TxOrdered k (st_int_enqueue w ll skb) ops
  | w, .wake_ack cmd :: ops =>
    match st_wakeup_ack k w cmd with
    | .ok w1 => TxOrdered k w1 ops
    | .error _ => True
  | w, .pump :: ops =>
    match st_tx_wakeup k w with
    | .ok w1 => TxOrdered k w1 ops
    | .error _ => True

/-- Everything the transmit side holds or has written, in the order in which it
goes to the tty if the wait queue is promoted next. -/
def tx_stream (w : World) : List Nat :=
  w.tty_out ++ pending w ++ bytes_of w.tx_waitq

/-- The frame with its first `n` bytes removed. -/
def sk_buff.pulled (skb : sk_buff) (n : Nat) : sk_buff :=
  { skb with data := skb.data.drop n }

/-- The world in which `st_wakeup_ack` calls `st_tx_wakeup`: the wait queue has
been moved behind the send queue and the low-power collaborator has been told. -/
def World.wake_acked (w : World) (cmd : Nat) : World :=
  { w with
    txq := w.txq ++ w.tx_waitq, tx_waitq := [],
    trace := w.trace ++ [.st_ll_sleep_state cmd] }

/-- The world after a write that took only the first `n` bytes of the frame `skb`
that `st_int_dequeue` had returned together with the world `w0`. -/
def World.tx_stalled (w0 : World) (skb : sk_buff) (n : Nat) (rest : List (Int × Bool)) :
    World :=
  { w0 with
    tx_skb := some (skb.pulled n), tty_ret := rest,
    tty_out := w0.tty_out ++ skb.data.take n,
    ST_TX_SENDING := false, ST_TX_WAKEUP := false }

/-- Frames used to instantiate the transmit-side theorems. -/
def frame_a : sk_buff := ⟨[1, 2, 3], 0, 0⟩

/-- Frames used to instantiate the transmit-side theorems. -/
def frame_b : sk_buff := ⟨[4, 5], 0, 0⟩

/-- The engine `idle_world` facing a tty that takes one byte, then nothing, then
two bytes, and everything afterwards. -/
def slow_tty_world : World :=
  { idle_world with tty_ret := [(1, false), (0, false), (2, false)] }

/-- The engine `idle_world` with `frame_a` next to be sent and a tty that takes two
bytes of it. -/
def short_write_world : World :=
  { idle_world with txq := [frame_a, frame_b], tty_ret := [(2, false)] }

/-- The engine `idle_world` with one frame in each queue. -/
def both_queues_world : World :=
  { idle_world with txq := [frame_a], tx_waitq := [frame_b] }

/-- The steps of a run in which a frame submitted later is written first: `frame_a`
is submitted while the link is reported Asleep, `frame_b` while it is reported
Awake, and the wake-up acknowledge comes in after a call of `st_tx_wakeup`. -/
def overtaking_ops : List TxOp :=
  [.enqueue .ST_LL_ASLEEP frame_a, .enqueue .ST_LL_AWAKE frame_b, .pump, .wake_ack 0x33]

/-- The steps of a run that keeps the order condition. -/
def ordered_ops : List TxOp :=
  [.enqueue .ST_LL_ASLEEP frame_a, .enqueue .ST_LL_ASLEEP_TO_AWAKE frame_b, .pump,
    .wake_ack 0x33, .enqueue .ST_LL_AWAKE frame_a]

/-- The engine `idle_world` with an empty registry. -/
def unbound_world : World :=
  { idle_world with list := [none, none, none] }

/-- Modelled from the spec: the status codes are declared in `st.h`, which is not
available, so that their values are parameters; the spec gives `register` the
statuses Success, Pending, AlreadyRegistered, UnsupportedProtocol and Failure, with
"distinct error codes for each" rejection.  The property says that the five
constants that `st_register` and `st_unregister` return have pairwise distinct
values. -/
def Hdr.DistinctCodes (k : Hdr) : Prop :=
  [k.ST_SUCCESS, k.ST_ERR_PENDING, k.ST_ERR_ALREADY, k.ST_ERR_NOPROTO, k.ST_ERR_FAILURE].Nodup

/-- Conversion of an integer to the C type `bool`. -/
def to_bool (x : Int) : Int := if x ≠ 0 then 1 else 0

/-- Source function `is_protocol_list_empty`; its return type is `bool`. -/
def is_protocol_list_empty (k : Hdr) (w : World) : Int :=
  if (List.range ST_MAX).any (fun i => (w.list.getD i none).isSome) then to_bool k.ST_NOTEMPTY
  else to_bool k.ST_EMPTY

/-- The body of the loop of `st_reg_complete` for the index `i`. -/
def reg_complete_at (w : World) (err : Int) (i : Nat) : World :=
  match w.list.getD i none with
  | none => w
  | some p =>
    match p.reg_complete_cb with
    | none => w
    | some cb => w.log (.reg_complete_cb i cb err)

/-- Conversion of an integer to the C type `char`: the value is reduced modulo 256
into the range of 256 values that starts at `CHAR_MIN` (for a signed `char` this is
what gcc does). -/
def to_char (k : Hdr) (x : Int) : Int := (x - k.CHAR_MIN) % 256 + k.CHAR_MIN

/-- Source function `st_reg_complete`.  Its parameter is `char err`: the argument
of the call is converted to `char`, and this is the value each callback gets.  A
callback is an event of the log. -/
def st_reg_complete (k : Hdr) (w : World) (err : Int) : World :=
  (List.range ST_MAX).foldl (fun x i => reg_complete_at x (to_char k err) i) w

/-- The binding as the registry keeps it: `new_proto->write = st_write`. -/
def st_proto_s.stored (p : st_proto_s) : st_proto_s := { p with write := true }

/-- The assignment `st_gdata->list[type] = v`. -/
def World.set_list (w : World) (type : proto_type) (v : Option st_proto_s) : World :=
  { w with list := w.list.set type v }

/-- The first registration once `st_kim_start()` has returned `err` and left the
world `w` (second half of the branch `is_protocol_list_empty() == ST_EMPTY` of
`st_register`). -/
def st_register_started (k : Hdr) (w : World) (p : st_proto_s) (err : Int) : Int × World :=
  if err ≠ k.ST_SUCCESS then
    let w1 := { w with ST_REG_IN_PROGRESS := false }
    if is_protocol_list_empty k w1 ≠ k.ST_EMPTY ∧ w1.ST_REG_PENDING = true then
      (k.ST_ERR_FAILURE, st_reg_complete k w1 k.ST_ERR_FAILURE)
    else (k.ST_ERR_FAILURE, w1)
  else
    let w1 := w.log (.st_kim_chip_toggle p.type k.KIM_GPIO_ACTIVE)
    let w2 := { w1 with ST_REG_IN_PROGRESS := false, st_recv := .st_int_recv }
    let w3 :=
      if is_protocol_list_empty k w2 ≠ k.ST_EMPTY ∧ w2.ST_REG_PENDING = true then
        st_reg_complete k w2 k.ST_SUCCESS
      else w2
    let w4 := { w3 with ST_REG_PENDING := false }
    if (w4.list.getD p.type none).isSome then (k.ST_ERR_ALREADY, w4)
    else (err, w4.set_list p.type (some p.stored))

/-- Source function `st_register`.  `kim` is what happens while `st_kim_start()`
runs with the lock released: the status it returns and the world it leaves behind,
other contexts having possibly called into the engine meanwhile.  With gcc the
enumeration `proto_type` is unsigned, so a protocol id is a natural number. -/
def st_register (k : Hdr) (kim : World → Int × World) (w : World)
    (new_proto : Option st_proto_s) : Int × World :=
  match new_proto with
  | none => (k.ST_ERR_FAILURE, w)
  | some p =>
    if p.recv.isNone ∨ p.reg_complete_cb.isNone then (k.ST_ERR_FAILURE, w)
    else if p.type < ST_BT ∨ ST_MAX ≤ p.type then (k.ST_ERR_NOPROTO, w)
    else if (w.list.getD p.type none).isSome then (k.ST_ERR_ALREADY, w)
    else if w.ST_REG_IN_PROGRESS = true then
      let w1 := w.log (.st_kim_chip_toggle p.type k.KIM_GPIO_ACTIVE)
      let w2 := w1.set_list p.type (some p.stored)
      (k.ST_ERR_PENDING, { w2 with ST_REG_PENDING := true })
    else if is_protocol_list_empty k w = k.ST_EMPTY then
      let w1 := { w with ST_REG_IN_PROGRESS := true, st_recv := .st_kim_recv }
      let w2 := (w1.log .st_ll_enable).log .st_kim_start
      let r := kim w2
      st_register_started k r.2 p r.1
    else if p.type = ST_BT then
      (k.ST_SUCCESS, w.set_list p.type (some p.stored))
    else if p.type = ST_FM ∨ p.type = ST_GPS then
      let w1 := w.log (.st_kim_chip_toggle p.type k.KIM_GPIO_ACTIVE)
      (k.ST_SUCCESS, w1.set_list p.type (some p.stored))
    else
      (k.ST_ERR_NOPROTO, w.set_list p.type (some p.stored))

/-- The block `if (st_gdata->tty) { tty_ldisc_flush(...); stop_tty(...); }` of
`st_unregister`: stops the traffic on the tty. -/
def halt_tty (w : World) : World :=
  if w.tty = true then (w.log .tty_ldisc_flush).log .stop_tty else w

/-- Source function `st_unregister`.  The calls into the tty layer, KIM and the
low-power driver are events of the log. -/
def st_unregister (k : Hdr) (w : World) (type : proto_type) : Int × World :=
  if type < ST_BT ∨ ST_MAX ≤ type then (k.ST_ERR_NOPROTO, w)
  else if (w.list.getD type none).isNone then (k.ST_ERR_NOPROTO, w)
  else
    let w1 := w.set_list type none
    let w2 := w1.log (.st_kim_chip_toggle type k.KIM_GPIO_INACTIVE)
    if is_protocol_list_empty k w2 = k.ST_EMPTY ∧ ¬ w2.ST_REG_PENDING = true then
      (k.ST_SUCCESS, ((halt_tty w2).log .st_kim_stop).log .st_ll_disable)
    else (k.ST_SUCCESS, w2)

/-- A valid FM binding. -/
def fm_binding : st_proto_s := ⟨ST_FM, some (fun _ => 0), some 2, false⟩

/-- A valid binding for the protocol id 99, which is no protocol. -/
def bad_binding : st_proto_s := ⟨99, some (fun _ => 0), some 7, false⟩

/-- A bring-up on its own: `st_kim_start()` returns `err` and nothing else happens. -/
def kim_alone (err : Int) : World → Int × World := fun w => (err, w)

/-- The registry has no binding. -/
def RegistryEmpty (w : World) : Prop := ∀ j : Nat, j < ST_MAX → w.list.getD j none = none

/-- The calls of the shutdown sequence of `st_unregister` in the world `w`. -/
def shutdown_events (w : World) : List Event :=
  (if w.tty = true then [Event.tty_ldisc_flush, Event.stop_tty] else []) ++
    [Event.st_kim_stop, Event.st_ll_disable]

/-- Calls of `st_register` made one after the other with the given bindings; the
result pairs every binding with the status that its call returned. -/
def register_each (k : Hdr) (kim : World → Int × World) :
    World → List st_proto_s → List (st_proto_s × Int) × World
  | w, [] => ([], w)
  | w, p :: ps =>
    let r := st_register k kim w (some p)
    let rs := register_each k kim r.2 ps
    ((p, r.1) :: rs.1, rs.2)

/-- A bring-up during which other protocol stacks call `st_register` with the
bindings `others`, one after the other, before `st_kim_start()` returns `err`. -/
def kim_with (k : Hdr) (kim : World → Int × World) (others : List st_proto_s) (err : Int) :
    World → Int × World :=
  fun w => (err, (register_each k kim w others).2)

/-- The world in which the first registration calls `st_kim_start()`. -/
def World.kim_entered (w : World) : World :=
  (({ w with ST_REG_IN_PROGRESS := true, st_recv := .st_kim_recv }).log .st_ll_enable).log
    .st_kim_start

/-- The callback that `st_reg_complete(err)` invokes for the registry entry `i`. -/
def cb_event (l : List (Option st_proto_s)) (err : Int) (i : Nat) : Option Event :=
  match l.getD i none with
  | none => none
  | some p =>
    match p.reg_complete_cb with
    | none => none
    | some cb => some (.reg_complete_cb i cb err)

/-- The callbacks that `st_reg_complete(err)` invokes, in order. -/
def cb_events (l : List (Option st_proto_s)) (err : Int) : List Event :=
  (List.range ST_MAX).filterMap (cb_event l err)

/-- A freshly initialised engine: nothing registered, no sink assigned. -/
def fresh_world : World := { unbound_world with st_recv := .null }

/-- What calls of `st_register` made while a bring-up is in progress guarantee
between the world `w` they start from and the world `w1` they leave, `rs` being
the bindings with the statuses returned. -/
structure PendingRun (k : Hdr) (w w1 : World) (rs : List (st_proto_s × Int)) : Prop where
  in_progress : w1.ST_REG_IN_PROGRESS = true
  length : w1.list.length = w.list.length
  sink : w1.st_recv = w.st_recv
  trace : ∃ evs, w1.trace = w.trace ++ evs ∧ ∀ i cb e, Event.reg_complete_cb i cb e ∉ evs
  keep : ∀ i b, w.list.getD i none = some b → w1.list.getD i none = some b
  origin : ∀ i b, w1.list.getD i none = some b →
    w.list.getD i none = some b ∨ ∃ q, (q, k.ST_ERR_PENDING) ∈ rs ∧ q.type = i ∧ b = q.stored
  stored : ∀ q, (q, k.ST_ERR_PENDING) ∈ rs →
    q.reg_complete_cb.isSome = true ∧ q.type < ST_MAX ∧
      w1.list.getD q.type none = some q.stored
  flag_keep : w.ST_REG_PENDING = true → w1.ST_REG_PENDING = true
  flag : (∃ q, (q, k.ST_ERR_PENDING) ∈ rs) → w1.ST_REG_PENDING = true

/-- The world a successful bring-up leaves, before the own binding is stored, once
the calls `evs` have been made. -/
def World.bringup_done (w : World) (evs : List Event) : World :=
  { w with ST_REG_IN_PROGRESS := false, ST_REG_PENDING := false, st_recv := .st_int_recv,
           trace := w.trace ++ evs }

/-- The fixed header of every class has at least one byte. -/
def HdrPos (k : Hdr) : Prop := ∀ c : pkt_class, 0 < c.hdr_size k

/-- The receive states that can be observed from the initial one: between two
passes through the loop of `st_int_recv`, when a call of `st_int_recv` returns, and
after anything that leaves the receive state alone. -/
inductive RxObserved (k : Hdr) : World → Prop
  | init (w : World) : RxInit w → RxObserved k w
  | pass (w w1 : World) (data ptr : List Nat) :
      RxObserved k w → data ≠ [] → rx_iter k w data = .cont w1 ptr → RxObserved k w1
  | ret (w w1 : World) (data : List Nat) :
      RxObserved k w → data ≠ [] → rx_iter k w data = .ret w1 → RxObserved k w1
  | recv (w w1 : World) (data : List Nat) :
      RxObserved k w → st_int_recv k w data = .ok w1 → RxObserved k w1
  | other (w w1 : World) :
      RxObserved k w → w1.rx_state = w.rx_state → w1.rx_count = w.rx_count →
      w1.rx_skb = w.rx_skb → w1.protoid = w.protoid → RxObserved k w1

/-- Nothing is awaited only when the assembler waits for a packet tag. -/
def RxIdle (w : World) : Prop := w.rx_count = 0 → w.rx_state = .ST_W4_PACKET_TYPE

/-- The world after an oversized frame has been dropped: the frame `skb` completed
by the bytes `d` is released and the assembler waits for the next tag. -/
def World.rx_dropped (w : World) (skb : sk_buff) (d : List Nat) : World :=
  { w with rx_state := .ST_W4_PACKET_TYPE, rx_skb := none, rx_count := 0,
           trace := w.trace ++ [.kfree_skb (skb.append d)] }

/-- The world in which the assembler has read the tag of an ACL packet and awaits
its header. -/
def acl_header_world : World :=
  { idle_world with rx_state := .ST_BT_W4_ACL_HDR, rx_count := 4,
                    rx_skb := some ⟨[], 1028, 2⟩, protoid := ST_BT }

/-- A step on the queues of the transmit side: a call of `st_int_enqueue` (with the
link state it reads), a wake-up acknowledge handled by `st_wakeup_ack`, a call of
`st_int_dequeue` whose caller keeps the frame returned, or a call of
`st_tx_wakeup`. -/
inductive QOp
  | enqueue (ll : ll_state_t) (skb : sk_buff)
  | wake_ack (cmd : Nat)
  | dequeue
  | pump

/-- Runs a sequence of steps; the second component collects the frames that the
`dequeue` steps handed to their callers. -/
def q_run (k : Hdr) : World → List QOp → Except Fault (World × List sk_buff)
  | w, [] => .ok (w, [])
  | w, .enqueue ll skb :: ops => q_run k (st_int_enqueue w ll skb) ops
  | w, .wake_ack cmd :: ops =>
    match st_wakeup_ack k w cmd with
    | .ok w1 => q_run k w1 ops
    | .error e => .error e
  | w, .dequeue :: ops =>
    match q_run k (st_int_dequeue w).2 ops with
    | .ok r => .ok (r.1, (st_int_dequeue w).1.toList ++ r.2)
    | .error e => .error e
  | w, .pump :: ops =>
    match st_tx_wakeup k w with
    | .ok w1 => q_run k w1 ops
    | .error e => .error e

/-- The frames submitted by a sequence of steps, in submission order. -/
def q_submitted : List QOp → List sk_buff
  | [] => []
  | .enqueue _ skb :: ops => skb :: q_submitted ops
  | .wake_ack _ :: ops => q_submitted ops
  | .dequeue :: ops => q_submitted ops
  | .pump :: ops => q_submitted ops

/-- The frames submitted by a sequence of steps and not discarded by
`st_int_enqueue`, in submission order. -/
def q_accepted : List QOp → List sk_buff
  | [] => []
  | .enqueue ll skb :: ops => if ll.queues then skb :: q_accepted ops else q_accepted ops
  | .wake_ack _ :: ops => q_accepted ops
  | .dequeue :: ops => q_accepted ops
  | .pump :: ops => q_accepted ops

/-- The frames the transmit side holds: the in-flight slot, then the send queue,
then the wait queue. -/
def held (w : World) : List sk_buff := w.tx_skb.toList ++ w.txq ++ w.tx_waitq

/-- Where the accepted frames `acc` are, `taken` being the frames handed out by
`st_int_dequeue` and `n0` the number of bytes that were on the channel at the
start: the frames of the two queues are accepted frames as they were submitted,
the in-flight frame is what is left of an accepted frame whose first bytes are the
last ones written, and an accepted frame that is neither held nor handed out has
all its bytes on the channel. -/
structure TxHeld {α : Type} (key : sk_buff → α) (acc : List sk_buff) (n0 : Nat)
    (taken : List sk_buff) (w : World) : Prop where
  base : n0 ≤ w.tty_out.length
  queued : ∀ s ∈ w.txq ++ w.tx_waitq, s ∈ acc
  inflight : ∀ s, w.tx_skb = some s →
    ∃ f ∈ acc, key f = key s ∧ ∃ p, f.data = p ++ s.data ∧ p <:+ w.tty_out.drop n0
  gone : ∀ f ∈ acc, key f ∉ (held w ++ taken).map key → f.data <:+: w.tty_out.drop n0

/-- The loop `while (count)` of `st_int_recv` together with the input that is left
unread when the function returns: nothing when the loop ends, and at the `return`
of an allocation failure the bytes behind the tag, which `ptr++; count--` has just
passed. -/
def st_int_recv_left (k : Hdr) : Nat → World → List Nat → Except Fault (World × List Nat)
  | _, w, [] => .ok (w, [])
  | 0, _, _ :: _ => .error .out_of_fuel
  | fuel + 1, w, b :: r =>
    match rx_iter k w (b :: r) with
    | .cont w1 ptr => st_int_recv_left k fuel w1 ptr
    | .ret w1 => .ok (w1, r)
    | .fault e => .error e

/-- The world after the tag of class `c` has been read and the allocation of its
frame has failed: the answer of the allocator is used up, the static `protoid`
names the protocol of the class, and the assembler waits for the next tag. -/
def World.rx_alloc_failed (w : World) (c : pkt_class) : World :=
  { (alloc_skb w).2 with rx_state := .ST_W4_PACKET_TYPE, rx_count := 0,
                         protoid := c.proto, rx_skb := none }

/-- The engine `idle_world` when the next frame allocation fails. -/
def no_memory_world : World := { idle_world with alloc_ok := [false] }

/-- The first run of the inner loop of `st_tx_wakeup` when the function finds
`ST_TX_SENDING` clear: the flag is set, the latch `ST_TX_WAKEUP` is cleared and the
send queue is drained. -/
def tx_first_drain (k : Hdr) (w : World) : Except Fault World :=
  st_tx_drain k (w.txq.length + 2) { w with ST_TX_SENDING := true, ST_TX_WAKEUP := false }

/-- The engine `idle_world` with two frames to send and a tty that takes two bytes
of the first write, during which `st_tx_wakeup` is invoked from another context. -/
def latched_world : World :=
  { idle_world with txq := [frame_a, frame_b], tty_ret := [(2, true)] }

/-- A valid FM binding of another protocol stack. -/
def fm_rival : st_proto_s := ⟨ST_FM, some (fun _ => 1), some 5, false⟩

/-- The world `idle_world` is in after the tag and the header of an ACL packet that
declares three payload bytes, and the first of these bytes. -/
def acl_payload_world : World :=
  { idle_world with rx_state := .ST_BT_W4_DATA, rx_count := 2,
                    rx_skb := some ⟨[0x01, 0x20, 0x03, 0x00, 0xAA], 1023, 2⟩, protoid := ST_BT }

/-- The world after a header-only frame has been handed over: the frame `skb`
completed by the bytes `d` has gone to the registry, which has made the calls
`evs`, and the assembler waits for the next tag. -/
def World.rx_dispatched (w : World) (evs : List Event) : World :=
  { w with rx_state := .ST_W4_PACKET_TYPE, rx_skb := none, rx_count := 0,
           trace := w.trace ++ evs }



/-! ## Transmit side: basic facts -/

theorem bytes_of_append (p q : List sk_buff) : bytes_of (p ++ q) = bytes_of p ++ bytes_of q := by
  induction p with
  | nil => rfl
  | cons s p ih => simp [bytes_of, ih]

theorem waitq_to_txq_eq (q wq : List sk_buff) : waitq_to_txq q wq = q ++ wq := by
  induction wq generalizing q with
  | nil => simp [waitq_to_txq]
  | cons s r ih => simp [waitq_to_txq, ih]

theorem TxStep_refl (w : World) : TxStep w w :=
  ⟨rfl, rfl, rfl, le_refl _, fun h => Or.inl h⟩

theorem TxStep_trans {a b c : World} (h1 : TxStep a b) (h2 : TxStep b c) : TxStep a c where
  erase := h2.erase.trans h1.erase
  sending := h2.sending.trans h1.sending
  bytes := h2.bytes.trans h1.bytes
  ret_le := le_trans h2.ret_le h1.ret_le
  wake := by
    intro h
    rcases h2.wake h with h3 | h3
    · rcases h1.wake h3 with h4 | h4
      · exact Or.inl h4
      · exact Or.inr (lt_of_le_of_lt h2.ret_le h4)
    · exact Or.inr (lt_of_lt_of_le h3 h1.ret_le)

theorem tx_erase_tty {w w1 : World} (h : w1.tx_erase = w.tx_erase) : w1.tty = w.tty := by
  have := congrArg World.tty h
  simpa [World.tx_erase] using this

theorem st_int_write_pull (k : Hdr) (w : World) (skb : sk_buff) (ht : w.tty = true) :
    (st_int_write k w skb.data).2.tx_erase = w.tx_erase ∧
    (st_int_write k w skb.data).2.ST_TX_SENDING = w.ST_TX_SENDING ∧
    (st_int_write k w skb.data).2.txq = w.txq ∧
    (st_int_write k w skb.data).2.tx_skb = w.tx_skb ∧
    (st_int_write k w skb.data).2.tty_out ++ (skb_pull skb (st_int_write k w skb.data).1).data
      = w.tty_out ++ skb.data ∧
    (st_int_write k w skb.data).2.tty_ret.length ≤ w.tty_ret.length ∧
    ((st_int_write k w skb.data).2.ST_TX_WAKEUP = true →
      w.ST_TX_WAKEUP = true ∨ (st_int_write k w skb.data).2.tty_ret.length < w.tty_ret.length) := by
  unfold st_int_write
  simp only [ht]
  cases hr : w.tty_ret with
  | nil =>
    simp [World.tx_erase, skb_pull, ht]
  | cons x rest =>
    obtain ⟨r, wake⟩ := x
    simp only [World.tx_erase, skb_pull]
    refine ⟨by simp [ht], rfl, rfl, rfl, ?_, by simp, ?_⟩
    · by_cases h0 : 0 ≤ min r (skb.data.length : Int)
      · have : min r (skb.data.length : Int) ≤ skb.data.length := min_le_right _ _
        simp [h0]
      · have h1 : (min r (skb.data.length : Int)).toNat = 0 := by
          apply Int.toNat_eq_zero.mpr; omega
        simp [h0, h1]
    · intro h
      simp at h
      rcases h with h | h
      · exact Or.inl h
      · right; simp

theorem st_int_dequeue_none (w w1 : World) (h : st_int_dequeue w = (none, w1)) :
    w1 = w ∧ w.tx_skb = none ∧ w.txq = [] := by
  unfold st_int_dequeue at h
  split at h
  · simp at h
  · split at h
    · simp at h; subst h; simp [*]
    · simp at h

theorem st_int_dequeue_some (w w1 : World) (s : sk_buff) (h : st_int_dequeue w = (some s, w1)) :
    w1.tx_erase = w.tx_erase ∧ w1.ST_TX_SENDING = w.ST_TX_SENDING ∧
    w1.ST_TX_WAKEUP = w.ST_TX_WAKEUP ∧ w1.tty_ret = w.tty_ret ∧ w1.tty_out = w.tty_out ∧
    w1.tx_skb = none ∧ s.data ++ bytes_of w1.txq = pending w ∧
    w1.txq.length + 1 = w.txq.length + (if w.tx_skb.isSome then 1 else 0) := by
  unfold st_int_dequeue at h
  split at h
  · rename_i s0 hs
    simp at h
    obtain ⟨h1, h2⟩ := h
    subst h1 h2
    simp [World.tx_erase, pending, hs]
  · rename_i hs
    split at h
    · simp at h
    · rename_i s0 q hq
      simp at h
      obtain ⟨h1, h2⟩ := h
      subst h1 h2
      simp [World.tx_erase, pending, hs, hq, bytes_of]

theorem st_tx_drain_step (k : Hdr) (fuel : Nat) (w w1 : World)
    (h : st_tx_drain k fuel w = .ok w1) : TxStep w w1 := by
  induction fuel generalizing w w1 with
  | zero => simp [st_tx_drain] at h
  | succ f ih =>
    unfold st_tx_drain at h
    split at h
    · rename_i w0 hd
      simp at h
      subst h
      rw [(st_int_dequeue_none _ _ hd).1]
      exact TxStep_refl _
    · rename_i skb w0 hd
      obtain ⟨he, hsd, hwk, hret, hout, hskb, hb, -⟩ := st_int_dequeue_some _ _ _ hd
      split at h
      · simp at h
      · rename_i ht
        simp at ht
        obtain ⟨he2, hsd2, hq2, hts2, hb2, hle2, hwk2⟩ := st_int_write_pull k w0 skb ht
        simp only at h
        split at h
        · simp at h
          subst h
          refine ⟨?_, ?_, ?_, ?_, ?_⟩
          · rw [← he, ← he2]; simp [World.tx_erase]
          · simp [hsd2, hsd]
          · show _ ++ ((skb_pull skb _).data ++ bytes_of _) = _
            rw [hq2, ← List.append_assoc, hb2, hout, List.append_assoc, hb]
          · rw [← hret]; exact hle2
          · intro h'
            simp only at h'
            rw [← hret, ← hwk]
            exact hwk2 h'
        · rename_i hz
          simp at hz
          refine TxStep_trans ⟨?_, ?_, ?_, ?_, ?_⟩ (ih _ _ h)
          · rw [← he, ← he2]
          · simp [hsd2, hsd]
          · rw [← hb]
            simp only [pending, hq2, hts2, hskb]
            rw [hz] at hb2
            simp only [List.append_nil] at hb2
            rw [hb2, hout]
            simp
          · rw [← hret]; exact hle2
          · intro h'
            rw [← hret, ← hwk]
            exact hwk2 h'

theorem st_tx_drain_total (k : Hdr) (fuel : Nat) (w : World) (ht : w.tty = true)
    (hf : w.txq.length + (if w.tx_skb.isSome then 1 else 0) < fuel) :
    ∃ w1, st_tx_drain k fuel w = .ok w1 := by
  induction fuel generalizing w with
  | zero => omega
  | succ f ih =>
    unfold st_tx_drain
    split
    · exact ⟨_, rfl⟩
    · rename_i skb w0 hd
      obtain ⟨he, hsd, hwk, hret, hout, hskb, hb, hlen⟩ := st_int_dequeue_some _ _ _ hd
      have ht0 : w0.tty = true := (tx_erase_tty he).trans ht
      obtain ⟨he2, hsd2, hq2, hts2, hb2, hle2, hwk2⟩ := st_int_write_pull k w0 skb ht0
      simp only [ht0]
      rw [if_neg (by simp)]
      split
      · exact ⟨_, rfl⟩
      · apply ih
        · exact (tx_erase_tty he2).trans ht0
        · rw [hq2, hts2, hskb]; simp; omega

theorem st_tx_pass_step (k : Hdr) (fuel : Nat) (w w1 : World)
    (h : st_tx_pass k fuel w = .ok w1) :
    w1.tx_erase = w.tx_erase ∧ w1.ST_TX_SENDING = w.ST_TX_SENDING ∧
    w1.tty_out ++ pending w1 = w.tty_out ++ pending w ∧ w1.ST_TX_WAKEUP = false := by
  induction fuel generalizing w w1 with
  | zero => simp [st_tx_pass] at h
  | succ f ih =>
    unfold st_tx_pass at h
    simp only at h
    split at h
    · simp at h
    · rename_i w2 hd
      have hs := st_tx_drain_step _ _ _ _ hd
      have e1 : w2.tx_erase = w.tx_erase := by rw [hs.erase]; simp [World.tx_erase]
      have e2 : w2.ST_TX_SENDING = w.ST_TX_SENDING := by rw [hs.sending]
      have e3 : w2.tty_out ++ pending w2 = w.tty_out ++ pending w := by rw [hs.bytes]; rfl
      split at h
      · obtain ⟨a, b, c, d⟩ := ih _ _ h
        exact ⟨a.trans e1, b.trans e2, c.trans e3, d⟩
      · rename_i hw
        simp at h
        subst h
        exact ⟨e1, e2, e3, by simpa using hw⟩

theorem st_tx_pass_total (k : Hdr) (fuel : Nat) (w : World) (ht : w.tty = true)
    (hf : w.tty_ret.length < fuel) :
    ∃ w1, st_tx_pass k fuel w = .ok w1 := by
  induction fuel generalizing w with
  | zero => omega
  | succ f ih =>
    unfold st_tx_pass
    simp only
    obtain ⟨w2, hd⟩ := st_tx_drain_total k ({ w with ST_TX_WAKEUP := false }.txq.length + 2)
      { w with ST_TX_WAKEUP := false } ht (by simp only; split <;> omega)
    rw [hd]
    simp only
    have hs := st_tx_drain_step _ _ _ _ hd
    split
    · rename_i hw
      apply ih
      · rw [tx_erase_tty hs.erase]; exact ht
      · rcases hs.wake hw with h1 | h1
        · simp at h1
        · simp only at h1; omega
    · exact ⟨_, rfl⟩


theorem tx_erase_fields {w w1 : World} (h : w1.tx_erase = w.tx_erase) :
    w1.list = w.list ∧ w1.rx_state = w.rx_state ∧ w1.rx_count = w.rx_count ∧
    w1.rx_skb = w.rx_skb ∧ w1.protoid = w.protoid ∧ w1.alloc_ok = w.alloc_ok ∧
    w1.trace = w.trace ∧ w1.tx_waitq = w.tx_waitq ∧ w1.tty = w.tty := by
  have h1 := congrArg World.list h
  have h2 := congrArg World.rx_state h
  have h3 := congrArg World.rx_count h
  have h4 := congrArg World.rx_skb h
  have h5 := congrArg World.protoid h
  have h6 := congrArg World.alloc_ok h
  have h7 := congrArg World.trace h
  have h8 := congrArg World.tx_waitq h
  have h9 := congrArg World.tty h
  simp only [World.tx_erase] at h1 h2 h3 h4 h5 h6 h7 h8 h9
  exact ⟨h1, h2, h3, h4, h5, h6, h7, h8, h9⟩

theorem st_tx_wakeup_step (k : Hdr) (w w1 : World) (h : st_tx_wakeup k w = .ok w1) :
    w1.tx_erase = w.tx_erase ∧ w1.tty_out ++ pending w1 = w.tty_out ++ pending w := by
  unfold st_tx_wakeup at h
  split at h
  · simp at h
    subst h
    exact ⟨by simp [World.tx_erase], rfl⟩
  · split at h
    · simp at h
    · rename_i w2 hp
      simp at h
      subst h
      obtain ⟨a, b, c, d⟩ := st_tx_pass_step _ _ _ _ hp
      refine ⟨?_, ?_⟩
      · rw [← show ({ w with ST_TX_SENDING := true } : World).tx_erase = w.tx_erase from rfl, ← a]
        simp [World.tx_erase]
      · exact c

theorem st_tx_wakeup_idle (k : Hdr) (w : World) (ht : w.tty = true)
    (hs : w.ST_TX_SENDING = false) :
    ∃ w1, st_tx_wakeup k w = .ok w1 ∧ w1.ST_TX_SENDING = false ∧ w1.ST_TX_WAKEUP = false := by
  unfold st_tx_wakeup
  simp only [hs]
  obtain ⟨w2, hp⟩ := st_tx_pass_total k (w.tty_ret.length + 1) { w with ST_TX_SENDING := true }
    ht (by simp)
  obtain ⟨a, b, c, d⟩ := st_tx_pass_step _ _ _ _ hp
  simp [hp, d]

theorem st_tx_wakeup_total (k : Hdr) (w : World) (ht : w.tty = true) :
    ∃ w1, st_tx_wakeup k w = .ok w1 := by
  cases hs : w.ST_TX_SENDING with
  | false =>
    obtain ⟨w1, h, -⟩ := st_tx_wakeup_idle k w ht hs
    exact ⟨w1, h⟩
  | true => exact ⟨{ w with ST_TX_WAKEUP := true }, by simp [st_tx_wakeup, hs]⟩

theorem st_wakeup_ack_eq (k : Hdr) (w : World) (cmd : Nat) :
    st_wakeup_ack k w cmd =
      st_tx_wakeup k { w with txq := w.txq ++ w.tx_waitq, tx_waitq := [],
                              trace := w.trace ++ [.st_ll_sleep_state cmd] } := by
  simp [st_wakeup_ack, waitq_to_txq_eq, World.log]

theorem st_wakeup_ack_step (k : Hdr) (w w1 : World) (cmd : Nat)
    (h : st_wakeup_ack k w cmd = .ok w1) :
    w1.list = w.list ∧ w1.rx_state = w.rx_state ∧ w1.rx_count = w.rx_count ∧
    w1.rx_skb = w.rx_skb ∧ w1.protoid = w.protoid ∧ w1.alloc_ok = w.alloc_ok ∧
    w1.trace = w.trace ++ [.st_ll_sleep_state cmd] ∧ w1.tx_waitq = [] ∧ w1.tty = w.tty ∧
    w1.tty_out ++ pending w1 = w.tty_out ++ pending w ++ bytes_of w.tx_waitq := by
  rw [st_wakeup_ack_eq] at h
  obtain ⟨a, b⟩ := st_tx_wakeup_step _ _ _ h
  obtain ⟨h1, h2, h3, h4, h5, h6, h7, h8, h9⟩ := tx_erase_fields a
  refine ⟨h1, h2, h3, h4, h5, h6, h7, h8, h9, ?_⟩
  rw [b]
  simp [pending, bytes_of_append]

theorem RxStep_refl (k : Hdr) (w : World) : RxStep k (RxInv k w) w w :=
  ⟨rfl, ⟨[], by simp, by simp⟩, id, id, rfl⟩

theorem RxStep_trans {k : Hdr} {P : Prop} {a b c : World} (h1 : RxStep k P a b)
    (h2 : RxStep k (RxInv k b) b c) : RxStep k P a c where
  list := h2.list.trans h1.list
  trace := by
    obtain ⟨e1, t1, p1⟩ := h1.trace
    obtain ⟨e2, t2, p2⟩ := h2.trace
    refine ⟨e1 ++ e2, by rw [t2, t1, List.append_assoc], ?_⟩
    intro p s hm
    rcases List.mem_append.mp hm with hm | hm
    · exact p1 p s hm
    · obtain ⟨x, y⟩ := p2 p s hm
      exact ⟨h1.list ▸ x, fun hi => y (h1.inv hi)⟩
  inv := fun hi => h2.inv (h1.inv hi)
  alloc := fun ha => h2.alloc (h1.alloc ha)
  tty := h2.tty.trans h1.tty

theorem RxStep.weaken {k : Hdr} {P Q : Prop} {a b : World} (h : RxStep k P a b)
    (hq : Q → P) : RxStep k Q a b where
  list := h.list
  trace := by
    obtain ⟨e1, t1, p1⟩ := h.trace
    exact ⟨e1, t1, fun p s hm => ⟨(p1 p s hm).1, fun q => (p1 p s hm).2 (hq q)⟩⟩
  inv := fun q => h.inv (hq q)
  alloc := h.alloc
  tty := h.tty

theorem st_send_frame_ok (k : Hdr) (w w1 : World) (p : proto_type) (skb : Option sk_buff)
    (h : st_send_frame k w p skb = .ok w1) :
    ∃ evs, w1 = { w with trace := w.trace ++ evs } ∧
      ∀ q t, Event.recv q t ∈ evs → q = p ∧ skb = some t ∧ Bound w.list p := by
  unfold st_send_frame at h
  split at h
  · simp at h; subst h; exact ⟨[], by simp, by simp⟩
  · rename_i s
    split at h
    · simp at h
    · split at h
      · simp at h; subst h
        exact ⟨[.kfree_skb s], by simp [World.log], by simp⟩
      · rename_i b hb
        split at h
        · rename_i f hf
          simp only at h
          split at h
          · simp at h; subst h
            refine ⟨[.recv p s, .kfree_skb s], by simp [World.log], ?_⟩
            intro q t hm
            simp at hm
            exact ⟨hm.1, by rw [hm.2], b, f, hb, hf⟩
          · simp at h; subst h
            refine ⟨[.recv p s], by simp [World.log], ?_⟩
            intro q t hm
            simp at hm
            exact ⟨hm.1, by rw [hm.2], b, f, hb, hf⟩
        · simp at h; subst h
          exact ⟨[.kfree_skb s], by simp [World.log], by simp⟩

theorem RxInv_of_fields {k : Hdr} {w w1 : World} (h1 : w1.rx_state = w.rx_state)
    (h2 : w1.rx_count = w.rx_count) (h3 : w1.rx_skb = w.rx_skb) (h4 : w1.protoid = w.protoid)
    (h : RxInv k w) : RxInv k w1 := by
  unfold RxInv RxBody at *
  rw [h1, h2, h3, h4]
  exact h

theorem RxInv_of_zero {k : Hdr} {w : World} (h : w.rx_count = 0) : RxInv k w := by
  intro h1
  exact absurd h h1

theorem AllocOk_tail {w : World} {b : Bool} {rest : List Bool} (h : w.alloc_ok = b :: rest)
    (ha : AllocOk w) : b = true ∧ ∀ x ∈ rest, x = true := by
  unfold AllocOk at ha
  rw [h] at ha
  exact ⟨ha b (by simp), fun x hx => ha x (by simp [hx])⟩

theorem alloc_skb_cases (w : World) :
    (alloc_skb w = (true, w) ∧ w.alloc_ok = []) ∨
    (∃ b rest, w.alloc_ok = b :: rest ∧ alloc_skb w = (b, { w with alloc_ok := rest })) := by
  unfold alloc_skb
  cases h : w.alloc_ok with
  | nil => left; simp
  | cons b rest => right; exact ⟨b, rest, rfl, rfl⟩

/-- What the tag of class `c` followed by the frame allocation does. -/
theorem rx_alloc_class (k : Hdr) (w0 : World) (c : pkt_class) (ptr : List Nat) :
    (∃ w1, alloc_skb w0 = (true, w1) ∧
      rx_alloc k { w0 with rx_state := c.hdr_state, rx_count := c.hdr_size k,
                           protoid := c.proto } (c.tag k) ptr
        = .cont { w1 with rx_state := c.hdr_state, rx_count := c.hdr_size k,
                          protoid := c.proto,
                          rx_skb := some ⟨[], c.room k, c.tag k⟩ } ptr) ∨
    (∃ w1, alloc_skb w0 = (false, w1) ∧
      rx_alloc k { w0 with rx_state := c.hdr_state, rx_count := c.hdr_size k,
                           protoid := c.proto } (c.tag k) ptr
        = .ret { w1 with rx_state := .ST_W4_PACKET_TYPE, rx_count := 0,
                         protoid := c.proto, rx_skb := none }) := by
  cases hw : w0.alloc_ok with
  | nil =>
    left
    refine ⟨w0, by simp [alloc_skb, hw], ?_⟩
    cases c <;> simp [rx_alloc, alloc_skb, hw, pkt_class.proto, pkt_class.hdr_state,
      pkt_class.hdr_size, pkt_class.tag, pkt_class.room, ST_BT, ST_FM, ST_GPS]
  | cons b rest =>
    cases b with
    | true =>
      left
      refine ⟨{ w0 with alloc_ok := rest }, by simp [alloc_skb, hw], ?_⟩
      cases c <;> simp [rx_alloc, alloc_skb, hw, pkt_class.proto, pkt_class.hdr_state,
        pkt_class.hdr_size, pkt_class.tag, pkt_class.room, ST_BT, ST_FM, ST_GPS]
    | false =>
      right
      refine ⟨{ w0 with alloc_ok := rest }, by simp [alloc_skb, hw], ?_⟩
      cases c <;> simp [rx_alloc, alloc_skb, hw, pkt_class.proto, pkt_class.hdr_state,
        pkt_class.hdr_size, pkt_class.tag, pkt_class.room, ST_BT, ST_FM, ST_GPS]

theorem rx_tag_cases (k : Hdr) (w : World) (b : Nat) (ptr : List Nat) :
    (∃ c : pkt_class, b = c.tag k ∧
      rx_tag k w b ptr =
        rx_alloc k { w with rx_state := c.hdr_state, rx_count := c.hdr_size k,
                            protoid := c.proto } (c.tag k) ptr) ∨
    (rx_tag k w b ptr = .cont (w.log (.st_ll_sleep_state b)) ptr) ∨
    (rx_tag k w b ptr =
      match st_wakeup_ack k w b with
      | .error e => .fault e
      | .ok w1 => .cont w1 ptr) ∨
    (rx_tag k w b ptr = .cont w ptr) := by
  unfold rx_tag
  by_cases h1 : b = k.HCI_EVENT_PKT
  · left; exact ⟨.event, h1, by simp only [if_pos h1]; rfl⟩
  by_cases h2 : b = k.HCI_ACLDATA_PKT
  · left; exact ⟨.acl, h2, by simp only [if_neg h1, if_pos h2]; rfl⟩
  by_cases h3 : b = k.HCI_SCODATA_PKT
  · left; exact ⟨.sco, h3, by simp only [if_neg h1, if_neg h2, if_pos h3]; rfl⟩
  by_cases h4 : b = k.ST_FM_CH8_PKT
  · left; exact ⟨.fm, h4, by simp only [if_neg h1, if_neg h2, if_neg h3, if_pos h4]; rfl⟩
  by_cases h5 : b = 0x9
  · left
    exact ⟨.gps, h5, by simp only [if_neg h1, if_neg h2, if_neg h3, if_neg h4, if_pos h5]; rfl⟩
  simp only [if_neg h1, if_neg h2, if_neg h3, if_neg h4, if_neg h5]
  by_cases h6 : b = k.LL_SLEEP_IND ∨ b = k.LL_SLEEP_ACK ∨ b = k.LL_WAKE_UP_IND
  · right; left; simp only [if_pos h6]
  simp only [if_neg h6]
  by_cases h7 : b = k.LL_WAKE_UP_ACK
  · right; right; left; simp only [if_pos h7]
  · right; right; right; simp only [if_neg h7]

theorem AllocOk_of_eq {w w1 : World} (h : w1.alloc_ok = w.alloc_ok) (ha : AllocOk w) :
    AllocOk w1 := by
  unfold AllocOk at *
  rw [h]; exact ha

/-- Effect of the tag switch on a world. -/
theorem rx_tag_step (k : Hdr) (w : World) (b : Nat) (ptr : List Nat) :
    match rx_tag k w b ptr with
    | .cont w1 p => p = ptr ∧ RxStep k (RxInv k w) w w1
    | .ret w1 => RxStep k (RxInv k w) w w1 ∧ ¬ AllocOk w
    | .fault _ => w.tty = false := by
  rcases rx_tag_cases k w b ptr with ⟨c, -, h⟩ | h | h | h
  · rw [h]
    rcases alloc_skb_cases w with ⟨ha, hnil⟩ | ⟨x, rest, hcons, ha⟩
    · rcases rx_alloc_class k w c ptr with ⟨w1, h1, h2⟩ | ⟨w1, h1, h2⟩
      · rw [ha] at h1
        simp at h1
        subst h1
        rw [h2]
        refine ⟨rfl, rfl, ⟨[], by simp, by simp⟩, ?_, id, rfl⟩
        intro _ _
        exact ⟨_, c, rfl, rfl, rfl, by simp, Or.inl ⟨rfl, by simp⟩⟩
      · rw [ha] at h1
        simp at h1
    · rcases rx_alloc_class k w c ptr with ⟨w1, h1, h2⟩ | ⟨w1, h1, h2⟩
      · rw [ha] at h1
        simp at h1
        obtain ⟨hx, h1⟩ := h1
        subst h1
        rw [h2]
        refine ⟨rfl, rfl, ⟨[], by simp, by simp⟩, ?_, ?_, rfl⟩
        · intro _ _
          exact ⟨_, c, rfl, rfl, rfl, by simp, Or.inl ⟨rfl, by simp⟩⟩
        · intro hok
          exact (AllocOk_tail hcons hok).2
      · rw [ha] at h1
        simp at h1
        obtain ⟨hx, h1⟩ := h1
        subst h1
        rw [h2]
        refine ⟨⟨rfl, ⟨[], by simp, by simp⟩, ?_, ?_, rfl⟩, ?_⟩
        · intro _
          exact RxInv_of_zero rfl
        · intro hok
          exact (AllocOk_tail hcons hok).2
        · intro hok
          have := (AllocOk_tail hcons hok).1
          rw [hx] at this
          exact absurd this (by simp)
  · rw [h]
    refine ⟨rfl, rfl, ⟨[_], rfl, by simp⟩, ?_, id, rfl⟩
    exact RxInv_of_fields rfl rfl rfl rfl
  · rw [h]
    cases hs : st_wakeup_ack k w b with
    | error e =>
      simp only
      cases ht : w.tty with
      | false => rfl
      | true =>
        rw [st_wakeup_ack_eq] at hs
        obtain ⟨w1, h1⟩ := st_tx_wakeup_total k _ (show World.tty { w with
          txq := w.txq ++ w.tx_waitq, tx_waitq := [],
          trace := w.trace ++ [.st_ll_sleep_state b] } = true from ht)
        rw [h1] at hs
        simp at hs
    | ok w1 =>
      obtain ⟨h1, h2, h3, h4, h5, h6, h7, -, h9, -⟩ := st_wakeup_ack_step k w w1 b hs
      refine ⟨rfl, h1, ⟨[_], h7, by simp⟩, ?_, AllocOk_of_eq h6, h9⟩
      exact RxInv_of_fields h2 h3 h4 h5
  · rw [h]
    exact ⟨rfl, RxStep_refl k w⟩

theorem proto_lt_max (c : pkt_class) : c.proto < ST_MAX := by
  cases c <;> simp [pkt_class.proto, ST_MAX, ST_BT, ST_FM, ST_GPS]

theorem st_send_frame_total (k : Hdr) (w : World) (p : proto_type) (skb : Option sk_buff)
    (hp : p < ST_MAX) : ∃ w1, st_send_frame k w p skb = .ok w1 := by
  unfold st_send_frame
  have hlt : ¬ ST_MAX ≤ p := Nat.not_le.mpr hp
  cases skb with
  | none => exact ⟨_, rfl⟩
  | some s =>
    simp only [hlt, if_false]
    cases w.list.getD p none with
    | none => exact ⟨_, rfl⟩
    | some b =>
      simp only
      cases b.recv with
      | none => exact ⟨_, rfl⟩
      | some f =>
        simp only
        split
        · exact ⟨_, rfl⟩
        · exact ⟨_, rfl⟩

theorem st_check_data_len_total (k : Hdr) (w : World) (p : proto_type) (len : Nat)
    (skb : sk_buff) (hs : w.rx_skb = some skb) (hp : p < ST_MAX) :
    ∃ r, st_check_data_len k w p len = .ok r := by
  unfold st_check_data_len
  rw [hs]
  simp only
  split
  · obtain ⟨w1, h1⟩ := st_send_frame_total k w p (some skb) hp
    rw [h1]
    exact ⟨_, rfl⟩
  · split
    · exact ⟨_, rfl⟩
    · exact ⟨_, rfl⟩

theorem st_check_data_len_ok (k : Hdr) (w w1 : World) (p : proto_type) (len n : Nat)
    (h : st_check_data_len k w p len = .ok (n, w1)) :
    ∃ skb, w.rx_skb = some skb ∧
      ((len = 0 ∧ n = 0 ∧ ∃ evs,
          w1 = { w with trace := w.trace ++ evs, rx_state := .ST_W4_PACKET_TYPE,
                        rx_skb := none, rx_count := 0 } ∧
          ∀ q t, Event.recv q t ∈ evs → q = p ∧ t = skb ∧ Bound w.list p) ∨
       (len ≠ 0 ∧ skb.tailroom < len ∧ n = 0 ∧
          w1 = { w with trace := w.trace ++ [.kfree_skb skb], rx_state := .ST_W4_PACKET_TYPE,
                        rx_skb := none, rx_count := 0 }) ∨
       (len ≠ 0 ∧ len ≤ skb.tailroom ∧ n = len ∧
          w1 = { w with rx_state := .ST_BT_W4_DATA, rx_count := len })) := by
  unfold st_check_data_len at h
  split at h
  · simp at h
  · rename_i skb hs
    refine ⟨skb, hs, ?_⟩
    simp only at h
    split at h
    · rename_i hz
      split at h
      · simp at h
      · rename_i w2 hsf
        simp at h
        obtain ⟨evs, he, hev⟩ := st_send_frame_ok _ _ _ _ _ hsf
        left
        refine ⟨hz, h.1.symm, evs, ?_, ?_⟩
        · rw [← h.2, he]
        · intro q t hm
          obtain ⟨a, b, c⟩ := hev q t hm
          simp at b
          exact ⟨a, b.symm, c⟩
    · rename_i hz
      split at h
      · rename_i hgt
        simp at h
        right; left
        exact ⟨hz, hgt, h.1.symm, by rw [← h.2]; simp [World.log]⟩
      · rename_i hle
        simp at h
        right; right
        exact ⟨hz, by omega, h.1.symm, h.2.symm⟩

theorem hdr_state_ne_data (c : pkt_class) : c.hdr_state ≠ .ST_BT_W4_DATA := by
  cases c <;> simp [pkt_class.hdr_state]

theorem hdr_state_ne_idle (c : pkt_class) : c.hdr_state ≠ .ST_W4_PACKET_TYPE := by
  cases c <;> simp [pkt_class.hdr_state]

theorem hdr_state_inj {c d : pkt_class} (h : c.hdr_state = d.hdr_state) : c = d := by
  cases c <;> cases d <;> simp [pkt_class.hdr_state] at h <;> rfl

/-- The header of class `c` is complete: effect of `st_check_data_len`. -/
theorem rx_hdr_step (k : Hdr) (w : World) (c : pkt_class) (skb : sk_buff) (p : proto_type)
    (ptr : List Nat) (h0 : w.rx_count = 0) (hs : w.rx_skb = some skb)
    (hst : w.rx_state = c.hdr_state) (hp : RxBody k w → p = c.proto) :
    match rx_continue (st_check_data_len k w p (c.plen k skb.data)) ptr with
    | .cont w1 q => q = ptr ∧ RxStep k (RxBody k w) w w1
    | .ret _ => False
    | .fault _ => ¬ RxBody k w := by
  cases hr : st_check_data_len k w p (c.plen k skb.data) with
  | error e =>
    simp only [rx_continue]
    intro hb
    have hpp := hp hb
    unfold st_check_data_len at hr
    rw [hs] at hr
    simp only at hr
    have hlt : p < ST_MAX := by
      rw [hpp]; exact proto_lt_max c
    obtain ⟨r, hr1⟩ := st_check_data_len_total k w p (c.plen k skb.data) skb hs hlt
    unfold st_check_data_len at hr1
    rw [hs] at hr1
    simp only at hr1
    rw [hr1] at hr
    simp at hr
  | ok r =>
    obtain ⟨n, w1⟩ := r
    simp only [rx_continue]
    refine ⟨by simp, ?_⟩
    obtain ⟨skb1, hs1, hc⟩ := st_check_data_len_ok _ _ _ _ _ _ hr
    rw [hs] at hs1
    simp at hs1
    subst hs1
    have body : RxBody k w → skb.pkt_type = c.tag k ∧ skb.data.length + skb.tailroom = c.room k ∧
        skb.data.length = c.hdr_size k ∧ p = c.proto ∧ w.protoid = c.proto := by
      intro hb
      have hpp := hp hb
      obtain ⟨s2, c2, e1, e2, e3, e4, e5⟩ := hb
      rw [hs] at e1
      simp at e1
      subst e1
      rcases e5 with ⟨e5, e6⟩ | ⟨e5, -⟩
      · rw [hst] at e5
        have := hdr_state_inj e5
        subst this
        exact ⟨e3, e4, by omega, hpp, e2⟩
      · rw [hst] at e5
        exact absurd e5 (hdr_state_ne_data c)
    rcases hc with ⟨hz, -, evs, he, hev⟩ | ⟨hz, hgt, -, he⟩ | ⟨hz, hle, -, he⟩
    · subst he
      refine ⟨rfl, ⟨evs, rfl, ?_⟩, fun _ => RxInv_of_zero rfl, id, rfl⟩
      intro q t hm
      obtain ⟨a, b, d⟩ := hev q t hm
      refine ⟨a ▸ d, ?_⟩
      intro hb
      obtain ⟨b1, b2, b3, b4, b5⟩ := body hb
      subst b
      refine ⟨c, by rw [a, b4], b1, by omega, ?_⟩
      rw [← b3, List.take_length, hz]
      simp
    · subst he
      exact ⟨rfl, ⟨[_], rfl, by simp⟩, fun _ => RxInv_of_zero rfl, id, rfl⟩
    · subst he
      refine ⟨rfl, ⟨[], by simp, by simp⟩, ?_, id, rfl⟩
      intro hb _
      obtain ⟨b1, b2, b3, b4, b5⟩ := body hb
      refine ⟨skb, c, hs, b5, b1, b2, Or.inr ⟨rfl, by omega, ?_, hle⟩⟩
      simp only
      rw [← b3, List.take_length]

theorem rx_tag_at_step (k : Hdr) (w : World) (ptr : List Nat) :
    match rx_tag_at k w ptr with
    | .cont w1 q => q.length < ptr.length ∧ RxStep k (RxInv k w) w w1
    | .ret w1 => RxStep k (RxInv k w) w w1 ∧ ¬ AllocOk w
    | .fault _ => ptr = [] ∨ w.tty = false := by
  cases ptr with
  | nil => simp [rx_tag_at]
  | cons b rest =>
    simp only [rx_tag_at]
    have := rx_tag_step k w b rest
    cases hr : rx_tag k w b rest with
    | cont w1 q =>
      rw [hr] at this
      simp only at this ⊢
      exact ⟨by rw [this.1]; simp, this.2⟩
    | ret w1 => rw [hr] at this; exact this
    | fault e => rw [hr] at this; exact Or.inr this

/-- The awaited bytes are all there: effect of the switch on `rx_state`. -/
theorem rx_complete_step (k : Hdr) (w : World) (ptr : List Nat) (h0 : w.rx_count = 0) :
    match rx_complete k w ptr with
    | .cont w1 q => q.length ≤ ptr.length ∧ RxStep k (RxBody k w) w w1
    | .ret w1 => RxStep k (RxBody k w) w w1 ∧ ¬ AllocOk w
    | .fault _ => ¬ RxBody k w := by
  have hdr : ∀ (c : pkt_class) (p : proto_type), w.rx_state = c.hdr_state →
      (RxBody k w → p = c.proto) →
      match (match w.rx_skb with
        | none => Iter.fault .null_deref
        | some skb => rx_continue (st_check_data_len k w p (c.plen k skb.data)) ptr) with
      | .cont w1 q => q.length ≤ ptr.length ∧ RxStep k (RxBody k w) w w1
      | .ret w1 => RxStep k (RxBody k w) w w1 ∧ ¬ AllocOk w
      | .fault _ => ¬ RxBody k w := by
    intro c p hst hp
    cases hs : w.rx_skb with
    | none =>
      simp only
      intro hb
      obtain ⟨s2, c2, e1, -⟩ := hb
      rw [hs] at e1
      simp at e1
    | some skb =>
      simp only
      have := rx_hdr_step k w c skb p ptr h0 hs hst hp
      cases hr : rx_continue (st_check_data_len k w p (c.plen k skb.data)) ptr with
      | cont w1 q =>
        rw [hr] at this
        simp only at this ⊢
        exact ⟨by rw [this.1], this.2⟩
      | ret w1 => rw [hr] at this; exact absurd this id
      | fault e => rw [hr] at this; exact this
  have bodyp : ∀ c : pkt_class, w.rx_state = c.hdr_state → RxBody k w →
      w.protoid = c.proto := by
    intro c hst hb
    obtain ⟨s2, c2, e1, e2, e3, e4, e5⟩ := hb
    rcases e5 with ⟨e5, -⟩ | ⟨e5, -⟩
    · rw [hst] at e5
      rw [hdr_state_inj e5]; exact e2
    · rw [hst] at e5
      exact absurd e5 (hdr_state_ne_data c)
  unfold rx_complete
  cases hst : w.rx_state with
  | ST_BT_W4_DATA =>
    simp only
    cases hsf : st_send_frame k w w.protoid w.rx_skb with
    | error e =>
      simp only
      intro hb
      obtain ⟨s2, c2, e1, e2, -⟩ := hb
      obtain ⟨w1, h1⟩ := st_send_frame_total k w w.protoid w.rx_skb (e2 ▸ proto_lt_max c2)
      rw [h1] at hsf
      simp at hsf
    | ok w2 =>
      simp only
      obtain ⟨evs, he, hev⟩ := st_send_frame_ok _ _ _ _ _ hsf
      subst he
      refine ⟨le_refl _, rfl, ⟨evs, rfl, ?_⟩, fun _ => RxInv_of_zero h0, id, rfl⟩
      intro q t hm
      obtain ⟨a, b, d⟩ := hev q t hm
      refine ⟨a ▸ d, ?_⟩
      intro hb
      obtain ⟨s2, c2, e1, e2, e3, e4, e5⟩ := hb
      rw [b] at e1
      simp at e1
      subst e1
      rcases e5 with ⟨e5, -⟩ | ⟨-, e6, e7, -⟩
      · rw [hst] at e5
        exact absurd e5.symm (hdr_state_ne_data c2)
      · exact ⟨c2, by rw [a, e2], e3, e6, by omega⟩
  | ST_BT_W4_EVENT_HDR => exact hdr .event w.protoid hst (bodyp .event hst)
  | ST_BT_W4_ACL_HDR => exact hdr .acl w.protoid hst (bodyp .acl hst)
  | ST_BT_W4_SCO_HDR => exact hdr .sco w.protoid hst (bodyp .sco hst)
  | ST_FM_W4_EVENT_HDR => exact hdr .fm ST_FM hst (fun _ => rfl)
  | ST_GPS_W4_EVENT_HDR => exact hdr .gps ST_GPS hst (fun _ => rfl)
  | ST_W4_PACKET_TYPE =>
    simp only
    have := rx_tag_at_step k w ptr
    cases hr : rx_tag_at k w ptr with
    | cont w1 q =>
      rw [hr] at this
      exact ⟨le_of_lt this.1, this.2.weaken (fun _ => RxInv_of_zero h0)⟩
    | ret w1 =>
      rw [hr] at this
      exact ⟨this.1.weaken (fun _ => RxInv_of_zero h0), this.2⟩
    | fault e =>
      simp only
      intro hb
      obtain ⟨s2, c2, e1, e2, e3, e4, e5⟩ := hb
      rcases e5 with ⟨e5, -⟩ | ⟨e5, -⟩
      · rw [hst] at e5
        exact absurd e5.symm (hdr_state_ne_idle c2)
      · rw [hst] at e5
        simp at e5

/-- Copying bytes into the frame under construction keeps `RxBody`. -/
theorem rx_copy_body (k : Hdr) (w : World) (skb skb1 : sk_buff) (bytes : List Nat)
    (hs : w.rx_skb = some skb) (hput : skb_put skb bytes = some skb1)
    (hlen : bytes.length ≤ w.rx_count) (hb : RxBody k w) :
    RxBody k { w with rx_skb := some skb1, rx_count := w.rx_count - bytes.length } := by
  obtain ⟨s2, c, e1, e2, e3, e4, e5⟩ := hb
  rw [hs] at e1
  simp at e1
  subst e1
  unfold skb_put at hput
  split at hput
  · rename_i hroom
    simp at hput
    subst hput
    refine ⟨_, c, rfl, e2, e3, ?_, ?_⟩
    · simp; omega
    · rcases e5 with ⟨e5, e6⟩ | ⟨e5, e6, e7, e8⟩
      · left
        refine ⟨e5, ?_⟩
        simp; omega
      · right
        refine ⟨e5, by simp; omega, ?_, by simp; omega⟩
        simp only [List.length_append]
        rw [List.take_append_of_le_length e6]
        omega
  · simp at hput

/-- Effect of one pass through the loop body. -/
theorem rx_iter_step (k : Hdr) (w : World) (data : List Nat) (hd : data ≠ []) :
    match rx_iter k w data with
    | .cont w1 q => q.length < data.length ∧ RxStep k (RxInv k w) w w1
    | .ret w1 => RxStep k (RxInv k w) w w1 ∧ ¬ AllocOk w
    | .fault _ => ¬ (RxInv k w ∧ w.tty = true ∧ HdrFits k) := by
  unfold rx_iter
  by_cases h0 : w.rx_count = 0
  · simp only [h0, ne_eq, not_true_eq_false, if_false]
    have := rx_tag_at_step k w data
    cases hr : rx_tag_at k w data with
    | cont w1 q => rw [hr] at this; exact this
    | ret w1 => rw [hr] at this; exact this
    | fault e =>
      rw [hr] at this
      simp only at this ⊢
      rintro ⟨-, ht, -⟩
      rcases this with h | h
      · exact hd h
      · rw [ht] at h; simp at h
  · simp only [ne_eq, h0, not_false_eq_true, if_true]
    cases hs : w.rx_skb with
    | none =>
      simp only
      rintro ⟨hi, -, -⟩
      obtain ⟨s2, c2, e1, -⟩ := hi h0
      rw [hs] at e1
      simp at e1
    | some skb =>
      simp only
      cases hput : skb_put skb (List.take (min w.rx_count data.length) data) with
      | none =>
        simp only
        rintro ⟨hi, -, hf⟩
        obtain ⟨s2, c2, e1, e2, e3, e4, e5⟩ := hi h0
        rw [hs] at e1
        simp at e1
        subst e1
        have hfc := hf c2
        unfold skb_put at hput
        split at hput
        · simp at hput
        · rename_i hroom
          simp at hroom
          rcases e5 with ⟨-, e6⟩ | ⟨-, -, -, e6⟩ <;> omega
      | some skb1 =>
        simp only
        have hdl : 0 < data.length := List.length_pos.mpr hd
        have hlen : (List.take (min w.rx_count data.length) data).length
            = min w.rx_count data.length := by simp
        have hbody : RxInv k w →
            RxBody k { w with rx_skb := some skb1, rx_count := w.rx_count - min w.rx_count data.length } := by
          intro hi
          have := rx_copy_body k w skb skb1 _ hs hput (by rw [hlen]; exact min_le_left _ _)
            (hi h0)
          rw [hlen] at this
          exact this
        by_cases hz : w.rx_count - min w.rx_count data.length = 0
        · rw [if_neg (by simpa using hz)]
          have := rx_complete_step k
            { w with rx_skb := some skb1, rx_count := w.rx_count - min w.rx_count data.length }
            (List.drop (min w.rx_count data.length) data) hz
          cases hr : rx_complete k
            { w with rx_skb := some skb1, rx_count := w.rx_count - min w.rx_count data.length }
            (List.drop (min w.rx_count data.length) data) with
          | cont w1 q =>
            rw [hr] at this
            simp only at this ⊢
            obtain ⟨hq, hstep⟩ := this
            refine ⟨?_, ?_⟩
            · have : (List.drop (min w.rx_count data.length) data).length < data.length := by
                simp; omega
              omega
            · exact ⟨hstep.list, hstep.trace.imp (fun evs he => ⟨he.1, fun p s hm =>
                ⟨(he.2 p s hm).1, fun hi => (he.2 p s hm).2 (hbody hi)⟩⟩),
                fun hi => hstep.inv (hbody hi), hstep.alloc, hstep.tty⟩
          | ret w1 =>
            rw [hr] at this
            simp only at this ⊢
            obtain ⟨hstep, hna⟩ := this
            exact ⟨⟨hstep.list, hstep.trace.imp (fun evs he => ⟨he.1, fun p s hm =>
                ⟨(he.2 p s hm).1, fun hi => (he.2 p s hm).2 (hbody hi)⟩⟩),
                fun hi => hstep.inv (hbody hi), hstep.alloc, hstep.tty⟩, hna⟩
          | fault e =>
            rw [hr] at this
            simp only at this ⊢
            rintro ⟨hi, -, -⟩
            exact this (hbody hi)
        · rw [if_pos hz]
          refine ⟨by simp; omega, rfl, ⟨[], by simp, by simp⟩, ?_, id, rfl⟩
          intro hi _
          exact hbody hi

/-! ### The loop -/

theorem st_int_recv_loop_nil (k : Hdr) (fuel : Nat) (w : World) :
    st_int_recv_loop k fuel w [] = .ok w := by
  cases fuel <;> rfl

theorem st_int_recv_loop_cons (k : Hdr) (fuel : Nat) (w : World) (b : Nat) (r : List Nat) :
    st_int_recv_loop k (fuel + 1) w (b :: r) =
      match rx_iter k w (b :: r) with
      | .cont w1 ptr => st_int_recv_loop k fuel w1 ptr
      | .ret w1 => .ok w1
      | .fault e => .error e := rfl

/-- Any amount of fuel that covers the input gives the same result. -/
theorem st_int_recv_loop_fuel (k : Hdr) (f1 f2 : Nat) (w : World) (d : List Nat)
    (h1 : d.length ≤ f1) (h2 : d.length ≤ f2) :
    st_int_recv_loop k f1 w d = st_int_recv_loop k f2 w d := by
  induction f1 generalizing f2 w d with
  | zero =>
    have : d = [] := List.length_eq_zero.mp (Nat.le_zero.mp h1)
    subst this
    simp [st_int_recv_loop_nil]
  | succ n ih =>
    cases d with
    | nil => simp [st_int_recv_loop_nil]
    | cons b r =>
      cases f2 with
      | zero => simp at h2
      | succ m =>
        rw [st_int_recv_loop_cons, st_int_recv_loop_cons]
        have hs := rx_iter_step k w (b :: r) (by simp)
        cases hr : rx_iter k w (b :: r) with
        | cont w1 q =>
          rw [hr] at hs
          simp only at hs ⊢
          have hq := hs.1
          simp only [List.length_cons] at hq h1 h2
          exact ih m w1 q (by omega) (by omega)
        | ret w1 => rfl
        | fault e => rfl

/-- What a successful run of the loop guarantees. -/
theorem st_int_recv_loop_step (k : Hdr) (f : Nat) (w w1 : World) (d : List Nat)
    (h : st_int_recv_loop k f w d = .ok w1) : RxStep k (RxInv k w) w w1 := by
  induction f generalizing w d with
  | zero =>
    cases d with
    | nil => simp [st_int_recv_loop_nil] at h; subst h; exact RxStep_refl k w
    | cons b r => simp [st_int_recv_loop] at h
  | succ n ih =>
    cases d with
    | nil => simp [st_int_recv_loop_nil] at h; subst h; exact RxStep_refl k w
    | cons b r =>
      rw [st_int_recv_loop_cons] at h
      have hs := rx_iter_step k w (b :: r) (by simp)
      cases hr : rx_iter k w (b :: r) with
      | cont w2 q =>
        rw [hr] at hs h
        simp only at hs h
        exact RxStep_trans hs.2 (ih w2 q h)
      | ret w2 =>
        rw [hr] at hs h
        simp only at hs h
        simp at h
        subst h
        exact hs.1
      | fault e =>
        rw [hr] at h
        simp at h

theorem st_int_recv_step (k : Hdr) (w w1 : World) (d : List Nat)
    (h : st_int_recv k w d = .ok w1) : RxStep k (RxInv k w) w w1 :=
  st_int_recv_loop_step k _ w w1 d h

/-- Progress: from a state that satisfies the invariant, with a tty attached and
headers that fit their frames, the loop returns. -/
theorem st_int_recv_loop_total (k : Hdr) (f : Nat) (w : World) (d : List Nat)
    (hf : d.length ≤ f) (hi : RxInv k w) (ht : w.tty = true) (hk : HdrFits k) :
    ∃ w1, st_int_recv_loop k f w d = .ok w1 := by
  induction f generalizing w d with
  | zero =>
    have : d = [] := List.length_eq_zero.mp (Nat.le_zero.mp hf)
    subst this
    exact ⟨w, st_int_recv_loop_nil k 0 w⟩
  | succ n ih =>
    cases d with
    | nil => exact ⟨w, st_int_recv_loop_nil k _ w⟩
    | cons b r =>
      rw [st_int_recv_loop_cons]
      have hs := rx_iter_step k w (b :: r) (by simp)
      cases hr : rx_iter k w (b :: r) with
      | cont w2 q =>
        rw [hr] at hs
        simp only at hs ⊢
        simp only [List.length_cons] at hs hf
        exact ih w2 q (by omega) (hs.2.inv hi) (hs.2.tty.trans ht)
      | ret w2 => exact ⟨w2, rfl⟩
      | fault e =>
        rw [hr] at hs
        exact absurd ⟨hi, ht, hk⟩ hs

/-! ### Independence of the chunking -/

theorem rx_alloc_withPtr (k : Hdr) (w : World) (t : Nat) (ptr : List Nat) :
    rx_alloc k w t ptr = (rx_alloc k w t []).withPtr ptr := by
  unfold rx_alloc
  split
  · cases alloc_skb w with
    | mk b w1 => cases b <;> rfl
  · split
    · cases alloc_skb w with
      | mk b w1 => cases b <;> rfl
    · split
      · cases alloc_skb w with
        | mk b w1 => cases b <;> rfl
      · rfl

theorem rx_tag_withPtr (k : Hdr) (w : World) (b : Nat) (ptr : List Nat) :
    rx_tag k w b ptr = (rx_tag k w b []).withPtr ptr := by
  unfold rx_tag
  split
  · exact rx_alloc_withPtr _ _ _ _
  split
  · exact rx_alloc_withPtr _ _ _ _
  split
  · exact rx_alloc_withPtr _ _ _ _
  split
  · exact rx_alloc_withPtr _ _ _ _
  split
  · exact rx_alloc_withPtr _ _ _ _
  split
  · rfl
  split
  · cases st_wakeup_ack k w b <;> rfl
  · rfl

theorem rx_continue_withPtr (r : Except Fault (Nat × World)) (ptr : List Nat) :
    rx_continue r ptr = (rx_continue r []).withPtr ptr := by
  cases r with
  | error e => rfl
  | ok x => rfl

theorem rx_complete_withPtr (k : Hdr) (w : World) (ptr : List Nat)
    (h : w.rx_state ≠ .ST_W4_PACKET_TYPE) :
    rx_complete k w ptr = (rx_complete k w []).withPtr ptr := by
  unfold rx_complete
  cases hst : w.rx_state with
  | ST_W4_PACKET_TYPE => exact absurd hst h
  | ST_BT_W4_DATA =>
    simp only
    cases st_send_frame k w w.protoid w.rx_skb <;> rfl
  | ST_BT_W4_EVENT_HDR =>
    simp only
    cases w.rx_skb with
    | none => rfl
    | some skb => exact rx_continue_withPtr _ _
  | ST_BT_W4_ACL_HDR =>
    simp only
    cases w.rx_skb with
    | none => rfl
    | some skb => exact rx_continue_withPtr _ _
  | ST_BT_W4_SCO_HDR =>
    simp only
    cases w.rx_skb with
    | none => rfl
    | some skb => exact rx_continue_withPtr _ _
  | ST_FM_W4_EVENT_HDR =>
    simp only
    cases w.rx_skb with
    | none => rfl
    | some skb => exact rx_continue_withPtr _ _
  | ST_GPS_W4_EVENT_HDR =>
    simp only
    cases w.rx_skb with
    | none => rfl
    | some skb => exact rx_continue_withPtr _ _

theorem RxInv_state {k : Hdr} {w : World} (hi : RxInv k w) (h0 : w.rx_count ≠ 0) :
    w.rx_state ≠ .ST_W4_PACKET_TYPE := by
  obtain ⟨s2, c2, e1, e2, e3, e4, e5⟩ := hi h0
  rcases e5 with ⟨e5, -⟩ | ⟨e5, -⟩
  · rw [e5]; exact hdr_state_ne_idle c2
  · rw [e5]; simp

/-- With at most one byte awaited, the first byte of a chunk is processed as if
it had come alone, and the loop goes on with the rest. -/
theorem rx_iter_cons_short (k : Hdr) (w : World) (b : Nat) (rest : List Nat)
    (hi : RxInv k w) (hc : w.rx_count ≤ 1) :
    rx_iter k w (b :: rest) = (rx_iter k w [b]).withPtr rest := by
  unfold rx_iter
  by_cases h0 : w.rx_count = 0
  · simp only [h0, ne_eq, not_true_eq_false, if_false, rx_tag_at]
    exact rx_tag_withPtr _ _ _ _
  · have h1 : w.rx_count = 1 := by omega
    have hst := RxInv_state hi h0
    simp only [ne_eq, h0, not_false_eq_true, if_true, h1]
    cases w.rx_skb with
    | none => rfl
    | some skb =>
      simp only [List.length_cons, List.length_nil]
      have e1 : min 1 (rest.length + 1) = 1 := by omega
      have e2 : min 1 (0 + 1) = 1 := by omega
      rw [e1, e2]
      simp only [List.take_succ_cons, List.take_zero, List.drop_succ_cons, List.drop_zero]
      cases skb_put skb [b] with
      | none => rfl
      | some skb1 =>
        simp only [Nat.sub_self, not_true_eq_false, if_false]
        exact rx_complete_withPtr _ _ _ hst

theorem skb_put_cons (skb : sk_buff) (b : Nat) (xs : List Nat) :
    skb_put skb (b :: xs) = (skb_put skb [b]).bind (fun s => skb_put s xs) := by
  unfold skb_put
  by_cases h : (b :: xs).length ≤ skb.tailroom
  · have h1 : [b].length ≤ skb.tailroom := by simp at h ⊢; omega
    have h2 : xs.length ≤ skb.tailroom - [b].length := by simp at h ⊢; omega
    simp only [h, h1, if_true, Option.some_bind, h2]
    simp
    omega
  · by_cases h1 : [b].length ≤ skb.tailroom
    · have h2 : ¬ xs.length ≤ skb.tailroom - [b].length := by simp at h h1 ⊢; omega
      simp only [h, h1, if_true, if_false, Option.some_bind, h2]
    · simp only [h, h1, if_false, Option.none_bind]

/-- With two bytes or more awaited, copying the whole chunk amounts to copying
its first byte and then the rest. -/
theorem rx_iter_cons_long (k : Hdr) (w : World) (b r0 : Nat) (rs : List Nat)
    (hc : 2 ≤ w.rx_count) :
    (∃ e, rx_iter k w [b] = .fault e ∧ rx_iter k w (b :: r0 :: rs) = .fault e) ∨
    (∃ w1, rx_iter k w [b] = .cont w1 [] ∧
      rx_iter k w (b :: r0 :: rs) = rx_iter k w1 (r0 :: rs)) := by
  unfold rx_iter
  have h0 : w.rx_count ≠ 0 := by omega
  simp only [ne_eq, h0, not_false_eq_true, if_true]
  cases hs : w.rx_skb with
  | none => left; exact ⟨_, rfl, rfl⟩
  | some skb =>
    simp only [List.length_cons, List.length_nil]
    have e1 : min w.rx_count (rs.length + 1 + 1) = min (w.rx_count - 1) (rs.length + 1) + 1 := by
      omega
    have e2 : min w.rx_count (0 + 1) = 1 := by omega
    rw [e1, e2]
    simp only [List.take_succ_cons, List.take_zero, List.drop_succ_cons, List.drop_zero]
    have hbig := skb_put_cons skb b (List.take (min (w.rx_count - 1) (rs.length + 1)) (r0 :: rs))
    cases hp : skb_put skb [b] with
    | none =>
      left
      rw [hp] at hbig
      rw [hbig]
      exact ⟨_, rfl, rfl⟩
    | some skb1 =>
      right
      rw [hp] at hbig
      rw [hbig]
      have h1 : w.rx_count - 1 ≠ 0 := by omega
      refine ⟨{ w with rx_skb := some skb1, rx_count := w.rx_count - 1 }, ?_, ?_⟩
      · simp only [ne_eq, h1, not_false_eq_true, if_true]
      · simp only [Option.some_bind, ne_eq, h1, not_false_eq_true, if_true, List.length_cons]
        have e3 : w.rx_count - (min (w.rx_count - 1) (rs.length + 1) + 1)
            = w.rx_count - 1 - min (w.rx_count - 1) (rs.length + 1) := by omega
        rw [e3]

theorem RxReachable.inv {k : Hdr} {w : World} (h : RxReachable k w) : RxInv k w := by
  induction h with
  | init w hi => exact RxInv_of_zero hi.2.1
  | recv w w1 data _ hrun ih => exact (st_int_recv_step k w w1 data hrun).inv ih
  | other w w1 _ h1 h2 h3 h4 ih => exact RxInv_of_fields h1 h2 h3 h4 ih

theorem st_int_recv_nil (k : Hdr) (w : World) : st_int_recv k w [] = .ok w := rfl

/-- The first byte of a chunk is processed as if it had been delivered alone. -/
theorem st_int_recv_cons (k : Hdr) (w : World) (b : Nat) (rest : List Nat)
    (hi : RxInv k w) (ha : AllocOk w) :
    st_int_recv k w (b :: rest) =
      match st_int_recv k w [b] with
      | .ok w1 => st_int_recv k w1 rest
      | .error e => .error e := by
  have hone := rx_iter_step k w [b] (by simp)
  have e1 : st_int_recv k w [b] =
      match rx_iter k w [b] with
      | .cont w1 ptr => st_int_recv_loop k 0 w1 ptr
      | .ret w1 => .ok w1
      | .fault e => .error e := rfl
  have e2 : st_int_recv k w (b :: rest) =
      match rx_iter k w (b :: rest) with
      | .cont w1 ptr => st_int_recv_loop k rest.length w1 ptr
      | .ret w1 => .ok w1
      | .fault e => .error e := rfl
  rw [e1, e2]
  have short : rx_iter k w (b :: rest) = (rx_iter k w [b]).withPtr rest →
      (match rx_iter k w (b :: rest) with
        | .cont w1 ptr => st_int_recv_loop k rest.length w1 ptr
        | .ret w1 => .ok w1
        | .fault e => .error e) =
      match (match rx_iter k w [b] with
        | .cont w1 ptr => st_int_recv_loop k 0 w1 ptr
        | .ret w1 => .ok w1
        | .fault e => .error e) with
      | .ok w1 => st_int_recv k w1 rest
      | .error e => .error e := by
    intro hw
    rw [hw]
    cases hr : rx_iter k w [b] with
    | cont w1 q =>
      rw [hr] at hone
      simp only [List.length_cons, List.length_nil] at hone
      have hq : q = [] := List.length_eq_zero.mp (by omega)
      subst hq
      simp only [Iter.withPtr, st_int_recv_loop_nil]
      rfl
    | ret w1 =>
      rw [hr] at hone
      exact absurd ha hone.2
    | fault e => rfl
  cases rest with
  | nil =>
    cases hr : rx_iter k w [b] with
    | cont w1 q =>
      rw [hr] at hone
      simp only [List.length_cons, List.length_nil] at hone
      have hq : q = [] := List.length_eq_zero.mp (by omega)
      subst hq
      simp [st_int_recv_loop_nil, st_int_recv_nil]
    | ret w1 => simp [st_int_recv_nil]
    | fault e => rfl
  | cons r0 rs =>
    by_cases hc : w.rx_count ≤ 1
    · exact short (rx_iter_cons_short k w b (r0 :: rs) hi hc)
    · rcases rx_iter_cons_long k w b r0 rs (by omega) with ⟨e, h1, h2⟩ | ⟨w1, h1, h2⟩
      · rw [h1, h2]
      · rw [h1, h2]
        simp only [st_int_recv_loop_nil]
        have e3 : st_int_recv k w1 (r0 :: rs) =
            match rx_iter k w1 (r0 :: rs) with
            | .cont w2 ptr => st_int_recv_loop k rs.length w2 ptr
            | .ret w2 => .ok w2
            | .fault e => .error e := rfl
        rw [e3]
        have htwo := rx_iter_step k w1 (r0 :: rs) (by simp)
        cases hr : rx_iter k w1 (r0 :: rs) with
        | cont w2 q =>
          rw [hr] at htwo
          simp only [List.length_cons] at htwo ⊢
          exact st_int_recv_loop_fuel k _ _ w2 q (by omega) (by omega)
        | ret w2 => rfl
        | fault e => rfl

/-- Delivery byte by byte gives what delivery in one chunk gives. -/
theorem st_int_recv_bytes (k : Hdr) (w : World) (d : List Nat)
    (hi : RxInv k w) (ha : AllocOk w) :
    rx_chunks k w (d.map fun x => [x]) = st_int_recv k w d := by
  induction d generalizing w with
  | nil => rfl
  | cons b rest ih =>
    rw [st_int_recv_cons k w b rest hi ha]
    simp only [List.map_cons, rx_chunks]
    cases hr : st_int_recv k w [b] with
    | error e => rfl
    | ok w1 =>
      have hs := st_int_recv_step k w w1 [b] hr
      exact ih w1 (hs.inv hi) (hs.alloc ha)

theorem rx_chunks_append (k : Hdr) (w : World) (cs ds : List (List Nat)) :
    rx_chunks k w (cs ++ ds) =
      match rx_chunks k w cs with
      | .ok w1 => rx_chunks k w1 ds
      | .error e => .error e := by
  induction cs generalizing w with
  | nil => rfl
  | cons c cs ih =>
    simp only [List.cons_append, rx_chunks]
    cases st_int_recv k w c with
    | error e => rfl
    | ok w1 => exact ih w1

theorem rx_chunks_step (k : Hdr) (w w1 : World) (cs : List (List Nat))
    (h : rx_chunks k w cs = .ok w1) : RxStep k (RxInv k w) w w1 := by
  induction cs generalizing w with
  | nil => simp [rx_chunks] at h; subst h; exact RxStep_refl k w
  | cons c cs ih =>
    simp only [rx_chunks] at h
    cases hr : st_int_recv k w c with
    | error e => rw [hr] at h; simp at h
    | ok w2 =>
      rw [hr] at h
      exact RxStep_trans (st_int_recv_step k w w2 c hr) (ih w2 h)

/-- Delivery in any chunks gives what delivery in one chunk gives. -/
theorem rx_chunks_eq (k : Hdr) (w : World) (cs : List (List Nat))
    (hi : RxInv k w) (ha : AllocOk w) :
    rx_chunks k w cs = st_int_recv k w (cs.foldr (fun c r => c ++ r) []) := by
  induction cs generalizing w with
  | nil => rfl
  | cons c cs ih =>
    simp only [List.foldr_cons]
    rw [← st_int_recv_bytes k w _ hi ha, List.map_append, rx_chunks_append,
      st_int_recv_bytes k w c hi ha]
    simp only [rx_chunks]
    cases hr : st_int_recv k w c with
    | error e => rfl
    | ok w1 =>
      have hs := st_int_recv_step k w w1 c hr
      simp only
      rw [ih w1 (hs.inv hi) (hs.alloc ha), st_int_recv_bytes k w1 _ (hs.inv hi) (hs.alloc ha)]

theorem st_send_frame_bound (k : Hdr) (w : World) (p : proto_type) (s : sk_buff)
    (b : st_proto_s) (f : sk_buff → Int) (hp : p < ST_MAX)
    (hb : w.list.getD p none = some b) (hf : b.recv = some f) :
    st_send_frame k w p (some s) =
      .ok { w with trace := w.trace ++
              (.recv p s :: if f s ≠ k.ST_SUCCESS then [.kfree_skb s] else []) } := by
  unfold st_send_frame
  have hlt : ¬ ST_MAX ≤ p := Nat.not_le.mpr hp
  simp only [hlt, if_false, hb, hf]
  split <;> simp [World.log]

theorem skb_put_fits (skb : sk_buff) (bytes : List Nat) (h : bytes.length ≤ skb.tailroom) :
    skb_put skb bytes = some (skb.append bytes) := by
  simp [skb_put, h, sk_buff.append]

/-- The chunk holds all the awaited bytes: they are copied and the switch on
`rx_state` runs. -/
theorem rx_iter_copy_all (k : Hdr) (w : World) (skb : sk_buff) (data : List Nat)
    (hs : w.rx_skb = some skb) (h0 : w.rx_count ≠ 0) (hlen : w.rx_count ≤ data.length)
    (hroom : w.rx_count ≤ skb.tailroom) :
    rx_iter k w data =
      rx_complete k (w.rx_filled skb (data.take w.rx_count)) (data.drop w.rx_count) := by
  unfold rx_iter
  have e1 : min w.rx_count data.length = w.rx_count := by omega
  have e2 : (List.take w.rx_count data).length = w.rx_count := by simp; omega
  simp only [ne_eq, h0, not_false_eq_true, if_true, hs, e1]
  rw [skb_put_fits _ _ (by rw [e2]; exact hroom)]
  simp [World.rx_filled, e2]

/-- The chunk is shorter than what is awaited: it is copied whole and the loop
body is done. -/
theorem rx_iter_copy_some (k : Hdr) (w : World) (skb : sk_buff) (data : List Nat)
    (hs : w.rx_skb = some skb) (hlen : data.length < w.rx_count)
    (hroom : data.length ≤ skb.tailroom) :
    rx_iter k w data = .cont (w.rx_copied skb data) [] := by
  unfold rx_iter
  have h0 : w.rx_count ≠ 0 := by omega
  have e1 : min w.rx_count data.length = data.length := by omega
  have e3 : w.rx_count - data.length ≠ 0 := by omega
  simp only [ne_eq, h0, not_false_eq_true, if_true, hs, e1, List.take_length]
  rw [skb_put_fits _ _ hroom]
  simp [World.rx_copied, e3]

theorem alloc_skb_snd (w : World) :
    (alloc_skb w).2 = { w with alloc_ok := (alloc_skb w).2.alloc_ok } := by
  unfold alloc_skb
  cases w.alloc_ok <;> rfl

/-- An event tag read in tag position, with the allocation succeeding. -/
theorem rx_iter_event_tag (k : Hdr) (w : World) (rest : List Nat) (hc : w.rx_count = 0)
    (ha : (alloc_skb w).1 = true) :
    rx_iter k w (k.HCI_EVENT_PKT :: rest) = .cont (w.rx_tagged k .event) rest := by
  rcases rx_alloc_class k w .event rest with ⟨w1, h1, h3⟩ | ⟨w1, h1, h3⟩
  · simp only [rx_iter, hc, ne_eq, not_true_eq_false, if_false, rx_tag_at, rx_tag, if_true]
    simp only [pkt_class.hdr_state, pkt_class.hdr_size, pkt_class.proto, pkt_class.tag,
      pkt_class.room] at h3
    rw [h3]
    simp only [World.rx_tagged, h1, pkt_class.hdr_state, pkt_class.hdr_size, pkt_class.proto,
      pkt_class.tag, pkt_class.room]
  · rw [h1] at ha
    simp at ha

theorem alloc_skb_fields (w : World) :
    (alloc_skb w).2.list = w.list ∧ (alloc_skb w).2.trace = w.trace ∧
    (alloc_skb w).2.tty = w.tty := by
  unfold alloc_skb
  cases w.alloc_ok <;> exact ⟨rfl, rfl, rfl⟩

/-- C2: with the event tag 0x04, the two-byte event header and its payload-length
byte as the spec gives them, and room for a 255-byte payload in a Bluetooth
frame: from a receive state that awaits a tag (`rx_count = 0`, as in the idle
state), with Bluetooth registered and the allocation succeeding, the bytes `[0x04, e, n] ++ p` (`p` of length `n ≤ 255`) make
`st_int_recv` return with exactly one more call of the Bluetooth receive callback,
on the frame `[e, n] ++ p` of length `2 + n`, and leave the assembler in
`ST_W4_PACKET_TYPE` with `rx_count = 0` and no frame under construction. -/
theorem st_int_recv_event (k : Hdr) (w : World) (e n : Nat) (p : List Nat)
    (bt : st_proto_s) (f : sk_buff → Int)
    (h4 : k.HCI_EVENT_PKT = 0x04) (h2 : k.HCI_EVENT_HDR_SIZE = 2)
    (hpl : k.eh_plen [e, n] = n) (hroom : 257 ≤ k.bt_room)
    (hc : w.rx_count = 0)
    (halloc : (alloc_skb w).1 = true)
    (hbt : w.list.getD ST_BT none = some bt) (hrecv : bt.recv = some f)
    (hn : p.length = n) (hn255 : n ≤ 255) :
    ∃ w1, st_int_recv k w ([0x04, e, n] ++ p) = .ok w1 ∧
      w1.rx_state = .ST_W4_PACKET_TYPE ∧ w1.rx_count = 0 ∧ w1.rx_skb = none ∧
      w1.trace = w.trace ++
        (.recv ST_BT ⟨[e, n] ++ p, k.bt_room - (2 + n), 0x04⟩ ::
          if f ⟨[e, n] ++ p, k.bt_room - (2 + n), 0x04⟩ ≠ k.ST_SUCCESS
          then [.kfree_skb ⟨[e, n] ++ p, k.bt_room - (2 + n), 0x04⟩] else []) ∧
      ([e, n] ++ p).length = 2 + n := by
  obtain ⟨al, -, -⟩ := alloc_skb_fields w
  have hbt1 : (alloc_skb w).2.list.getD ST_BT none = some bt := by rw [al]; exact hbt
  have hlt : ST_BT < ST_MAX := by decide
  have t1 := rx_iter_event_tag k w (e :: n :: p) hc halloc
  rw [h4] at t1
  have t2 := rx_iter_copy_all k (w.rx_tagged k .event) ⟨[], k.bt_room, 0x04⟩ (e :: n :: p)
    (by simp [World.rx_tagged, pkt_class.room, pkt_class.tag, h4])
    (by simp [World.rx_tagged, pkt_class.hdr_size, h2])
    (by simp [World.rx_tagged, pkt_class.hdr_size, h2])
    (by simp [World.rx_tagged, pkt_class.hdr_size, h2]; omega)
  have e0 : st_int_recv k w ([0x04, e, n] ++ p)
      = st_int_recv_loop k (p.length + 3) w (0x04 :: e :: n :: p) := rfl
  rw [e0, st_int_recv_loop_cons, t1]
  simp only
  rw [st_int_recv_loop_cons, t2]
  simp only [World.rx_tagged, World.rx_filled, sk_buff.append, pkt_class.hdr_size,
    pkt_class.hdr_state, pkt_class.proto, pkt_class.room, pkt_class.tag, h2,
    List.take_succ_cons, List.take_zero, List.drop_succ_cons, List.drop_zero, List.nil_append,
    List.length_cons, List.length_nil, rx_complete, hpl, rx_continue, st_check_data_len]
  by_cases hz : n = 0
  · subst hz
    have hp : p = [] := List.length_eq_zero.mp hn
    subst hp
    rw [if_pos rfl, st_send_frame_bound k _ ST_BT _ bt f hlt ?_ hrecv]
    · simp only [rx_continue, st_int_recv_loop_nil]
      refine ⟨_, rfl, rfl, rfl, rfl, ?_, by simp⟩
      simp [alloc_skb_fields]
    · exact hbt1
  · have hfit : ¬ n > k.bt_room - (0 + 1 + 1) := by omega
    rw [if_neg hz, if_neg hfit]
    simp only [rx_continue]
    cases p with
    | nil => simp at hn; omega
    | cons p0 ps =>
      rw [st_int_recv_loop_cons]
      rw [rx_iter_copy_all k _ _ (p0 :: ps) rfl hz (by simp [hn]) (by simp; omega)]
      simp only [World.rx_filled, sk_buff.append, rx_complete]
      rw [← hn, List.take_length, List.drop_length]
      rw [st_send_frame_bound k _ ST_BT _ bt f hlt ?_ hrecv]
      · simp only [st_int_recv_loop_nil]
        have e5 : k.bt_room - 2 - (ps.length + 1) = k.bt_room - (2 + (ps.length + 1)) := by
          omega
        refine ⟨_, rfl, rfl, rfl, rfl, ?_, by simp; omega⟩
        simp [alloc_skb_fields, e5]
      · exact hbt1

theorem st_int_recv_event_witness :
    ∃ w1, st_int_recv linux idle_world ([0x04, 0x01, 0x02] ++ [0xAA, 0xBB]) = .ok w1 ∧
      w1.rx_state = .ST_W4_PACKET_TYPE ∧ w1.rx_count = 0 ∧ w1.rx_skb = none ∧
      w1.trace = idle_world.trace ++
        (.recv ST_BT ⟨[0x01, 0x02] ++ [0xAA, 0xBB], linux.bt_room - (2 + 2), 0x04⟩ ::
          if (fun _ => (0 : Int)) (⟨[0x01, 0x02] ++ [0xAA, 0xBB], linux.bt_room - (2 + 2),
                0x04⟩ : sk_buff) ≠ linux.ST_SUCCESS
          then [.kfree_skb ⟨[0x01, 0x02] ++ [0xAA, 0xBB], linux.bt_room - (2 + 2), 0x04⟩]
          else []) ∧
      ([0x01, 0x02] ++ [0xAA, 0xBB]).length = 2 + 2 :=
  st_int_recv_event linux idle_world 0x01 0x02 [0xAA, 0xBB] bt_binding (fun _ => 0)
    rfl rfl rfl (by decide) rfl rfl rfl rfl rfl (by decide)

/-- C3: every frame that a call of `st_int_recv` from a reachable receive state
hands to a receive callback is, for one of the five packet classes, that class's
fixed-size header followed by exactly the number of payload bytes the header
declares, and goes to the protocol of that class; with a tty attached and
headers that fit their frames the call does return. -/
theorem st_int_recv_frame_length (k : Hdr) (w : World) (data : List Nat)
    (hr : RxReachable k w) :
    (∀ w1, st_int_recv k w data = .ok w1 →
      ∃ evs, w1.trace = w.trace ++ evs ∧
        ∀ p s, Event.recv p s ∈ evs →
          ∃ c : pkt_class, p = c.proto ∧ s.pkt_type = c.tag k ∧
            s.data.length = c.hdr_size k + c.plen k (s.data.take (c.hdr_size k))) ∧
    (w.tty = true → HdrFits k → ∃ w1, st_int_recv k w data = .ok w1) := by
  refine ⟨?_, fun ht hk => st_int_recv_loop_total k _ w data (le_refl _) hr.inv ht hk⟩
  intro w1 h
  obtain ⟨evs, h1, h2⟩ := (st_int_recv_step k w w1 data h).trace
  refine ⟨evs, h1, ?_⟩
  intro p s hm
  obtain ⟨c, c1, c2, -, c4⟩ := (h2 p s hm).2 hr.inv
  exact ⟨c, c1, c2, c4⟩

theorem linux_fits : HdrFits linux := by
  intro c
  cases c <;> decide

theorem st_int_recv_frame_length_witness :
    RxReachable linux idle_world ∧
    ((∀ w1, st_int_recv linux idle_world [4, 1, 2, 0xAA, 0xBB, 2, 7] = .ok w1 →
      ∃ evs, w1.trace = idle_world.trace ++ evs ∧
        ∀ p s, Event.recv p s ∈ evs →
          ∃ c : pkt_class, p = c.proto ∧ s.pkt_type = c.tag linux ∧
            s.data.length
              = c.hdr_size linux + c.plen linux (s.data.take (c.hdr_size linux))) ∧
    (idle_world.tty = true → HdrFits linux →
      ∃ w1, st_int_recv linux idle_world [4, 1, 2, 0xAA, 0xBB, 2, 7] = .ok w1)) :=
  ⟨RxReachable.init _ ⟨rfl, rfl, rfl, rfl⟩,
    st_int_recv_frame_length linux idle_world [4, 1, 2, 0xAA, 0xBB, 2, 7]
      (RxReachable.init _ ⟨rfl, rfl, rfl, rfl⟩)⟩

/-- The header of class `c` is complete: the switch on `rx_state` calls
`st_check_data_len` with the length the header declares. -/
theorem rx_complete_hdr (k : Hdr) (w : World) (c : pkt_class) (skb : sk_buff)
    (ptr : List Nat) (hst : w.rx_state = c.hdr_state) (hs : w.rx_skb = some skb)
    (hp : w.protoid = c.proto) :
    rx_complete k w ptr
      = rx_continue (st_check_data_len k w c.proto (c.plen k skb.data)) ptr := by
  unfold rx_complete
  cases c <;> simp only [pkt_class.hdr_state] at hst <;> rw [hst] <;> simp only [hs] <;>
    first
      | rfl
      | (rw [hp]; rfl)

theorem untraced_relog (w : World) (l : List (Option st_proto_s)) (t : List Event) :
    (w.relog l t).untraced = w.untraced := rfl

theorem relog_of_untraced {w w1 : World} (h : w1.untraced = w.untraced) :
    w1 = w.relog w1.list w1.trace := by
  cases w
  cases w1
  simp only [World.untraced, World.mk.injEq] at h
  simp only [World.relog, World.mk.injEq]
  simp [h]

theorem except_untraced_cases {r r1 : Except Fault World}
    (h : r1.map World.untraced = r.map World.untraced) :
    (∃ e, r1 = .error e ∧ r = .error e) ∨
    (∃ w w1, r1 = .ok w1 ∧ r = .ok w ∧ w1.untraced = w.untraced) := by
  cases r with
  | error e =>
    cases r1 with
    | error e1 =>
      simp [Except.map] at h
      left; exact ⟨e, by rw [h], rfl⟩
    | ok w1 => simp [Except.map] at h
  | ok w =>
    cases r1 with
    | error e1 => simp [Except.map] at h
    | ok w1 =>
      simp [Except.map] at h
      right; exact ⟨w, w1, rfl, rfl, h⟩

theorem st_int_write_relog (k : Hdr) (w : World) (d : List Nat)
    (l : List (Option st_proto_s)) (t : List Event) :
    st_int_write k (w.relog l t) d
      = ((st_int_write k w d).1, (st_int_write k w d).2.relog l t) := by
  cases w with
  | mk _ _ _ _ _ _ _ _ _ _ _ tty _ _ tty_ret _ _ _ =>
    cases tty with
    | false => rfl
    | true =>
      cases tty_ret with
      | nil => rfl
      | cons x rest => rfl

theorem st_int_dequeue_relog (w : World) (l : List (Option st_proto_s)) (t : List Event) :
    st_int_dequeue (w.relog l t)
      = ((st_int_dequeue w).1, (st_int_dequeue w).2.relog l t) := by
  cases w with
  | mk _ _ _ _ txq _ tx_skb _ _ _ _ _ _ _ _ _ _ _ =>
    cases tx_skb with
    | some s => rfl
    | none =>
      cases txq with
      | nil => rfl
      | cons s q => rfl

theorem st_tx_drain_relog (k : Hdr) (fuel : Nat) (w : World)
    (l : List (Option st_proto_s)) (t : List Event) :
    st_tx_drain k fuel (w.relog l t) = (st_tx_drain k fuel w).map (fun x => x.relog l t) := by
  induction fuel generalizing w with
  | zero => rfl
  | succ n ih =>
    unfold st_tx_drain
    rw [st_int_dequeue_relog]
    cases hd : st_int_dequeue w with
    | mk o w1 =>
      cases o with
      | none => rfl
      | some skb =>
        simp only
        have ht : (w1.relog l t).tty = w1.tty := rfl
        rw [ht, st_int_write_relog]
        split
        · rfl
        · simp only
          split
          · rfl
          · exact ih _

theorem st_tx_pass_relog (k : Hdr) (fuel : Nat) (w : World)
    (l : List (Option st_proto_s)) (t : List Event) :
    st_tx_pass k fuel (w.relog l t) = (st_tx_pass k fuel w).map (fun x => x.relog l t) := by
  induction fuel generalizing w with
  | zero => rfl
  | succ n ih =>
    unfold st_tx_pass
    simp only
    have e1 : ({ w.relog l t with ST_TX_WAKEUP := false } : World)
        = ({ w with ST_TX_WAKEUP := false } : World).relog l t := rfl
    have e2 : (w.relog l t).txq = w.txq := rfl
    rw [e1, e2, st_tx_drain_relog]
    cases st_tx_drain k (w.txq.length + 2) { w with ST_TX_WAKEUP := false } with
    | error e => rfl
    | ok w2 =>
      simp only [Except.map]
      have e3 : (w2.relog l t).ST_TX_WAKEUP = w2.ST_TX_WAKEUP := rfl
      rw [e3]
      split
      · exact ih _
      · rfl

theorem st_tx_wakeup_relog (k : Hdr) (w : World)
    (l : List (Option st_proto_s)) (t : List Event) :
    st_tx_wakeup k (w.relog l t) = (st_tx_wakeup k w).map (fun x => x.relog l t) := by
  unfold st_tx_wakeup
  have e0 : (w.relog l t).ST_TX_SENDING = w.ST_TX_SENDING := rfl
  have e1 : ({ w.relog l t with ST_TX_SENDING := true } : World)
      = ({ w with ST_TX_SENDING := true } : World).relog l t := rfl
  have e2 : (w.relog l t).tty_ret = w.tty_ret := rfl
  rw [e0, e1, e2, st_tx_pass_relog]
  split
  · rfl
  · cases st_tx_pass k (w.tty_ret.length + 1) { w with ST_TX_SENDING := true } with
    | error e => rfl
    | ok w2 => rfl

theorem st_wakeup_ack_untraced (k : Hdr) (w : World) (cmd : Nat)
    (l : List (Option st_proto_s)) (t : List Event) :
    (st_wakeup_ack k (w.relog l t) cmd).map World.untraced
      = (st_wakeup_ack k w cmd).map World.untraced := by
  have e1 : st_wakeup_ack k (w.relog l t) cmd
      = (st_wakeup_ack k w cmd).map (fun x => x.relog l (t ++ [.st_ll_sleep_state cmd])) := by
    rw [st_wakeup_ack_eq, st_wakeup_ack_eq, ← st_tx_wakeup_relog]
    rfl
  rw [e1]
  cases st_wakeup_ack k w cmd with
  | error e => rfl
  | ok w2 => rfl

theorem st_send_frame_untraced (k : Hdr) (w : World) (p : proto_type) (skb : Option sk_buff) :
    (st_send_frame k w p skb).map World.untraced =
      match skb with
      | none => .ok w.untraced
      | some _ => if ST_MAX ≤ p then .error .oob_read else .ok w.untraced := by
  unfold st_send_frame
  cases skb with
  | none => rfl
  | some s =>
    simp only
    split
    · rfl
    · cases w.list.getD p none with
      | none => rfl
      | some b =>
        simp only
        cases b.recv with
        | none => rfl
        | some f =>
          simp only
          split <;> rfl

theorem st_check_data_len_untraced (k : Hdr) (w : World) (p : proto_type) (len : Nat)
    (l : List (Option st_proto_s)) (t : List Event) :
    (st_check_data_len k (w.relog l t) p len).map (fun r => (r.1, r.2.untraced))
      = (st_check_data_len k w p len).map (fun r => (r.1, r.2.untraced)) := by
  unfold st_check_data_len
  have e0 : (w.relog l t).rx_skb = w.rx_skb := rfl
  rw [e0]
  cases w.rx_skb with
  | none => rfl
  | some skb =>
    simp only
    split
    · have h1 := st_send_frame_untraced k (w.relog l t) p (some skb)
      have h2 := st_send_frame_untraced k w p (some skb)
      rw [untraced_relog, ← h2] at h1
      rcases except_untraced_cases h1 with ⟨e, a, b⟩ | ⟨w1, w2, a, b, c⟩
      · rw [a, b]
      · rw [a, b]
        simp only [Except.map]
        rw [relog_of_untraced c]
        rfl
    · split
      · rfl
      · rfl

theorem alloc_skb_relog (w : World) (l : List (Option st_proto_s)) (t : List Event) :
    alloc_skb (w.relog l t) = ((alloc_skb w).1, (alloc_skb w).2.relog l t) := by
  cases w with
  | mk _ _ _ _ _ _ _ _ _ _ _ _ _ alloc_ok _ _ _ _ =>
    cases alloc_ok with
    | nil => rfl
    | cons b rest => rfl

theorem rx_alloc_untraced (k : Hdr) (w : World) (ty : Nat) (ptr : List Nat)
    (l : List (Option st_proto_s)) (t : List Event) :
    (rx_alloc k (w.relog l t) ty ptr).untraced = (rx_alloc k w ty ptr).untraced := by
  unfold rx_alloc
  have e0 : (w.relog l t).protoid = w.protoid := rfl
  rw [e0, alloc_skb_relog]
  split
  · cases alloc_skb w with
    | mk b w1 => cases b <;> rfl
  · split
    · cases alloc_skb w with
      | mk b w1 => cases b <;> rfl
    · split
      · cases alloc_skb w with
        | mk b w1 => cases b <;> rfl
      · rfl

theorem rx_tag_untraced (k : Hdr) (w : World) (b : Nat) (ptr : List Nat)
    (l : List (Option st_proto_s)) (t : List Event) :
    (rx_tag k (w.relog l t) b ptr).untraced = (rx_tag k w b ptr).untraced := by
  unfold rx_tag
  split
  · exact rx_alloc_untraced k { w with rx_state := .ST_BT_W4_EVENT_HDR, rx_count := k.HCI_EVENT_HDR_SIZE, protoid := ST_BT } _ _ l t
  split
  · exact rx_alloc_untraced k { w with rx_state := .ST_BT_W4_ACL_HDR, rx_count := k.HCI_ACL_HDR_SIZE, protoid := ST_BT } _ _ l t
  split
  · exact rx_alloc_untraced k { w with rx_state := .ST_BT_W4_SCO_HDR, rx_count := k.HCI_SCO_HDR_SIZE, protoid := ST_BT } _ _ l t
  split
  · exact rx_alloc_untraced k { w with rx_state := .ST_FM_W4_EVENT_HDR, rx_count := k.FM_EVENT_HDR_SIZE, protoid := ST_FM } _ _ l t
  split
  · exact rx_alloc_untraced k { w with rx_state := .ST_GPS_W4_EVENT_HDR, rx_count := 3, protoid := ST_GPS } _ _ l t
  split
  · rfl
  split
  · have h := st_wakeup_ack_untraced k w b l t
    rcases except_untraced_cases h with ⟨e, x, y⟩ | ⟨w1, w2, x, y, z⟩
    · rw [x, y]
    · rw [x, y]
      simp only [Iter.untraced, z]
  · rfl

theorem rx_tag_at_untraced (k : Hdr) (w : World) (ptr : List Nat)
    (l : List (Option st_proto_s)) (t : List Event) :
    (rx_tag_at k (w.relog l t) ptr).untraced = (rx_tag_at k w ptr).untraced := by
  cases ptr with
  | nil => rfl
  | cons b rest => exact rx_tag_untraced k w b rest l t

theorem rx_continue_untraced (r r1 : Except Fault (Nat × World)) (ptr : List Nat)
    (h : r1.map (fun x => (x.1, x.2.untraced)) = r.map (fun x => (x.1, x.2.untraced))) :
    (rx_continue r1 ptr).untraced = (rx_continue r ptr).untraced := by
  cases r with
  | error e =>
    cases r1 with
    | error e1 => simp [Except.map] at h; rw [h]
    | ok x => simp [Except.map] at h
  | ok y =>
    cases r1 with
    | error e1 => simp [Except.map] at h
    | ok x =>
      simp [Except.map] at h
      simp only [rx_continue, Iter.untraced, h.2]

theorem rx_complete_untraced (k : Hdr) (w : World) (ptr : List Nat)
    (l : List (Option st_proto_s)) (t : List Event) :
    (rx_complete k (w.relog l t) ptr).untraced = (rx_complete k w ptr).untraced := by
  unfold rx_complete
  have e0 : (w.relog l t).rx_state = w.rx_state := rfl
  have e1 : (w.relog l t).rx_skb = w.rx_skb := rfl
  have e2 : (w.relog l t).protoid = w.protoid := rfl
  rw [e0, e1, e2]
  cases w.rx_state with
  | ST_W4_PACKET_TYPE => exact rx_tag_at_untraced k w ptr l t
  | ST_BT_W4_DATA =>
    simp only
    have h1 := st_send_frame_untraced k (w.relog l t) w.protoid w.rx_skb
    have h2 := st_send_frame_untraced k w w.protoid w.rx_skb
    rw [untraced_relog, ← h2] at h1
    rcases except_untraced_cases h1 with ⟨e, a, b⟩ | ⟨w1, w2, a, b, c⟩
    · rw [a, b]
    · rw [a, b]
      simp only [Iter.untraced]
      rw [relog_of_untraced c]
      rfl
  | ST_BT_W4_EVENT_HDR =>
    simp only
    cases w.rx_skb with
    | none => rfl
    | some skb => exact rx_continue_untraced _ _ _ (st_check_data_len_untraced k w _ _ l t)
  | ST_BT_W4_ACL_HDR =>
    simp only
    cases w.rx_skb with
    | none => rfl
    | some skb => exact rx_continue_untraced _ _ _ (st_check_data_len_untraced k w _ _ l t)
  | ST_BT_W4_SCO_HDR =>
    simp only
    cases w.rx_skb with
    | none => rfl
    | some skb => exact rx_continue_untraced _ _ _ (st_check_data_len_untraced k w _ _ l t)
  | ST_FM_W4_EVENT_HDR =>
    simp only
    cases w.rx_skb with
    | none => rfl
    | some skb => exact rx_continue_untraced _ _ _ (st_check_data_len_untraced k w _ _ l t)
  | ST_GPS_W4_EVENT_HDR =>
    simp only
    cases w.rx_skb with
    | none => rfl
    | some skb => exact rx_continue_untraced _ _ _ (st_check_data_len_untraced k w _ _ l t)

theorem rx_iter_untraced (k : Hdr) (w : World) (data : List Nat)
    (l : List (Option st_proto_s)) (t : List Event) :
    (rx_iter k (w.relog l t) data).untraced = (rx_iter k w data).untraced := by
  unfold rx_iter
  have e0 : (w.relog l t).rx_count = w.rx_count := rfl
  have e1 : (w.relog l t).rx_skb = w.rx_skb := rfl
  rw [e0, e1]
  split
  · cases w.rx_skb with
    | none => rfl
    | some skb =>
      simp only
      cases skb_put skb (List.take (min w.rx_count data.length) data) with
      | none => rfl
      | some skb1 =>
        simp only
        split
        · rfl
        · exact rx_complete_untraced k { w with rx_skb := some skb1, rx_count := w.rx_count - min w.rx_count data.length } _ l t
  · exact rx_tag_at_untraced k w data l t

theorem st_int_recv_loop_untraced (k : Hdr) (fuel : Nat) (w : World) (data : List Nat)
    (l : List (Option st_proto_s)) (t : List Event) :
    (st_int_recv_loop k fuel (w.relog l t) data).map World.untraced
      = (st_int_recv_loop k fuel w data).map World.untraced := by
  induction fuel generalizing w data l t with
  | zero =>
    cases data with
    | nil => rfl
    | cons b r => rfl
  | succ n ih =>
    cases data with
    | nil => rfl
    | cons b r =>
      rw [st_int_recv_loop_cons, st_int_recv_loop_cons]
      have h := rx_iter_untraced k w (b :: r) l t
      cases hr : rx_iter k w (b :: r) with
      | cont w1 q =>
        cases hr1 : rx_iter k (w.relog l t) (b :: r) with
        | cont w2 q2 =>
          rw [hr, hr1] at h
          simp only [Iter.untraced, Iter.cont.injEq] at h
          simp only
          rw [relog_of_untraced h.1, h.2]
          exact ih w1 q _ _
        | ret w2 => rw [hr, hr1] at h; simp [Iter.untraced] at h
        | fault e => rw [hr, hr1] at h; simp [Iter.untraced] at h
      | ret w1 =>
        cases hr1 : rx_iter k (w.relog l t) (b :: r) with
        | cont w2 q2 => rw [hr, hr1] at h; simp [Iter.untraced] at h
        | ret w2 =>
          rw [hr, hr1] at h
          simp only [Iter.untraced, Iter.ret.injEq] at h
          simp only [Except.map, h]
        | fault e => rw [hr, hr1] at h; simp [Iter.untraced] at h
      | fault e =>
        cases hr1 : rx_iter k (w.relog l t) (b :: r) with
        | cont w2 q2 => rw [hr, hr1] at h; simp [Iter.untraced] at h
        | ret w2 => rw [hr, hr1] at h; simp [Iter.untraced] at h
        | fault e1 =>
          rw [hr, hr1] at h
          simp only [Iter.untraced, Iter.fault.injEq] at h
          simp only [Except.map, h]

/-- A protocol without a receive callback (no binding, or a null `recv`) has its
frame released. -/
theorem st_send_frame_unbound (k : Hdr) (w : World) (p : proto_type) (s : sk_buff)
    (hp : p < ST_MAX) (hb : ¬ Bound w.list p) :
    st_send_frame k w p (some s) = .ok (w.log (.kfree_skb s)) := by
  unfold st_send_frame
  have hlt : ¬ ST_MAX ≤ p := Nat.not_le.mpr hp
  simp only [hlt, if_false]
  cases hl : w.list.getD p none with
  | none => rfl
  | some b =>
    simp only
    cases hf : b.recv with
    | none => rfl
    | some f => exact absurd ⟨b, f, hl, hf⟩ hb

/-- C5: whatever the byte stream and the registry, a call of `st_int_recv` invokes
a receive callback only for a protocol that has a binding with a non-null `recv`;
`st_send_frame` releases the frame of a protocol that has none; and, registry and
log apart, the call ends in the same world (same `rx_state`, `rx_count`, partial
frame, queues) or the same fault whatever the registry holds. -/
theorem st_int_recv_unbound (k : Hdr) (w : World) (data : List Nat) :
    (∀ w1, st_int_recv k w data = .ok w1 →
      ∃ evs, w1.trace = w.trace ++ evs ∧ ∀ p s, Event.recv p s ∈ evs → Bound w.list p) ∧
    (∀ p s, p < ST_MAX → ¬ Bound w.list p →
      st_send_frame k w p (some s) = .ok (w.log (.kfree_skb s))) ∧
    (∀ l : List (Option st_proto_s),
      (st_int_recv k { w with list := l } data).map World.untraced
        = (st_int_recv k w data).map World.untraced) := by
  refine ⟨?_, fun p s hp hb => st_send_frame_unbound k w p s hp hb, ?_⟩
  · intro w1 h
    obtain ⟨evs, h1, h2⟩ := (st_int_recv_step k w w1 data h).trace
    exact ⟨evs, h1, fun p s hm => (h2 p s hm).1⟩
  · intro l
    exact st_int_recv_loop_untraced k data.length w data l w.trace

theorem idle_world_init : RxInit idle_world := ⟨rfl, rfl, rfl, rfl⟩

theorem mid_header_world_reachable : RxReachable linux mid_header_world :=
  RxReachable.recv idle_world mid_header_world [4, 1] (RxReachable.init _ idle_world_init) rfl

theorem idle_world_alloc : AllocOk mid_header_world := by
  intro b hb
  cases hb

/-- C1: from every receive state reachable from the initial one, with frame
allocation succeeding, delivering `a` and then `b` by two calls of `st_int_recv`
gives the same result (same final world, hence same receive state, same dispatched
frames and same low-power notifications in the same order, or the same fault) as
one call on `a ++ b`; so does delivery one byte at a time, and delivery in any
list of chunks. -/
theorem st_int_recv_chunking (k : Hdr) (w : World) (a b : List Nat)
    (hr : RxReachable k w) (ha : AllocOk w) :
    rx_chunks k w [a, b] = st_int_recv k w (a ++ b) ∧
    rx_chunks k w ((a ++ b).map fun x => [x]) = st_int_recv k w (a ++ b) ∧
    ∀ cs : List (List Nat),
      rx_chunks k w cs = st_int_recv k w (cs.foldr (fun c r => c ++ r) []) := by
  refine ⟨?_, st_int_recv_bytes k w _ hr.inv ha, fun cs => rx_chunks_eq k w cs hr.inv ha⟩
  have := rx_chunks_eq k w [a, b] hr.inv ha
  simpa using this

theorem st_int_recv_chunking_witness :
    RxReachable linux mid_header_world ∧ AllocOk mid_header_world ∧
    (rx_chunks linux mid_header_world [[2, 0xAA], [0xBB, 4]]
        = st_int_recv linux mid_header_world ([2, 0xAA] ++ [0xBB, 4]) ∧
     rx_chunks linux mid_header_world (([2, 0xAA] ++ [0xBB, 4]).map fun x => [x])
        = st_int_recv linux mid_header_world ([2, 0xAA] ++ [0xBB, 4]) ∧
     ∀ cs : List (List Nat),
       rx_chunks linux mid_header_world cs
         = st_int_recv linux mid_header_world (cs.foldr (fun c r => c ++ r) [])) :=
  ⟨mid_header_world_reachable, idle_world_alloc,
    st_int_recv_chunking linux mid_header_world [2, 0xAA] [0xBB, 4]
      mid_header_world_reachable idle_world_alloc⟩

theorem st_int_enqueue_tty (w : World) (ll : ll_state_t) (skb : sk_buff) :
    (st_int_enqueue w ll skb).tty = w.tty := by
  cases ll <;> rfl

theorem st_int_enqueue_stream (w : World) (ll : ll_state_t) (skb : sk_buff)
    (h : ll = .ST_LL_AWAKE → w.tx_waitq = []) :
    tx_stream (st_int_enqueue w ll skb)
      = tx_stream w ++ (if ll.queues then skb.data else []) := by
  cases ll with
  | ST_LL_AWAKE =>
    have hw := h rfl
    simp [st_int_enqueue, tx_stream, pending, hw, bytes_of_append, bytes_of, ll_state_t.queues]
  | ST_LL_ASLEEP_TO_AWAKE =>
    simp [st_int_enqueue, tx_stream, pending, bytes_of_append, bytes_of, ll_state_t.queues]
  | ST_LL_ASLEEP =>
    simp [st_int_enqueue, tx_stream, pending, bytes_of_append, bytes_of, ll_state_t.queues,
      World.log]
  | ST_LL_AWAKE_TO_ASLEEP =>
    simp [st_int_enqueue, tx_stream, pending, ll_state_t.queues, World.log]
  | other v =>
    simp [st_int_enqueue, tx_stream, pending, ll_state_t.queues, World.log]

theorem st_tx_wakeup_stream (k : Hdr) (w w1 : World) (h : st_tx_wakeup k w = .ok w1) :
    tx_stream w1 = tx_stream w ∧ w1.tty = w.tty := by
  obtain ⟨a, b⟩ := st_tx_wakeup_step k w w1 h
  obtain ⟨-, -, -, -, -, -, -, h8, h9⟩ := tx_erase_fields a
  exact ⟨by simp only [tx_stream, h8, List.append_assoc] at b ⊢; rw [← List.append_assoc, b,
    List.append_assoc], h9⟩

theorem st_wakeup_ack_stream (k : Hdr) (w w1 : World) (cmd : Nat)
    (h : st_wakeup_ack k w cmd = .ok w1) :
    tx_stream w1 = tx_stream w ∧ w1.tty = w.tty := by
  obtain ⟨-, -, -, -, -, -, -, h8, h9, h10⟩ := st_wakeup_ack_step k w w1 cmd h
  exact ⟨by simp only [tx_stream, h8, h10, bytes_of, List.append_nil], h9⟩

/-- A run that keeps the order condition writes and queues the submitted frames
in submission order. -/
theorem tx_run_stream (k : Hdr) (w w1 : World) (ops : List TxOp)
    (hord : TxOrdered k w ops) (h : tx_run k w ops = .ok w1) :
    tx_stream w1 = tx_stream w ++ bytes_of (tx_accepted ops) := by
  induction ops generalizing w with
  | nil =>
    simp only [tx_run, Except.ok.injEq] at h
    subst h
    simp [tx_accepted, bytes_of]
  | cons op ops ih =>
    cases op with
    | enqueue ll skb =>
      simp only [tx_run] at h
      simp only [TxOrdered] at hord
      rw [ih _ hord.2 h, st_int_enqueue_stream w ll skb hord.1]
      cases hq : ll.queues <;> simp [tx_accepted, hq, bytes_of]
    | wake_ack cmd =>
      simp only [tx_run] at h
      simp only [TxOrdered] at hord
      cases hs : st_wakeup_ack k w cmd with
      | error e => rw [hs] at h; simp at h
      | ok w2 =>
        rw [hs] at h hord
        rw [ih _ hord h, (st_wakeup_ack_stream k w w2 cmd hs).1]
        simp [tx_accepted]
    | pump =>
      simp only [tx_run] at h
      simp only [TxOrdered] at hord
      cases hs : st_tx_wakeup k w with
      | error e => rw [hs] at h; simp at h
      | ok w2 =>
        rw [hs] at h hord
        rw [ih _ hord h, (st_tx_wakeup_stream k w w2 hs).1]
        simp [tx_accepted]

/-- With a tty attached every run of transmit-side steps returns. -/
theorem tx_run_total (k : Hdr) (w : World) (ops : List TxOp) (ht : w.tty = true) :
    ∃ w1, tx_run k w ops = .ok w1 := by
  induction ops generalizing w with
  | nil => exact ⟨w, rfl⟩
  | cons op ops ih =>
    cases op with
    | enqueue ll skb =>
      simp only [tx_run]
      exact ih _ ((st_int_enqueue_tty w ll skb).trans ht)
    | wake_ack cmd =>
      simp only [tx_run]
      rw [st_wakeup_ack_eq]
      obtain ⟨w2, h2⟩ := st_tx_wakeup_total k
        { w with
          txq := w.txq ++ w.tx_waitq, tx_waitq := [],
          trace := w.trace ++ [.st_ll_sleep_state cmd] } ht
      rw [h2]
      exact ih w2 ((st_tx_wakeup_stream k _ w2 h2).2.trans ht)
    | pump =>
      simp only [tx_run]
      obtain ⟨w2, h2⟩ := st_tx_wakeup_total k w ht
      rw [h2]
      exact ih w2 ((st_tx_wakeup_stream k _ w2 h2).2.trans ht)

theorem tx_run_waitq (k : Hdr) (w w1 : World) (ops : List TxOp) (ha : AwakeOnly ops)
    (h : tx_run k w ops = .ok w1) : w1.tx_waitq = w.tx_waitq := by
  induction ops generalizing w with
  | nil =>
    simp only [tx_run, Except.ok.injEq] at h
    subst h
    rfl
  | cons op ops ih =>
    cases op with
    | enqueue ll skb =>
      simp only [tx_run] at h
      simp only [AwakeOnly] at ha
      rw [ih _ ha.2 h, ha.1]
      rfl
    | wake_ack cmd => simp only [AwakeOnly] at ha
    | pump =>
      simp only [tx_run] at h
      simp only [AwakeOnly] at ha
      cases hs : st_tx_wakeup k w with
      | error e => rw [hs] at h; simp at h
      | ok w2 =>
        rw [hs] at h
        rw [ih _ ha h]
        exact (tx_erase_fields (st_tx_wakeup_step k w w2 hs).1).2.2.2.2.2.2.2.1

theorem AwakeOnly.ordered (k : Hdr) (w : World) (ops : List TxOp) (ha : AwakeOnly ops)
    (hw : w.tx_waitq = []) : TxOrdered k w ops := by
  induction ops generalizing w with
  | nil => trivial
  | cons op ops ih =>
    cases op with
    | enqueue ll skb =>
      simp only [AwakeOnly] at ha
      simp only [TxOrdered]
      refine ⟨fun _ => hw, ih _ ha.2 ?_⟩
      rw [ha.1]
      exact hw
    | wake_ack cmd => simp only [AwakeOnly] at ha
    | pump =>
      simp only [AwakeOnly] at ha
      simp only [TxOrdered]
      cases hs : st_tx_wakeup k w with
      | error e => trivial
      | ok w2 =>
        simp only
        apply ih _ ha
        rw [(tx_erase_fields (st_tx_wakeup_step k w w2 hs).1).2.2.2.2.2.2.2.1]
        exact hw

theorem st_int_dequeue_flags (w : World) (a b : Bool) :
    st_int_dequeue { w with ST_TX_SENDING := a, ST_TX_WAKEUP := b }
      = ((st_int_dequeue w).1,
          { (st_int_dequeue w).2 with ST_TX_SENDING := a, ST_TX_WAKEUP := b }) := by
  cases w with
  | mk _ _ _ _ txq _ tx_skb _ _ _ _ _ _ _ _ _ _ _ =>
    cases tx_skb with
    | some s => rfl
    | none =>
      cases txq with
      | nil => rfl
      | cons s q => rfl

/-- A write that takes only a part of the frame ends the call of `st_tx_wakeup`
with the rest of the frame in the in-flight slot. -/
theorem st_tx_wakeup_short (k : Hdr) (w w0 : World) (skb : sk_buff) (r : Int)
    (rest : List (Int × Bool)) (ht : w.tty = true) (hs : w.ST_TX_SENDING = false)
    (hd : st_int_dequeue w = (some skb, w0)) (hr : w.tty_ret = (r, false) :: rest)
    (h0 : 0 ≤ r) (hlt : r < (skb.data.length : Int)) :
    st_tx_wakeup k w = .ok (w0.tx_stalled skb r.toNat rest) := by
  obtain ⟨he, -, -, hret, hout, -⟩ := st_int_dequeue_some _ _ _ hd
  have ht0 : w0.tty = true := (tx_erase_tty he).trans ht
  have hmin : min r (skb.data.length : Int) = r := min_eq_left (le_of_lt hlt)
  have hlen : (skb.pulled r.toNat).data.length ≠ 0 := by
    simp only [sk_buff.pulled, List.length_drop]
    omega
  have hpull : skb_pull skb r = skb.pulled r.toNat := by
    simp [skb_pull, h0, le_of_lt hlt, sk_buff.pulled]
  unfold st_tx_wakeup
  simp only [hs, Bool.false_eq_true, if_false]
  unfold st_tx_pass
  simp only
  unfold st_tx_drain
  rw [st_int_dequeue_flags, hd]
  simp only [ht0, Bool.true_eq_false, if_false, st_int_write, hret, hr, hmin, hpull, hlen,
    ne_eq, not_false_eq_true, if_true, Bool.or_false, Bool.false_eq_true, World.tx_stalled, hout]

/-- C6: frames enqueued while the link is reported Awake, with calls of
`st_tx_wakeup` in between, on an engine that starts with nothing queued and
nothing written, whatever the tty answers: the run returns, the bytes the tty has
accepted followed by the bytes still pending are the frames in enqueue order, so
the accepted bytes are a beginning of that stream, and equal it (their number being
the sum of the frame lengths) once `txq` and the in-flight slot are empty.  And a
write that takes only the first `r` bytes of a frame (`0 ≤ r`, fewer than the
frame has) ends the call with the rest of the frame in the in-flight slot, `txq`
as `st_int_dequeue` left it, and that frame is what `st_int_dequeue` returns
next, before any frame of `txq`. -/
theorem st_tx_wakeup_continuation (k : Hdr) :
    (∀ (w : World) (ops : List TxOp), w.tty = true → AwakeOnly ops →
        w.txq = [] → w.tx_waitq = [] → w.tx_skb = none → w.tty_out = [] →
      ∃ w1, tx_run k w ops = .ok w1 ∧
        w1.tty_out ++ pending w1 = bytes_of (tx_accepted ops) ∧
        w1.tty_out <+: bytes_of (tx_accepted ops) ∧
        (w1.txq = [] → w1.tx_skb = none →
          w1.tty_out = bytes_of (tx_accepted ops) ∧
          w1.tty_out.length = ((tx_accepted ops).map fun s => s.data.length).sum)) ∧
    (∀ (w w0 : World) (skb : sk_buff) (r : Int) (rest : List (Int × Bool)),
        w.tty = true → w.ST_TX_SENDING = false → st_int_dequeue w = (some skb, w0) →
        w.tty_ret = (r, false) :: rest → 0 ≤ r → r < (skb.data.length : Int) →
      st_tx_wakeup k w = .ok (w0.tx_stalled skb r.toNat rest) ∧
      (w0.tx_stalled skb r.toNat rest).tx_skb = some (skb.pulled r.toNat) ∧
      (w0.tx_stalled skb r.toNat rest).txq = w0.txq ∧
      (w0.tx_stalled skb r.toNat rest).tty_out = w.tty_out ++ skb.data.take r.toNat ∧
      (st_int_dequeue (w0.tx_stalled skb r.toNat rest)).1 = some (skb.pulled r.toNat) ∧
      (st_int_dequeue (w0.tx_stalled skb r.toNat rest)).2.txq = w0.txq) := by
  constructor
  · intro w ops ht ha hq hwq hskb hout
    obtain ⟨w1, h1⟩ := tx_run_total k w ops ht
    have hst := tx_run_stream k w w1 ops (AwakeOnly.ordered k w ops ha hwq) h1
    have hw1 := tx_run_waitq k w w1 ops ha h1
    have key : w1.tty_out ++ pending w1 = bytes_of (tx_accepted ops) := by
      simp only [tx_stream, hw1, hwq, bytes_of, List.append_nil, pending, hq, hskb, hout,
        List.nil_append] at hst
      exact hst
    refine ⟨w1, h1, key, ⟨pending w1, key⟩, ?_⟩
    intro e1 e2
    have hp : pending w1 = [] := by simp [pending, e1, e2, bytes_of]
    rw [hp, List.append_nil] at key
    refine ⟨key, ?_⟩
    rw [key]
    generalize tx_accepted ops = fs
    induction fs with
    | nil => rfl
    | cons f fs ih => simp [bytes_of, ih]
  · intro w w0 skb r rest ht hs hd hr h0 hlt
    obtain ⟨-, -, -, -, hout, -⟩ := st_int_dequeue_some _ _ _ hd
    refine ⟨st_tx_wakeup_short k w w0 skb r rest ht hs hd hr h0 hlt, rfl, rfl, ?_, rfl, rfl⟩
    simp only [World.tx_stalled, hout]

theorem st_tx_wakeup_continuation_witness :
    (∃ w1, tx_run linux slow_tty_world
        [.enqueue .ST_LL_AWAKE frame_a, .pump, .enqueue .ST_LL_AWAKE frame_b, .pump, .pump]
          = .ok w1 ∧
      w1.tty_out ++ pending w1 = bytes_of (tx_accepted
        [.enqueue .ST_LL_AWAKE frame_a, .pump, .enqueue .ST_LL_AWAKE frame_b, .pump, .pump]) ∧
      w1.tty_out <+: bytes_of (tx_accepted
        [.enqueue .ST_LL_AWAKE frame_a, .pump, .enqueue .ST_LL_AWAKE frame_b, .pump, .pump]) ∧
      (w1.txq = [] → w1.tx_skb = none →
        w1.tty_out = bytes_of (tx_accepted
          [.enqueue .ST_LL_AWAKE frame_a, .pump, .enqueue .ST_LL_AWAKE frame_b, .pump,
            .pump]) ∧
        w1.tty_out.length = ((tx_accepted
          [.enqueue .ST_LL_AWAKE frame_a, .pump, .enqueue .ST_LL_AWAKE frame_b, .pump,
            .pump]).map fun s => s.data.length).sum)) ∧
    (st_tx_wakeup linux short_write_world
        = .ok (World.tx_stalled { short_write_world with txq := [frame_b] } frame_a
            (2 : Int).toNat []) ∧
      (World.tx_stalled { short_write_world with txq := [frame_b] } frame_a
            (2 : Int).toNat []).tx_skb = some (frame_a.pulled (2 : Int).toNat) ∧
      (World.tx_stalled { short_write_world with txq := [frame_b] } frame_a
            (2 : Int).toNat []).txq = [frame_b] ∧
      (World.tx_stalled { short_write_world with txq := [frame_b] } frame_a
            (2 : Int).toNat []).tty_out
        = short_write_world.tty_out ++ frame_a.data.take (2 : Int).toNat ∧
      (st_int_dequeue (World.tx_stalled { short_write_world with txq := [frame_b] } frame_a
            (2 : Int).toNat [])).1 = some (frame_a.pulled (2 : Int).toNat) ∧
      (st_int_dequeue (World.tx_stalled { short_write_world with txq := [frame_b] } frame_a
            (2 : Int).toNat [])).2.txq = [frame_b]) :=
  ⟨(st_tx_wakeup_continuation linux).1 slow_tty_world
      [.enqueue .ST_LL_AWAKE frame_a, .pump, .enqueue .ST_LL_AWAKE frame_b, .pump, .pump]
      rfl ⟨rfl, rfl, trivial⟩ rfl rfl rfl rfl,
    (st_tx_wakeup_continuation linux).2 short_write_world
      { short_write_world with txq := [frame_b] } frame_a 2 [] rfl rfl rfl rfl
      (by decide) (by decide)⟩

/-- C7: `st_int_enqueue` routes the frame by the link state it reads.  Awake: the
frame goes to the tail of `txq` and nothing else changes.  AsleepToAwake: it goes
to the tail of `tx_waitq`, nothing else changes, and no wake-up is requested.
Asleep: it goes to the tail of `tx_waitq`, `txq` is unchanged, and `st_ll_wakeup`
is called exactly once. -/
theorem st_int_enqueue_routes (w : World) (skb : sk_buff) :
    st_int_enqueue w .ST_LL_AWAKE skb = { w with txq := w.txq ++ [skb] } ∧
    st_int_enqueue w .ST_LL_ASLEEP_TO_AWAKE skb = { w with tx_waitq := w.tx_waitq ++ [skb] } ∧
    st_int_enqueue w .ST_LL_ASLEEP skb
      = { w with tx_waitq := w.tx_waitq ++ [skb], trace := w.trace ++ [.st_ll_wakeup] } ∧
    (st_int_enqueue w .ST_LL_ASLEEP skb).txq = w.txq ∧
    (st_int_enqueue w .ST_LL_ASLEEP skb).trace.count .st_ll_wakeup
      = w.trace.count .st_ll_wakeup + 1 ∧
    (st_int_enqueue w .ST_LL_ASLEEP_TO_AWAKE skb).trace.count .st_ll_wakeup
      = w.trace.count .st_ll_wakeup := by
  refine ⟨rfl, rfl, rfl, rfl, ?_, rfl⟩
  simp [st_int_enqueue, World.log]

theorem st_int_enqueue_routes_witness :
    st_int_enqueue idle_world .ST_LL_AWAKE frame_a
      = { idle_world with txq := idle_world.txq ++ [frame_a] } ∧
    st_int_enqueue idle_world .ST_LL_ASLEEP_TO_AWAKE frame_a
      = { idle_world with tx_waitq := idle_world.tx_waitq ++ [frame_a] } ∧
    st_int_enqueue idle_world .ST_LL_ASLEEP frame_a
      = { idle_world with
          tx_waitq := idle_world.tx_waitq ++ [frame_a],
          trace := idle_world.trace ++ [.st_ll_wakeup] } ∧
    (st_int_enqueue idle_world .ST_LL_ASLEEP frame_a).txq = idle_world.txq ∧
    (st_int_enqueue idle_world .ST_LL_ASLEEP frame_a).trace.count .st_ll_wakeup
      = idle_world.trace.count .st_ll_wakeup + 1 ∧
    (st_int_enqueue idle_world .ST_LL_ASLEEP_TO_AWAKE frame_a).trace.count .st_ll_wakeup
      = idle_world.trace.count .st_ll_wakeup :=
  st_int_enqueue_routes idle_world frame_a

theorem linux_tags : linux.DistinctTags := by
  unfold Hdr.DistinctTags
  decide

/-- C8: the wake-up acknowledge byte read in tag position makes `st_int_recv` run
`st_wakeup_ack`, which calls `st_tx_wakeup` in the world where `txq` is the old
`txq` followed by the old `tx_waitq`, `tx_waitq` is empty and the low-power
collaborator has been told the byte; when a transmit pass is already running that
world is the result, the latch apart; in any case no byte is lost or repeated:
what the tty has accepted and what is pending afterwards is what it was before,
followed by the frames of the old wait queue; with a tty attached the call
returns. -/
theorem st_wakeup_ack_moves (k : Hdr) (w : World) (cmd : Nat) :
    st_wakeup_ack k w cmd = st_tx_wakeup k (w.wake_acked cmd) ∧
    (w.wake_acked cmd).txq = w.txq ++ w.tx_waitq ∧ (w.wake_acked cmd).tx_waitq = [] ∧
    (w.wake_acked cmd).trace = w.trace ++ [.st_ll_sleep_state cmd] ∧
    (k.DistinctTags → w.rx_count = 0 →
      st_int_recv k w [k.LL_WAKE_UP_ACK] = st_wakeup_ack k w k.LL_WAKE_UP_ACK) ∧
    (w.ST_TX_SENDING = true →
      st_wakeup_ack k w cmd = .ok { w.wake_acked cmd with ST_TX_WAKEUP := true }) ∧
    (∀ w1, st_wakeup_ack k w cmd = .ok w1 →
      w1.tx_waitq = [] ∧ w1.trace = w.trace ++ [.st_ll_sleep_state cmd] ∧
      w1.tty_out ++ pending w1 = w.tty_out ++ pending w ++ bytes_of w.tx_waitq) ∧
    (w.tty = true → ∃ w1, st_wakeup_ack k w cmd = .ok w1) := by
  have heq : st_wakeup_ack k w cmd = st_tx_wakeup k (w.wake_acked cmd) :=
    st_wakeup_ack_eq k w cmd
  refine ⟨heq, rfl, rfl, rfl, ?_, ?_, ?_, ?_⟩
  · intro hk h0
    have hnd : ∀ x ∈ [k.HCI_EVENT_PKT, k.HCI_ACLDATA_PKT, k.HCI_SCODATA_PKT,
        k.ST_FM_CH8_PKT, 0x9, k.LL_SLEEP_IND, k.LL_SLEEP_ACK, k.LL_WAKE_UP_IND],
        k.LL_WAKE_UP_ACK ≠ x := by
      unfold Hdr.DistinctTags at hk
      simp only [List.nodup_cons, List.mem_cons, List.mem_singleton, not_or] at hk
      intro x hx
      simp only [List.mem_cons, List.mem_singleton] at hx
      obtain ⟨⟨a1, a2, a3, a4, a5, a6, a7, a8, -⟩, ⟨b2, b3, b4, b5, b6, b7, b8, -⟩,
        ⟨c3, c4, c5, c6, c7, c8, -⟩, ⟨d4, d5, d6, d7, d8, -⟩, ⟨e5, e6, e7, e8, -⟩,
        ⟨f6, f7, f8, -⟩, ⟨g7, g8, -⟩, ⟨h8, -⟩, -⟩ := hk
      rcases hx with rfl | rfl | rfl | rfl | rfl | rfl | rfl | rfl | hx
      · exact fun h => a8 h.symm
      · exact fun h => b8 h.symm
      · exact fun h => c8 h.symm
      · exact fun h => d8 h.symm
      · exact fun h => e8 h.symm
      · exact fun h => f8 h.symm
      · exact fun h => g8 h.symm
      · exact fun h => h8 h.symm
      · simp at hx
    have e0 : st_int_recv k w [k.LL_WAKE_UP_ACK]
        = match rx_iter k w [k.LL_WAKE_UP_ACK] with
          | .cont w1 ptr => st_int_recv_loop k 0 w1 ptr
          | .ret w1 => .ok w1
          | .fault e => .error e := rfl
    rw [e0]
    simp only [rx_iter, h0, ne_eq, not_true_eq_false, if_false, rx_tag_at, rx_tag,
      hnd _ (by simp : k.HCI_EVENT_PKT ∈ _), hnd _ (by simp : k.HCI_ACLDATA_PKT ∈ _),
      hnd _ (by simp : k.HCI_SCODATA_PKT ∈ _), hnd _ (by simp : k.ST_FM_CH8_PKT ∈ _),
      hnd _ (by simp : 0x9 ∈ _), hnd _ (by simp : k.LL_SLEEP_IND ∈ _),
      hnd _ (by simp : k.LL_SLEEP_ACK ∈ _), hnd _ (by simp : k.LL_WAKE_UP_IND ∈ _),
      or_self, if_true]
    cases st_wakeup_ack k w k.LL_WAKE_UP_ACK with
    | error e => rfl
    | ok w1 => rfl
  · intro hs
    rw [heq]
    have : (w.wake_acked cmd).ST_TX_SENDING = true := hs
    simp [st_tx_wakeup, this]
  · intro w1 h
    obtain ⟨-, -, -, -, -, -, h7, h8, -, h10⟩ := st_wakeup_ack_step k w w1 cmd h
    exact ⟨h8, h7, h10⟩
  · intro ht
    rw [heq]
    exact st_tx_wakeup_total k _ ht

theorem st_wakeup_ack_moves_witness :
    st_wakeup_ack linux both_queues_world 0x33
      = st_tx_wakeup linux (both_queues_world.wake_acked 0x33) ∧
    (both_queues_world.wake_acked 0x33).txq
      = both_queues_world.txq ++ both_queues_world.tx_waitq ∧
    (both_queues_world.wake_acked 0x33).tx_waitq = [] ∧
    (both_queues_world.wake_acked 0x33).trace
      = both_queues_world.trace ++ [.st_ll_sleep_state 0x33] ∧
    st_int_recv linux both_queues_world [linux.LL_WAKE_UP_ACK]
      = st_wakeup_ack linux both_queues_world linux.LL_WAKE_UP_ACK ∧
    (∃ w1, st_wakeup_ack linux both_queues_world 0x33 = .ok w1) :=
  ⟨(st_wakeup_ack_moves linux both_queues_world 0x33).1,
    (st_wakeup_ack_moves linux both_queues_world 0x33).2.1,
    (st_wakeup_ack_moves linux both_queues_world 0x33).2.2.1,
    (st_wakeup_ack_moves linux both_queues_world 0x33).2.2.2.1,
    (st_wakeup_ack_moves linux both_queues_world 0x33).2.2.2.2.1 linux_tags rfl,
    (st_wakeup_ack_moves linux both_queues_world 0x33).2.2.2.2.2.2.2 rfl⟩

/-- C9 as stated fails: in the run `overtaking_ops` the tty receives the bytes of
`frame_b` before those of `frame_a`, although `frame_a` was submitted first and
was not discarded. -/
theorem tx_order_counterexample :
    ∃ w1, tx_run linux idle_world overtaking_ops = .ok w1 ∧
      tx_accepted overtaking_ops = [frame_a, frame_b] ∧
      w1.tty_out = frame_b.data ++ frame_a.data ∧
      ¬ (w1.tty_out <+: bytes_of (tx_accepted overtaking_ops)) :=
  ⟨_, rfl, rfl, rfl, by decide⟩

/-- C9, amended: in every run of `st_int_enqueue` calls, wake-up acknowledges and
`st_tx_wakeup` calls in which the link is reported Awake to `st_int_enqueue` only
while `tx_waitq` is empty, on an engine with a tty attached, the run returns and
what the tty has accepted, followed by what is pending and by the wait queue, is
what it was at the start followed by the frames submitted and not discarded, in
submission order; so from an engine with nothing queued and nothing written the
accepted bytes are a beginning of the submitted frames in submission order. -/
theorem tx_order_kept (k : Hdr) (w : World) (ops : List TxOp) (ht : w.tty = true)
    (hord : TxOrdered k w ops) :
    ∃ w1, tx_run k w ops = .ok w1 ∧
      tx_stream w1 = tx_stream w ++ bytes_of (tx_accepted ops) ∧
      (tx_stream w = [] → w1.tty_out <+: bytes_of (tx_accepted ops)) := by
  obtain ⟨w1, h1⟩ := tx_run_total k w ops ht
  have hst := tx_run_stream k w w1 ops hord h1
  refine ⟨w1, h1, hst, ?_⟩
  intro he
  rw [he, List.nil_append] at hst
  rw [← hst]
  exact ⟨pending w1 ++ bytes_of w1.tx_waitq, by simp [tx_stream]⟩

theorem ordered_ops_ordered : TxOrdered linux idle_world ordered_ops :=
  And.intro (fun h => nomatch h) (And.intro (fun h => nomatch h)
    (And.intro (fun _ => rfl) trivial :
      (ll_state_t.ST_LL_AWAKE = .ST_LL_AWAKE → ([] : List sk_buff) = []) ∧ True))

theorem tx_order_kept_witness :
    idle_world.tty = true ∧ TxOrdered linux idle_world ordered_ops ∧
    ∃ w1, tx_run linux idle_world ordered_ops = .ok w1 ∧
      tx_stream w1 = tx_stream idle_world ++ bytes_of (tx_accepted ordered_ops) ∧
      (tx_stream idle_world = [] → w1.tty_out <+: bytes_of (tx_accepted ordered_ops)) :=
  ⟨rfl, ordered_ops_ordered,
    tx_order_kept linux idle_world ordered_ops rfl ordered_ops_ordered⟩

/-- C10 as stated fails: with a tty attached and the link reported AwakeToSleep,
`st_write` returns the length of the frame although the frame is released and is
in neither queue nor in the in-flight slot, and no byte of it reaches the tty. -/
theorem st_write_counterexample :
    ∃ w1, st_write linux idle_world .ST_LL_AWAKE_TO_ASLEEP (some frame_a) = .ok (3, w1) ∧
      w1.txq = [] ∧ w1.tx_waitq = [] ∧ w1.tx_skb = none ∧ w1.tty_out = [] ∧
      w1.trace = [.kfree_skb frame_a] :=
  ⟨_, rfl, rfl, rfl, rfl, rfl, rfl⟩

/-- C10, amended: with a tty attached, for every frame and every link state,
`st_write` returns the length the frame had on entry, after handing the frame to
`st_int_enqueue` and running `st_tx_wakeup`; the frame is queued when the link
state is Awake, AsleepToAwake or Asleep: then what the tty has accepted, what is
pending and the wait queue together gain exactly the bytes of the frame.  With no
tty attached, or for a null frame, `st_write` returns `ST_ERR_FAILURE` and leaves
the world, with `txq`, `tx_waitq` and the in-flight slot, as it was. -/
theorem st_write_spec (k : Hdr) (w : World) (ll : ll_state_t) (s : sk_buff) :
    (w.tty = true →
      ∃ w2, st_write k w ll (some s) = .ok ((s.data.length : Int), w2) ∧
        st_tx_wakeup k (st_int_enqueue w ll s) = .ok w2 ∧
        (ll.queues = true →
          (tx_stream w2).length = (tx_stream w).length + s.data.length ∧
          (ll = .ST_LL_AWAKE → w2.tty_out ++ pending w2 = w.tty_out ++ pending w ++ s.data) ∧
          (ll ≠ .ST_LL_AWAKE → w2.tx_waitq = w.tx_waitq ++ [s]))) ∧
    (w.tty = false → st_write k w ll (some s) = .ok (k.ST_ERR_FAILURE, w)) ∧
    st_write k w ll none = .ok (k.ST_ERR_FAILURE, w) := by
  refine ⟨?_, ?_, rfl⟩
  · intro ht
    obtain ⟨w2, h2⟩ := st_tx_wakeup_total k (st_int_enqueue w ll s)
      ((st_int_enqueue_tty w ll s).trans ht)
    refine ⟨w2, ?_, h2, ?_⟩
    · simp [st_write, ht, h2]
    · intro hq
      obtain ⟨a, b⟩ := st_tx_wakeup_step k _ w2 h2
      obtain ⟨-, -, -, -, -, -, -, h8, -⟩ := tx_erase_fields a
      refine ⟨?_, ?_, ?_⟩
      · simp only [tx_stream, List.length_append] at *
        have hb := congrArg List.length b
        simp only [List.length_append] at hb
        rw [hb, h8]
        cases ll <;> simp [ll_state_t.queues] at hq <;>
          simp [st_int_enqueue, pending, bytes_of_append, bytes_of, World.log] <;> omega
      · intro hl
        subst hl
        rw [b]
        simp [st_int_enqueue, pending, bytes_of_append, bytes_of]
      · intro hl
        rw [h8]
        cases ll <;> simp [ll_state_t.queues] at hq hl ⊢ <;> rfl
  · intro ht
    simp [st_write, ht]

theorem st_write_spec_witness :
    (∃ w2, st_write linux slow_tty_world .ST_LL_ASLEEP (some frame_a)
          = .ok ((frame_a.data.length : Int), w2) ∧
        st_tx_wakeup linux (st_int_enqueue slow_tty_world .ST_LL_ASLEEP frame_a) = .ok w2 ∧
        (ll_state_t.ST_LL_ASLEEP.queues = true →
          (tx_stream w2).length = (tx_stream slow_tty_world).length + frame_a.data.length ∧
          (ll_state_t.ST_LL_ASLEEP = .ST_LL_AWAKE →
            w2.tty_out ++ pending w2
              = slow_tty_world.tty_out ++ pending slow_tty_world ++ frame_a.data) ∧
          (ll_state_t.ST_LL_ASLEEP ≠ .ST_LL_AWAKE →
            w2.tx_waitq = slow_tty_world.tx_waitq ++ [frame_a]))) ∧
    st_write linux { slow_tty_world with tty := false } .ST_LL_AWAKE (some frame_a)
      = .ok (linux.ST_ERR_FAILURE, { slow_tty_world with tty := false }) :=
  ⟨(st_write_spec linux slow_tty_world .ST_LL_ASLEEP frame_a).1 rfl,
    (st_write_spec linux { slow_tty_world with tty := false } .ST_LL_AWAKE frame_a).2.1 rfl⟩

theorem st_int_recv_unbound_witness :
    (∀ w1, st_int_recv linux unbound_world [4, 1, 0] = .ok w1 →
      ∃ evs, w1.trace = unbound_world.trace ++ evs ∧
        ∀ p s, Event.recv p s ∈ evs → Bound unbound_world.list p) ∧
    (∀ p s, p < ST_MAX → ¬ Bound unbound_world.list p →
      st_send_frame linux unbound_world p (some s) = .ok (unbound_world.log (.kfree_skb s))) ∧
    (∀ l : List (Option st_proto_s),
      (st_int_recv linux { unbound_world with list := l } [4, 1, 0]).map World.untraced
        = (st_int_recv linux unbound_world [4, 1, 0]).map World.untraced) :=
  st_int_recv_unbound linux unbound_world [4, 1, 0]

theorem getD_set_self {α : Type} (l : List (Option α)) (i : Nat) (v : Option α)
    (h : i < l.length) : (l.set i v).getD i none = v := by
  simp [List.getD_eq_getElem?_getD, List.getElem?_set, h]

theorem getD_set_ne {α : Type} (l : List (Option α)) (i j : Nat) (v : Option α)
    (h : j ≠ i) : (l.set i v).getD j none = l.getD j none := by
  simp [List.getD_eq_getElem?_getD, List.getElem?_set, Ne.symm h]

theorem lt_length_of_getD {α : Type} (l : List (Option α)) (i : Nat) (b : α)
    (h : l.getD i none = some b) : i < l.length := by
  by_contra hn
  rw [List.getD_eq_getElem?_getD, List.getElem?_eq_none (by omega)] at h
  simp at h

theorem is_protocol_list_empty_iff (k : Hdr) (w : World) (hE : k.ST_EMPTY = 0)
    (hN : k.ST_NOTEMPTY ≠ 0) :
    is_protocol_list_empty k w = k.ST_EMPTY ↔ ∀ j : Nat, j < ST_MAX → w.list.getD j none = none := by
  unfold is_protocol_list_empty to_bool
  by_cases h : (List.range ST_MAX).any (fun i => (w.list.getD i none).isSome) = true
  · rw [if_pos h, if_pos hN, hE]
    simp only [List.any_eq_true, List.mem_range] at h
    obtain ⟨j, hj, hs⟩ := h
    constructor
    · intro h1; simp at h1
    · intro h1
      rw [h1 j hj] at hs
      simp at hs
  · rw [if_neg h, hE]
    simp only [List.any_eq_true, List.mem_range, not_exists, not_and] at h
    constructor
    · intro _ j hj
      have := h j hj
      cases hx : w.list.getD j none with
      | none => rfl
      | some b => rw [hx] at this; simp at this
    · intro _; simp

/-- C11: `st_register` rejects, leaving the whole engine state (registry, flags,
receive sink) as it was: a binding whose `recv` or `reg_complete_cb` is unset, with
`ST_ERR_FAILURE`; a binding with both callbacks set whose protocol id lies outside
`[ST_BT, ST_MAX)`, such as 99, with `ST_ERR_NOPROTO`; and a binding with both
callbacks set for an in-range protocol that already has a binding, with
`ST_ERR_ALREADY`, the existing binding being kept.  The three rejections return
three different constants of `st.h`: when the values of the status codes are
pairwise distinct, the three statuses differ from each other and from `ST_SUCCESS`
and `ST_ERR_PENDING`. -/
theorem st_register_rejects (k : Hdr) (kim : World → Int × World) (w : World)
    (p : st_proto_s) :
    ((p.recv.isSome = false ∨ p.reg_complete_cb.isSome = false) →
      st_register k kim w (some p) = (k.ST_ERR_FAILURE, w)) ∧
    (p.recv.isSome = true → p.reg_complete_cb.isSome = true →
      (p.type < ST_BT ∨ ST_MAX ≤ p.type) →
      st_register k kim w (some p) = (k.ST_ERR_NOPROTO, w)) ∧
    (p.recv.isSome = true → p.reg_complete_cb.isSome = true → p.type = 99 →
      st_register k kim w (some p) = (k.ST_ERR_NOPROTO, w)) ∧
    (∀ b, p.recv.isSome = true → p.reg_complete_cb.isSome = true →
      ST_BT ≤ p.type → p.type < ST_MAX → w.list.getD p.type none = some b →
      st_register k kim w (some p) = (k.ST_ERR_ALREADY, w) ∧
      (st_register k kim w (some p)).2.list.getD p.type none = some b) ∧
    (k.DistinctCodes →
      k.ST_ERR_NOPROTO ≠ k.ST_ERR_FAILURE ∧ k.ST_ERR_NOPROTO ≠ k.ST_ERR_ALREADY ∧
      k.ST_ERR_FAILURE ≠ k.ST_ERR_ALREADY ∧
      (∀ e ∈ [k.ST_ERR_NOPROTO, k.ST_ERR_FAILURE, k.ST_ERR_ALREADY],
        e ≠ k.ST_SUCCESS ∧ e ≠ k.ST_ERR_PENDING)) := by
  have hfail : (p.recv.isSome = false ∨ p.reg_complete_cb.isSome = false) →
      st_register k kim w (some p) = (k.ST_ERR_FAILURE, w) := by
    intro h
    have h1 : p.recv.isNone = true ∨ p.reg_complete_cb.isNone = true := by
      rcases h with h | h
      · left; cases hx : p.recv with
        | none => rfl
        | some f => rw [hx] at h; simp at h
      · right; cases hx : p.reg_complete_cb with
        | none => rfl
        | some f => rw [hx] at h; simp at h
    simp only [st_register]
    rw [if_pos h1]
  have hvalid : p.recv.isSome = true → p.reg_complete_cb.isSome = true →
      ¬ (p.recv.isNone = true ∨ p.reg_complete_cb.isNone = true) := by
    intro h1 h2 h
    rcases h with h | h
    · cases hx : p.recv with
      | none => rw [hx] at h1; simp at h1
      | some f => rw [hx] at h; simp at h
    · cases hx : p.reg_complete_cb with
      | none => rw [hx] at h2; simp at h2
      | some f => rw [hx] at h; simp at h
  have hrange : p.recv.isSome = true → p.reg_complete_cb.isSome = true →
      (p.type < ST_BT ∨ ST_MAX ≤ p.type) →
      st_register k kim w (some p) = (k.ST_ERR_NOPROTO, w) := by
    intro h1 h2 h3
    simp only [st_register]
    rw [if_neg (hvalid h1 h2), if_pos h3]
  refine ⟨hfail, hrange, ?_, ?_, ?_⟩
  · intro h1 h2 h3
    exact hrange h1 h2 (Or.inr (by rw [h3]; decide))
  · intro b h1 h2 h3 h4 h5
    have hnr : ¬ (p.type < ST_BT ∨ ST_MAX ≤ p.type) := by
      intro h
      rcases h with h | h
      · exact absurd h3 (Nat.not_le.mpr h)
      · exact absurd h4 (Nat.not_lt.mpr h)
    have hal : (w.list.getD p.type none).isSome = true := by rw [h5]; rfl
    have : st_register k kim w (some p) = (k.ST_ERR_ALREADY, w) := by
      simp only [st_register]
      rw [if_neg (hvalid h1 h2), if_neg hnr, if_pos hal]
    exact ⟨this, by rw [this]; exact h5⟩
  · intro hd
    unfold Hdr.DistinctCodes at hd
    simp only [List.nodup_cons, List.mem_cons, List.mem_singleton, List.not_mem_nil,
      not_or, List.nodup_nil, or_false, and_true, not_false_eq_true] at hd
    obtain ⟨⟨a1, a2, a3, a4⟩, ⟨b1, b2, b3⟩, ⟨c1, c2⟩, d1⟩ := hd
    refine ⟨d1, Ne.symm c1, Ne.symm c2, ?_⟩
    intro e he
    simp only [List.mem_cons, List.mem_singleton, List.not_mem_nil, or_false] at he
    rcases he with rfl | rfl | rfl
    · exact ⟨Ne.symm a3, Ne.symm b2⟩
    · exact ⟨Ne.symm a4, Ne.symm b3⟩
    · exact ⟨Ne.symm a2, Ne.symm b1⟩

theorem linux_codes : linux.DistinctCodes := by
  unfold Hdr.DistinctCodes linux
  decide

theorem st_register_rejects_witness :
    st_register linux (kim_alone 0) idle_world (some bad_binding)
      = (linux.ST_ERR_NOPROTO, idle_world) ∧
    linux.ST_ERR_NOPROTO ≠ linux.ST_ERR_FAILURE ∧ linux.ST_ERR_NOPROTO ≠ linux.ST_ERR_ALREADY ∧
    linux.ST_ERR_FAILURE ≠ linux.ST_ERR_ALREADY :=
  have h := st_register_rejects linux (kim_alone 0) idle_world bad_binding
  have hd := h.2.2.2.2 linux_codes
  ⟨h.2.2.1 rfl rfl rfl, hd.1, hd.2.1, hd.2.2.1⟩

/-- C12: for every valid binding of an in-range, currently unbound protocol,
`st_register` called while `ST_REG_IN_PROGRESS` is set returns `ST_ERR_PENDING`; it
stores the binding, with `st_write` as its write handle, in the registry entry of
the protocol, sets `ST_REG_PENDING`, applies the chip-enable toggle of the
protocol and changes nothing else: the other registry entries and
`ST_REG_IN_PROGRESS` are as they were, and no bring-up is started (neither
`st_ll_enable` nor `st_kim_start` is called, whatever `st_kim_start` would do). -/
theorem st_register_pending (k : Hdr) (kim : World → Int × World) (w : World)
    (p : st_proto_s) (hr : p.recv.isSome = true) (hc : p.reg_complete_cb.isSome = true)
    (h0 : ST_BT ≤ p.type) (ht : p.type < ST_MAX) (hl : w.list.length = ST_MAX)
    (hu : w.list.getD p.type none = none) (hip : w.ST_REG_IN_PROGRESS = true) :
    ∃ w1, st_register k kim w (some p) = (k.ST_ERR_PENDING, w1) ∧
      w1 = { w with list := w.list.set p.type (some { p with write := true }),
                    ST_REG_PENDING := true,
                    trace := w.trace ++ [.st_kim_chip_toggle p.type k.KIM_GPIO_ACTIVE] } ∧
      w1.list.getD p.type none = some { p with write := true } ∧
      (∀ j, j ≠ p.type → w1.list.getD j none = w.list.getD j none) ∧
      w1.ST_REG_PENDING = true ∧ w1.ST_REG_IN_PROGRESS = true ∧ w1.st_recv = w.st_recv ∧
      Event.st_kim_start ∉ w1.trace.drop w.trace.length ∧
      Event.st_ll_enable ∉ w1.trace.drop w.trace.length := by
  have hv : ¬ (p.recv.isNone = true ∨ p.reg_complete_cb.isNone = true) := by
    intro h
    rcases h with h | h
    · cases hx : p.recv with
      | none => rw [hx] at hr; simp at hr
      | some f => rw [hx] at h; simp at h
    · cases hx : p.reg_complete_cb with
      | none => rw [hx] at hc; simp at hc
      | some f => rw [hx] at h; simp at h
  have hnr : ¬ (p.type < ST_BT ∨ ST_MAX ≤ p.type) := by
    intro h
    rcases h with h | h
    · exact absurd h0 (Nat.not_le.mpr h)
    · exact absurd ht (Nat.not_lt.mpr h)
  have hna : ¬ (w.list.getD p.type none).isSome = true := by rw [hu]; simp
  refine ⟨_, ?_, rfl, ?_, ?_, rfl, hip, rfl, ?_, ?_⟩
  · simp only [st_register]
    rw [if_neg hv, if_neg hnr, if_neg hna, if_pos hip]
    rfl
  · exact getD_set_self _ _ _ (by rw [hl]; exact ht)
  · intro j hj
    exact getD_set_ne _ _ _ _ hj
  · simp
  · simp

theorem st_register_pending_witness :
    ∃ w1, st_register linux (kim_alone 0)
        { unbound_world with ST_REG_IN_PROGRESS := true } (some fm_binding)
        = (linux.ST_ERR_PENDING, w1) ∧
      w1.list.getD ST_FM none = some { fm_binding with write := true } ∧
      w1.ST_REG_PENDING = true :=
  have ⟨w1, h1, _, h3, _, h5, _⟩ := st_register_pending linux (kim_alone 0)
    { unbound_world with ST_REG_IN_PROGRESS := true } fm_binding rfl rfl (by decide)
    (by decide) rfl rfl rfl
  ⟨w1, h1, h3, h5⟩

/-- C14 as stated fails: `st_unregister` answers an in-range protocol without a
binding (`ST_FM` on the idle engine) and an out-of-range id (99) with the same
status, so the two rejections are not different codes. -/
theorem st_unregister_counterexample :
    ST_BT ≤ ST_FM ∧ ST_FM < ST_MAX ∧ idle_world.list.getD ST_FM none = none ∧ ST_MAX ≤ 99 ∧
    ¬ ((st_unregister linux idle_world ST_FM).1 ≠ (st_unregister linux idle_world 99).1) := by
  refine ⟨by decide, by decide, rfl, by decide, ?_⟩
  decide

/-- C14 (amended): `st_unregister` returns `ST_SUCCESS` when the in-range protocol
has a binding, and one and the same status, `ST_ERR_NOPROTO`, both when the
protocol id is in range but has no binding and when the id is outside
`[ST_BT, ST_MAX)`; in both rejection cases the engine state is unchanged.  When the
values of the status codes are pairwise distinct, the rejection status differs
from the success status. -/
theorem st_unregister_status (k : Hdr) (w : World) (type : proto_type) :
    (ST_BT ≤ type → type < ST_MAX → (∃ b, w.list.getD type none = some b) →
      (st_unregister k w type).1 = k.ST_SUCCESS) ∧
    (ST_BT ≤ type → type < ST_MAX → w.list.getD type none = none →
      st_unregister k w type = (k.ST_ERR_NOPROTO, w)) ∧
    ((type < ST_BT ∨ ST_MAX ≤ type) → st_unregister k w type = (k.ST_ERR_NOPROTO, w)) ∧
    (k.DistinctCodes → k.ST_ERR_NOPROTO ≠ k.ST_SUCCESS) := by
  refine ⟨?_, ?_, ?_, ?_⟩
  · intro h0 h1 ⟨b, hb⟩
    have hnr : ¬ (type < ST_BT ∨ ST_MAX ≤ type) := by
      intro h
      rcases h with h | h
      · exact absurd h0 (Nat.not_le.mpr h)
      · exact absurd h1 (Nat.not_lt.mpr h)
    have hb1 : ¬ (w.list.getD type none).isNone = true := by rw [hb]; simp
    simp only [st_unregister]
    rw [if_neg hnr, if_neg hb1]
    split <;> rfl
  · intro h0 h1 hb
    have hnr : ¬ (type < ST_BT ∨ ST_MAX ≤ type) := by
      intro h
      rcases h with h | h
      · exact absurd h0 (Nat.not_le.mpr h)
      · exact absurd h1 (Nat.not_lt.mpr h)
    have hb1 : (w.list.getD type none).isNone = true := by rw [hb]; rfl
    simp only [st_unregister]
    rw [if_neg hnr, if_pos hb1]
  · intro h
    simp only [st_unregister]
    rw [if_pos h]
  · intro hd
    unfold Hdr.DistinctCodes at hd
    simp only [List.nodup_cons, List.mem_cons, List.mem_singleton, List.not_mem_nil,
      not_or, List.nodup_nil, or_false, and_true, not_false_eq_true] at hd
    exact Ne.symm hd.1.2.2.1

theorem st_unregister_status_witness :
    (st_unregister linux idle_world ST_BT).1 = linux.ST_SUCCESS ∧
    st_unregister linux idle_world ST_FM = (linux.ST_ERR_NOPROTO, idle_world) ∧
    st_unregister linux idle_world 99 = (linux.ST_ERR_NOPROTO, idle_world) ∧
    linux.ST_ERR_NOPROTO ≠ linux.ST_SUCCESS :=
  have h := st_unregister_status linux idle_world
  ⟨(h ST_BT).1 (by decide) (by decide) ⟨bt_binding, rfl⟩,
   (h ST_FM).2.1 (by decide) (by decide) rfl,
   (h 99).2.2.1 (Or.inr (by decide)),
   (h 99).2.2.2 linux_codes⟩

/-- C15: `st_unregister` on a bound in-range protocol returns `ST_SUCCESS`, clears
the registry entry of that protocol and no other, applies the chip-disable toggle
of the protocol, and performs the shutdown sequence (the traffic of the attached
tty is halted by `tty_ldisc_flush` and `stop_tty`, then `st_kim_stop` and
`st_ll_disable` are called) if and only if the registry is then empty and
`ST_REG_PENDING` is clear; nothing else of the engine state changes. -/
theorem st_unregister_bound (k : Hdr) (w : World) (type : proto_type) (b : st_proto_s)
    (hE : k.ST_EMPTY = 0) (hN : k.ST_NOTEMPTY ≠ 0) (h0 : ST_BT ≤ type) (ht : type < ST_MAX)
    (hb : w.list.getD type none = some b) :
    ∃ w1 evs, st_unregister k w type = (k.ST_SUCCESS, w1) ∧
      w1 = { w with list := w.list.set type none,
                    trace := w.trace ++ .st_kim_chip_toggle type k.KIM_GPIO_INACTIVE :: evs } ∧
      w1.list.getD type none = none ∧
      (∀ j, j ≠ type → w1.list.getD j none = w.list.getD j none) ∧
      (RegistryEmpty w1 ∧ w.ST_REG_PENDING = false → evs = shutdown_events w) ∧
      (¬ (RegistryEmpty w1 ∧ w.ST_REG_PENDING = false) → evs = []) ∧
      (Event.st_kim_stop ∈ evs ↔ RegistryEmpty w1 ∧ w.ST_REG_PENDING = false) ∧
      (Event.st_ll_disable ∈ evs ↔ RegistryEmpty w1 ∧ w.ST_REG_PENDING = false) ∧
      (w.tty = true →
        (Event.stop_tty ∈ evs ↔ RegistryEmpty w1 ∧ w.ST_REG_PENDING = false) ∧
        (Event.tty_ldisc_flush ∈ evs ↔ RegistryEmpty w1 ∧ w.ST_REG_PENDING = false)) := by
  have hnr : ¬ (type < ST_BT ∨ ST_MAX ≤ type) := by
    intro h
    rcases h with h | h
    · exact absurd h0 (Nat.not_le.mpr h)
    · exact absurd ht (Nat.not_lt.mpr h)
  have hb1 : ¬ (w.list.getD type none).isNone = true := by rw [hb]; simp
  have hlen := lt_length_of_getD _ _ _ hb
  have hiff := is_protocol_list_empty_iff k
    ((w.set_list type none).log (.st_kim_chip_toggle type k.KIM_GPIO_INACTIVE)) hE hN
  by_cases hc : RegistryEmpty (w.set_list type none) ∧ w.ST_REG_PENDING = false
  · refine ⟨_, shutdown_events w, ?_, rfl, getD_set_self _ _ _ hlen,
      fun j hj => getD_set_ne _ _ _ _ hj, fun _ => rfl, fun h => absurd hc h, ?_, ?_, ?_⟩
    · simp only [st_unregister]
      rw [if_neg hnr, if_neg hb1]
      have hc1 : is_protocol_list_empty k
          ((w.set_list type none).log (.st_kim_chip_toggle type k.KIM_GPIO_INACTIVE))
            = k.ST_EMPTY ∧
          ¬ ((w.set_list type none).log
              (.st_kim_chip_toggle type k.KIM_GPIO_INACTIVE)).ST_REG_PENDING = true := by
        refine ⟨hiff.mpr hc.1, ?_⟩
        have := hc.2
        simp only [World.log, World.set_list]
        rw [this]; simp
      rw [if_pos hc1]
      simp only [halt_tty, World.log, World.set_list, shutdown_events]
      cases w.tty <;> simp
    · simp only [shutdown_events]
      constructor
      · intro _; exact hc
      · intro _; simp
    · simp only [shutdown_events]
      constructor
      · intro _; exact hc
      · intro _; simp
    · intro htty
      simp only [shutdown_events, htty]
      constructor
      · constructor
        · intro _; exact hc
        · intro _; simp
      · constructor
        · intro _; exact hc
        · intro _; simp
  · refine ⟨_, [], ?_, rfl, getD_set_self _ _ _ hlen,
      fun j hj => getD_set_ne _ _ _ _ hj, fun h => absurd h hc, fun _ => rfl, ?_, ?_, ?_⟩
    · simp only [st_unregister]
      rw [if_neg hnr, if_neg hb1]
      have hc1 : ¬ (is_protocol_list_empty k
          ((w.set_list type none).log (.st_kim_chip_toggle type k.KIM_GPIO_INACTIVE))
            = k.ST_EMPTY ∧
          ¬ ((w.set_list type none).log
              (.st_kim_chip_toggle type k.KIM_GPIO_INACTIVE)).ST_REG_PENDING = true) := by
        intro ⟨h1, h2⟩
        apply hc
        refine ⟨hiff.mp h1, ?_⟩
        simp only [World.log, World.set_list] at h2
        cases hx : w.ST_REG_PENDING with
        | false => rfl
        | true => rw [hx] at h2; simp at h2
      rw [if_neg hc1]
      simp only [World.log, World.set_list]
    · constructor
      · intro h; simp at h
      · intro h; exact absurd h hc
    · constructor
      · intro h; simp at h
      · intro h; exact absurd h hc
    · intro _
      constructor
      · constructor
        · intro h; simp at h
        · intro h; exact absurd h hc
      · constructor
        · intro h; simp at h
        · intro h; exact absurd h hc

theorem st_unregister_bound_witness :
    ∃ w1, st_unregister linux idle_world ST_BT = (linux.ST_SUCCESS, w1) ∧
      w1.list.getD ST_BT none = none ∧
      w1.trace = [.st_kim_chip_toggle ST_BT 0, .tty_ldisc_flush, .stop_tty, .st_kim_stop,
        .st_ll_disable] := by
  obtain ⟨w1, evs, h1, h2, h3, -, h5, -⟩ := st_unregister_bound linux idle_world ST_BT
    bt_binding rfl (by decide) (by decide) (by decide) rfl
  refine ⟨w1, h1, h3, ?_⟩
  have he : evs = shutdown_events idle_world := by
    apply h5
    refine ⟨?_, rfl⟩
    rw [h2]
    intro j hj
    have hj3 : (j : Nat) < 3 := hj
    have : j = 0 ∨ j = 1 ∨ j = 2 := by omega
    rcases this with rfl | rfl | rfl <;> rfl
  rw [h2, he]
  rfl

theorem reg_complete_at_eq (w : World) (err : Int) (i : Nat) :
    reg_complete_at w err i
      = { w with trace := w.trace ++ (cb_event w.list err i).toList } := by
  unfold reg_complete_at cb_event
  cases w.list.getD i none with
  | none => simp
  | some p =>
    cases h : p.reg_complete_cb with
    | none => simp [h]
    | some cb => simp [h, World.log]

theorem reg_complete_fold (err : Int) (is : List Nat) (w : World) :
    is.foldl (fun x i => reg_complete_at x err i) w
      = { w with trace := w.trace ++ is.filterMap (cb_event w.list err) } := by
  induction is generalizing w with
  | nil => simp
  | cons i is ih =>
    rw [List.foldl_cons, ih, reg_complete_at_eq]
    simp only [List.filterMap_cons]
    cases cb_event w.list err i with
    | none => simp
    | some e => simp

theorem st_reg_complete_eq (k : Hdr) (w : World) (err : Int) :
    st_reg_complete k w err
      = { w with trace := w.trace ++ cb_events w.list (to_char k err) } :=
  reg_complete_fold (to_char k err) _ w

theorem cb_event_eq_some (l : List (Option st_proto_s)) (err : Int) (i : Nat) (ev : Event) :
    cb_event l err i = some ev ↔
      ∃ b cb, l.getD i none = some b ∧ b.reg_complete_cb = some cb ∧
        ev = .reg_complete_cb i cb err := by
  unfold cb_event
  cases h1 : l.getD i none with
  | none => simp
  | some b =>
    cases h2 : b.reg_complete_cb with
    | none => simp [h2]
    | some cb =>
      constructor
      · intro h
        simp only [h2, Option.some.injEq] at h
        exact ⟨b, cb, rfl, h2, h.symm⟩
      · rintro ⟨b1, c1, hb1, hc1, rfl⟩
        simp only [Option.some.injEq] at hb1
        subst hb1
        rw [h2] at hc1
        simp only [Option.some.injEq] at hc1
        subst hc1
        simp only [h2]

theorem mem_cb_events (l : List (Option st_proto_s)) (err : Int) (i cb : Nat) (e : Int) :
    Event.reg_complete_cb i cb e ∈ cb_events l err ↔
      i < ST_MAX ∧ e = err ∧ ∃ b, l.getD i none = some b ∧ b.reg_complete_cb = some cb := by
  unfold cb_events
  rw [List.mem_filterMap]
  constructor
  · rintro ⟨j, hj, h⟩
    rw [List.mem_range] at hj
    obtain ⟨b, c, hb, hc, he⟩ := (cb_event_eq_some _ _ _ _).mp h
    simp only [Event.reg_complete_cb.injEq] at he
    obtain ⟨rfl, rfl, rfl⟩ := he
    exact ⟨hj, rfl, b, hb, hc⟩
  · rintro ⟨hi, rfl, b, hb, hc⟩
    exact ⟨i, List.mem_range.mpr hi, (cb_event_eq_some _ _ _ _).mpr ⟨b, cb, hb, hc, rfl⟩⟩

theorem cb_events_nodup (l : List (Option st_proto_s)) (err : Int) :
    (cb_events l err).Nodup := by
  unfold cb_events
  apply List.Nodup.filterMap _ (List.nodup_range _)
  intro a a1 b hb hb1
  obtain ⟨_, _, _, _, he⟩ := (cb_event_eq_some _ _ _ _).mp hb
  obtain ⟨_, _, _, _, he1⟩ := (cb_event_eq_some _ _ _ _).mp hb1
  rw [he] at he1
  simp only [Event.reg_complete_cb.injEq] at he1
  exact he1.1

theorem st_register_in_progress (k : Hdr) (kim : World → Int × World) (w : World)
    (q : st_proto_s) (hip : w.ST_REG_IN_PROGRESS = true) :
    (q.recv.isSome = true ∧ q.reg_complete_cb.isSome = true ∧ q.type < ST_MAX ∧
      w.list.getD q.type none = none ∧
      st_register k kim w (some q)
        = (k.ST_ERR_PENDING,
           { w with list := w.list.set q.type (some q.stored), ST_REG_PENDING := true,
                    trace := w.trace ++ [.st_kim_chip_toggle q.type k.KIM_GPIO_ACTIVE] })) ∨
    (∃ c, c ∈ [k.ST_ERR_FAILURE, k.ST_ERR_NOPROTO, k.ST_ERR_ALREADY] ∧
      st_register k kim w (some q) = (c, w)) := by
  simp only [st_register]
  by_cases h1 : q.recv.isNone = true ∨ q.reg_complete_cb.isNone = true
  · right
    exact ⟨k.ST_ERR_FAILURE, by simp, by rw [if_pos h1]⟩
  rw [if_neg h1]
  by_cases h2 : q.type < ST_BT ∨ ST_MAX ≤ q.type
  · right
    exact ⟨k.ST_ERR_NOPROTO, by simp, by rw [if_pos h2]⟩
  rw [if_neg h2]
  by_cases h3 : (w.list.getD q.type none).isSome = true
  · right
    exact ⟨k.ST_ERR_ALREADY, by simp, by rw [if_pos h3]⟩
  rw [if_neg h3, if_pos hip]
  left
  refine ⟨?_, ?_, ?_, ?_, rfl⟩
  · cases hx : q.recv with
    | none => exact absurd (Or.inl (by rw [hx]; rfl)) h1
    | some f => rfl
  · cases hx : q.reg_complete_cb with
    | none => exact absurd (Or.inr (by rw [hx]; rfl)) h1
    | some f => rfl
  · exact Nat.lt_of_not_le (fun h => h2 (Or.inr h))
  · cases hx : w.list.getD q.type none with
    | none => rfl
    | some b => rw [hx] at h3; simp at h3

theorem register_each_pending (k : Hdr) (kim : World → Int × World) (hd : k.DistinctCodes)
    (others : List st_proto_s) (w : World) (hip : w.ST_REG_IN_PROGRESS = true)
    (hl : w.list.length = ST_MAX) :
    PendingRun k w (register_each k kim w others).2 (register_each k kim w others).1 := by
  have hne : ∀ c, c ∈ [k.ST_ERR_FAILURE, k.ST_ERR_NOPROTO, k.ST_ERR_ALREADY] →
      c ≠ k.ST_ERR_PENDING := by
    intro c hc
    unfold Hdr.DistinctCodes at hd
    simp only [List.nodup_cons, List.mem_cons, List.mem_singleton, List.not_mem_nil,
      not_or, List.nodup_nil, or_false, and_true, not_false_eq_true] at hd
    obtain ⟨-, ⟨b1, b2, b3⟩, -⟩ := hd
    simp only [List.mem_cons, List.mem_singleton, List.not_mem_nil, or_false] at hc
    rcases hc with rfl | rfl | rfl
    · exact Ne.symm b3
    · exact Ne.symm b2
    · exact Ne.symm b1
  induction others generalizing w with
  | nil =>
    simp only [register_each]
    exact ⟨hip, rfl, rfl, ⟨[], by simp, by simp⟩, fun _ _ h => h, fun _ _ h => Or.inl h,
      by simp, id, by simp⟩
  | cons q qs ih =>
    simp only [register_each]
    rcases st_register_in_progress k kim w q hip with ⟨-, v2, v3, v4, hs⟩ | ⟨c, hc, hs⟩
    · rw [hs]
      simp only
      have hlt : q.type < w.list.length := by rw [hl]; exact v3
      have := ih { w with list := w.list.set q.type (some q.stored), ST_REG_PENDING := true,
                          trace := w.trace ++ [.st_kim_chip_toggle q.type k.KIM_GPIO_ACTIVE] }
        hip (by simp only [List.length_set]; exact hl)
      obtain ⟨a1, a2, a3, ⟨evs, a4, a5⟩, a6, a7, a8, a9, a10⟩ := this
      refine ⟨a1, ?_, a3, ⟨.st_kim_chip_toggle q.type k.KIM_GPIO_ACTIVE :: evs, ?_, ?_⟩,
        ?_, ?_, ?_, fun _ => a9 rfl, fun _ => a9 rfl⟩
      · rw [a2]; simp
      · rw [a4]; simp
      · intro i cb e hm
        simp only [List.mem_cons] at hm
        rcases hm with hm | hm
        · simp at hm
        · exact a5 i cb e hm
      · intro i b hb
        apply a6
        have hi : i ≠ q.type := by
          intro h
          rw [h, v4] at hb
          simp at hb
        simp only
        rw [getD_set_ne _ _ _ _ hi]
        exact hb
      · intro i b hb
        rcases a7 i b hb with h | ⟨q1, h1, h2, h3⟩
        · simp only at h
          by_cases hi : i = q.type
          · subst hi
            rw [getD_set_self _ _ _ hlt] at h
            simp only [Option.some.injEq] at h
            exact Or.inr ⟨q, by simp, rfl, h.symm⟩
          · rw [getD_set_ne _ _ _ _ hi] at h
            exact Or.inl h
        · exact Or.inr ⟨q1, by simp [h1], h2, h3⟩
      · intro q1 hq1
        simp only [List.mem_cons, Prod.mk.injEq] at hq1
        rcases hq1 with ⟨rfl, -⟩ | hq1
        · refine ⟨v2, v3, ?_⟩
          apply a6
          simp only
          exact getD_set_self _ _ _ hlt
        · exact a8 q1 hq1
    · rw [hs]
      simp only
      obtain ⟨a1, a2, a3, a4, a6, a7, a8, a9, a10⟩ := ih w hip hl
      refine ⟨a1, a2, a3, a4, a6, ?_, ?_, a9, ?_⟩
      · intro i b hb
        rcases a7 i b hb with h | ⟨q1, h1, h2, h3⟩
        · exact Or.inl h
        · exact Or.inr ⟨q1, by simp [h1], h2, h3⟩
      · intro q1 hq1
        simp only [List.mem_cons, Prod.mk.injEq] at hq1
        rcases hq1 with ⟨-, h⟩ | hq1
        · exact absurd h.symm (hne c hc)
        · exact a8 q1 hq1
      · rintro ⟨q1, hq1⟩
        simp only [List.mem_cons, Prod.mk.injEq] at hq1
        rcases hq1 with ⟨-, h⟩ | hq1
        · exact absurd h.symm (hne c hc)
        · exact a10 ⟨q1, hq1⟩

theorem cb_events_pending (k : Hdr) (w0 mid : World) (rs : List (st_proto_s × Int)) (s : Int)
    (hp : PendingRun k w0 mid rs) (he : ∀ i : Nat, w0.list.getD i none = none) :
    (∀ q, (q, k.ST_ERR_PENDING) ∈ rs → ∃ cb, q.reg_complete_cb = some cb ∧
      (cb_events mid.list s).count (.reg_complete_cb q.type cb s) = 1 ∧
      ∀ cb1 e1, Event.reg_complete_cb q.type cb1 e1 ∈ cb_events mid.list s →
        cb1 = cb ∧ e1 = s) ∧
    (∀ i cb e, Event.reg_complete_cb i cb e ∈ cb_events mid.list s →
      e = s ∧ ∃ q, (q, k.ST_ERR_PENDING) ∈ rs ∧ q.type = i ∧ q.reg_complete_cb = some cb) ∧
    ((∀ q, (q, k.ST_ERR_PENDING) ∉ rs) → ∀ i : Nat, mid.list.getD i none = none) := by
  refine ⟨?_, ?_, ?_⟩
  · intro q hq
    obtain ⟨h1, h2, h3⟩ := hp.stored q hq
    cases hcb : q.reg_complete_cb with
    | none => rw [hcb] at h1; simp at h1
    | some cb =>
      refine ⟨cb, rfl, ?_, ?_⟩
      · apply List.count_eq_one_of_mem (cb_events_nodup _ _)
        exact (mem_cb_events _ _ _ _ _).mpr ⟨h2, rfl, q.stored, h3, hcb⟩
      · intro cb1 e1 hm
        obtain ⟨-, h5, b, h6, h7⟩ := (mem_cb_events _ _ _ _ _).mp hm
        rw [h3] at h6
        simp only [Option.some.injEq] at h6
        subst h6
        have : q.stored.reg_complete_cb = q.reg_complete_cb := rfl
        rw [this, hcb] at h7
        simp only [Option.some.injEq] at h7
        exact ⟨h7.symm, h5⟩
  · intro i cb e hm
    obtain ⟨-, h5, b, h6, h7⟩ := (mem_cb_events _ _ _ _ _).mp hm
    refine ⟨h5, ?_⟩
    rcases hp.origin i b h6 with h | ⟨q, h1, h2, h3⟩
    · rw [he i] at h
      simp at h
    · subst h3
      exact ⟨q, h1, h2, h7⟩
  · intro hno i
    cases hx : mid.list.getD i none with
    | none => rfl
    | some b =>
      rcases hp.origin i b hx with h | ⟨q, h1, -, -⟩
      · rw [he i] at h
        simp at h
      · exact absurd h1 (hno q)

theorem st_register_first (k : Hdr) (kim : World → Int × World) (w : World) (p : st_proto_s)
    (hE : k.ST_EMPTY = 0) (hN : k.ST_NOTEMPTY ≠ 0)
    (hr : p.recv.isSome = true) (hc : p.reg_complete_cb.isSome = true)
    (h0 : ST_BT ≤ p.type) (ht : p.type < ST_MAX)
    (he : RegistryEmpty w) (hip : w.ST_REG_IN_PROGRESS = false) :
    st_register k kim w (some p)
      = st_register_started k (kim w.kim_entered).2 p (kim w.kim_entered).1 := by
  have hv : ¬ (p.recv.isNone = true ∨ p.reg_complete_cb.isNone = true) := by
    intro h
    rcases h with h | h
    · cases hx : p.recv with
      | none => rw [hx] at hr; simp at hr
      | some f => rw [hx] at h; simp at h
    · cases hx : p.reg_complete_cb with
      | none => rw [hx] at hc; simp at hc
      | some f => rw [hx] at h; simp at h
  have hnr : ¬ (p.type < ST_BT ∨ ST_MAX ≤ p.type) := by
    intro h
    rcases h with h | h
    · exact absurd h0 (Nat.not_le.mpr h)
    · exact absurd ht (Nat.not_lt.mpr h)
  have hna : ¬ (w.list.getD p.type none).isSome = true := by rw [he _ ht]; simp
  have hnp : ¬ w.ST_REG_IN_PROGRESS = true := by rw [hip]; simp
  have hem : is_protocol_list_empty k w = k.ST_EMPTY :=
    (is_protocol_list_empty_iff k w hE hN).mpr he
  simp only [st_register]
  rw [if_neg hv, if_neg hnr, if_neg hna, if_neg hnp, if_pos hem]
  rfl

theorem fresh_world_empty : RegistryEmpty fresh_world := by
  intro j hj
  have hj3 : (j : Nat) < 3 := hj
  have : j = 0 ∨ j = 1 ∨ j = 2 := by omega
  rcases this with rfl | rfl | rfl <;> rfl

theorem st_check_data_len_idle (k : Hdr) (w w1 : World) (p : proto_type) (len n : Nat)
    (h : st_check_data_len k w p len = .ok (n, w1)) : RxIdle w1 := by
  obtain ⟨skb, -, hc⟩ := st_check_data_len_ok _ _ _ _ _ _ h
  rcases hc with ⟨-, -, evs, he, -⟩ | ⟨-, -, -, he⟩ | ⟨hz, -, -, he⟩
  · subst he; intro _; rfl
  · subst he; intro _; rfl
  · subst he; intro h0; exact absurd h0 hz

theorem rx_continue_idle (k : Hdr) (w : World) (p : proto_type) (len : Nat) (ptr : List Nat) :
    match rx_continue (st_check_data_len k w p len) ptr with
    | .cont w1 _ => RxIdle w1
    | .ret w1 => RxIdle w1
    | .fault _ => True := by
  cases hr : st_check_data_len k w p len with
  | error e => simp only [rx_continue]
  | ok r =>
    obtain ⟨n, w1⟩ := r
    simp only [rx_continue]
    exact st_check_data_len_idle _ _ _ _ _ _ hr

theorem rx_tag_idle (k : Hdr) (hp : HdrPos k) (w : World) (b : Nat) (ptr : List Nat)
    (hz : RxIdle w) :
    match rx_tag k w b ptr with
    | .cont w1 _ => RxIdle w1
    | .ret w1 => RxIdle w1
    | .fault _ => True := by
  rcases rx_tag_cases k w b ptr with ⟨c, -, h⟩ | h | h | h
  · rw [h]
    rcases rx_alloc_class k w c ptr with ⟨w1, -, h2⟩ | ⟨w1, -, h2⟩
    · rw [h2]
      intro h0
      exact absurd h0 (Nat.pos_iff_ne_zero.mp (hp c))
    · rw [h2]
      intro _; rfl
  · rw [h]; exact hz
  · rw [h]
    cases hs : st_wakeup_ack k w b with
    | error e => simp only
    | ok w1 =>
      obtain ⟨-, h2, h3, -⟩ := st_wakeup_ack_step k w w1 b hs
      simp only
      intro h0
      rw [h2]
      exact hz (h3 ▸ h0)
  · rw [h]; exact hz

theorem rx_tag_at_idle (k : Hdr) (hp : HdrPos k) (w : World) (ptr : List Nat)
    (hz : RxIdle w) :
    match rx_tag_at k w ptr with
    | .cont w1 _ => RxIdle w1
    | .ret w1 => RxIdle w1
    | .fault _ => True := by
  cases ptr with
  | nil => simp only [rx_tag_at]
  | cons b rest => exact rx_tag_idle k hp w b rest hz

theorem rx_complete_idle (k : Hdr) (w : World) (ptr : List Nat)
    (hst : w.rx_state ≠ .ST_W4_PACKET_TYPE) :
    match rx_complete k w ptr with
    | .cont w1 _ => RxIdle w1
    | .ret w1 => RxIdle w1
    | .fault _ => True := by
  unfold rx_complete
  cases hs : w.rx_state with
  | ST_W4_PACKET_TYPE => exact absurd hs hst
  | ST_BT_W4_DATA =>
    simp only
    cases st_send_frame k w w.protoid w.rx_skb with
    | error e => simp only
    | ok w2 => simp only; intro _; rfl
  | ST_BT_W4_EVENT_HDR =>
    simp only
    cases w.rx_skb with
    | none => simp only
    | some skb => exact rx_continue_idle _ _ _ _ _
  | ST_BT_W4_ACL_HDR =>
    simp only
    cases w.rx_skb with
    | none => simp only
    | some skb => exact rx_continue_idle _ _ _ _ _
  | ST_BT_W4_SCO_HDR =>
    simp only
    cases w.rx_skb with
    | none => simp only
    | some skb => exact rx_continue_idle _ _ _ _ _
  | ST_FM_W4_EVENT_HDR =>
    simp only
    cases w.rx_skb with
    | none => simp only
    | some skb => exact rx_continue_idle _ _ _ _ _
  | ST_GPS_W4_EVENT_HDR =>
    simp only
    cases w.rx_skb with
    | none => simp only
    | some skb => exact rx_continue_idle _ _ _ _ _

theorem rx_iter_idle (k : Hdr) (hp : HdrPos k) (w : World) (data : List Nat)
    (hi : RxInv k w) (hz : RxIdle w) :
    match rx_iter k w data with
    | .cont w1 _ => RxIdle w1
    | .ret w1 => RxIdle w1
    | .fault _ => True := by
  unfold rx_iter
  by_cases h0 : w.rx_count = 0
  · simp only [h0, ne_eq, not_true_eq_false, if_false]
    exact rx_tag_at_idle k hp w data hz
  · simp only [ne_eq, h0, not_false_eq_true, if_true]
    have hst := RxInv_state hi h0
    cases hs : w.rx_skb with
    | none => simp only
    | some skb =>
      simp only
      cases hput : skb_put skb (List.take (min w.rx_count data.length) data) with
      | none => simp only
      | some skb1 =>
        simp only
        by_cases hc : w.rx_count - min w.rx_count data.length = 0
        · rw [if_neg (by simpa using hc)]
          exact rx_complete_idle k _ _ hst
        · rw [if_pos hc]
          intro h1
          exact absurd h1 hc

theorem st_int_recv_loop_idle (k : Hdr) (hp : HdrPos k) (f : Nat) (w w1 : World)
    (d : List Nat) (hi : RxInv k w) (hz : RxIdle w)
    (h : st_int_recv_loop k f w d = .ok w1) : RxIdle w1 := by
  induction f generalizing w d with
  | zero =>
    cases d with
    | nil => simp [st_int_recv_loop_nil] at h; subst h; exact hz
    | cons b r => simp [st_int_recv_loop] at h
  | succ n ih =>
    cases d with
    | nil => simp [st_int_recv_loop_nil] at h; subst h; exact hz
    | cons b r =>
      rw [st_int_recv_loop_cons] at h
      have hs := rx_iter_step k w (b :: r) (by simp)
      have hd := rx_iter_idle k hp w (b :: r) hi hz
      cases hr : rx_iter k w (b :: r) with
      | cont w2 q =>
        rw [hr] at hs h hd
        simp only at hs h hd
        exact ih w2 q (hs.2.inv hi) hd h
      | ret w2 =>
        rw [hr] at h hd
        simp only at h hd
        simp at h
        subst h
        exact hd
      | fault e =>
        rw [hr] at h
        simp at h

theorem RxObserved.rx_idle {k : Hdr} (hp : HdrPos k) {w : World} (h : RxObserved k w) :
    RxInv k w ∧ RxIdle w := by
  induction h with
  | init w hi => exact ⟨RxInv_of_zero hi.2.1, fun _ => hi.1⟩
  | pass w w1 data ptr _ hd hrun ih =>
    have hs := rx_iter_step k w data hd
    have hz := rx_iter_idle k hp w data ih.1 ih.2
    rw [hrun] at hs hz
    exact ⟨hs.2.inv ih.1, hz⟩
  | ret w w1 data _ hd hrun ih =>
    have hs := rx_iter_step k w data hd
    have hz := rx_iter_idle k hp w data ih.1 ih.2
    rw [hrun] at hs hz
    exact ⟨hs.1.inv ih.1, hz⟩
  | recv w w1 data _ hrun ih =>
    exact ⟨(st_int_recv_step k w w1 data hrun).inv ih.1,
      st_int_recv_loop_idle k hp _ w w1 data ih.1 ih.2 hrun⟩
  | other w w1 _ h1 h2 h3 h4 ih =>
    refine ⟨RxInv_of_fields h1 h2 h3 h4 ih.1, ?_⟩
    intro h0
    rw [h1]
    exact ih.2 (h2 ▸ h0)

theorem linux_pos : HdrPos linux := by
  intro c
  cases c <;> decide

/-- C16 as stated fails: after the tag byte 0x04 the engine waits for the event
header (`ST_BT_W4_EVENT_HDR`) with a live partial frame and `rx_count` equal to the
header size, not 0. -/
theorem rx_count_counterexample :
    RxInit idle_world ∧
    ∃ w, st_int_recv linux idle_world [0x04] = .ok w ∧
      w.rx_state = .ST_BT_W4_EVENT_HDR ∧ w.rx_skb ≠ none ∧
      ¬ (w.rx_count = 0 ↔
          (w.rx_state = .ST_W4_PACKET_TYPE ∨ w.rx_state = .ST_BT_W4_EVENT_HDR ∨
           w.rx_state = .ST_BT_W4_ACL_HDR ∨ w.rx_state = .ST_BT_W4_SCO_HDR ∨
           w.rx_state = .ST_FM_W4_EVENT_HDR ∨ w.rx_state = .ST_GPS_W4_EVENT_HDR)) := by
  refine ⟨idle_world_init, _, rfl, rfl, by simp, ?_⟩
  intro h
  have := h.mpr (Or.inr (Or.inl rfl))
  exact absurd this (by decide)

/-- C16 (amended): in every receive state reachable from the initial state by calls
of `st_int_recv`, observed between two passes through the loop and between calls,
the counter `rx_count` is 0 if and only if `rx_state` is `ST_W4_PACKET_TYPE`;
equivalently `rx_count` is nonzero exactly in the header-wait states and the
payload-wait state (the counter also counts the header bytes still awaited, every
fixed header having at least one byte), and a nonzero `rx_count` always comes with
a live partial frame. -/
theorem rx_count_zero_iff (k : Hdr) (hp : HdrPos k) (w : World) (h : RxObserved k w) :
    (w.rx_count = 0 ↔ w.rx_state = .ST_W4_PACKET_TYPE) ∧
    (w.rx_count ≠ 0 ↔
      (w.rx_state = .ST_BT_W4_DATA ∨ w.rx_state = .ST_BT_W4_EVENT_HDR ∨
       w.rx_state = .ST_BT_W4_ACL_HDR ∨ w.rx_state = .ST_BT_W4_SCO_HDR ∨
       w.rx_state = .ST_FM_W4_EVENT_HDR ∨ w.rx_state = .ST_GPS_W4_EVENT_HDR)) ∧
    (w.rx_count ≠ 0 → ∃ skb, w.rx_skb = some skb) := by
  obtain ⟨hi, hz⟩ := RxObserved.rx_idle hp h
  have h1 : w.rx_count = 0 ↔ w.rx_state = .ST_W4_PACKET_TYPE := by
    constructor
    · exact hz
    · intro hs
      by_contra h0
      exact RxInv_state hi h0 hs
  refine ⟨h1, ?_, ?_⟩
  · rw [Ne, h1]
    cases w.rx_state <;> simp
  · intro h0
    obtain ⟨skb, _, hs, -⟩ := hi h0
    exact ⟨skb, hs⟩

theorem rx_count_zero_iff_witness :
    ∃ w, st_int_recv linux idle_world [0x04, 0x0e] = .ok w ∧
      (w.rx_count = 0 ↔ w.rx_state = .ST_W4_PACKET_TYPE) ∧
      (w.rx_count ≠ 0 → ∃ skb, w.rx_skb = some skb) :=
  ⟨_, rfl,
    (rx_count_zero_iff linux linux_pos _
      (.recv idle_world _ [0x04, 0x0e] (.init _ idle_world_init) rfl)).1,
    (rx_count_zero_iff linux linux_pos _
      (.recv idle_world _ [0x04, 0x0e] (.init _ idle_world_init) rfl)).2.2⟩

theorem st_int_enqueue_untraced (w w1 : World) (ll : ll_state_t) (skb : sk_buff)
    (h : w1.untraced = w.untraced) :
    (st_int_enqueue w1 ll skb).untraced = (st_int_enqueue w ll skb).untraced := by
  rw [relog_of_untraced h]
  cases ll <;> rfl

theorem tx_run_untraced (k : Hdr) (ops : List TxOp) (w w1 : World)
    (h : w1.untraced = w.untraced) :
    (tx_run k w1 ops).map World.untraced = (tx_run k w ops).map World.untraced := by
  induction ops generalizing w w1 with
  | nil =>
    simp only [tx_run, Except.map]
    rw [h]
  | cons op ops ih =>
    cases op with
    | enqueue ll skb =>
      simp only [tx_run]
      exact ih _ _ (st_int_enqueue_untraced w w1 ll skb h)
    | wake_ack cmd =>
      simp only [tx_run]
      have e := st_wakeup_ack_untraced k w cmd w1.list w1.trace
      rw [← relog_of_untraced h] at e
      rcases except_untraced_cases e with ⟨x, h1, h2⟩ | ⟨a, a1, h1, h2, h3⟩
      · rw [h1, h2]
      · rw [h1, h2]
        exact ih _ _ h3
    | pump =>
      simp only [tx_run]
      have e := st_tx_wakeup_relog k w w1.list w1.trace
      rw [← relog_of_untraced h] at e
      rw [e]
      cases st_tx_wakeup k w with
      | error x => rfl
      | ok a =>
        simp only [Except.map]
        exact ih _ _ rfl

/-- C18: when the link power state is AwakeToSleep or any value outside the four
recognised states, `st_int_enqueue` discards the frame: it releases it and changes
nothing else, so that `txq`, `tx_waitq` and the in-flight slot are as they were
and no wake request is made; and the frame is never written to the channel
afterwards: whatever transmit steps follow, they give what they would have given
had the frame never been submitted, the log of collaborator calls apart, and in
particular the same bytes on the channel. -/
theorem st_int_enqueue_discards (k : Hdr) (w : World) (ll : ll_state_t) (skb : sk_buff)
    (ops : List TxOp) (hll : ll = .ST_LL_AWAKE_TO_ASLEEP ∨ ∃ v, ll = .other v) :
    st_int_enqueue w ll skb = { w with trace := w.trace ++ [.kfree_skb skb] } ∧
    (st_int_enqueue w ll skb).txq = w.txq ∧
    (st_int_enqueue w ll skb).tx_waitq = w.tx_waitq ∧
    (st_int_enqueue w ll skb).tx_skb = w.tx_skb ∧
    (st_int_enqueue w ll skb).tty_out = w.tty_out ∧
    Event.st_ll_wakeup ∉ (st_int_enqueue w ll skb).trace.drop w.trace.length ∧
    (tx_run k (st_int_enqueue w ll skb) ops).map World.untraced
      = (tx_run k w ops).map World.untraced ∧
    (∀ w1, tx_run k (st_int_enqueue w ll skb) ops = .ok w1 →
      ∃ w2, tx_run k w ops = .ok w2 ∧ w1.tty_out = w2.tty_out ∧ w1.txq = w2.txq ∧
        w1.tx_waitq = w2.tx_waitq ∧ w1.tx_skb = w2.tx_skb) := by
  have he : st_int_enqueue w ll skb = { w with trace := w.trace ++ [.kfree_skb skb] } := by
    rcases hll with rfl | ⟨v, rfl⟩ <;> rfl
  have hu : (st_int_enqueue w ll skb).untraced = w.untraced := by rw [he]; rfl
  have hrun := tx_run_untraced k ops w _ hu
  refine ⟨he, by rw [he], by rw [he], by rw [he], by rw [he], ?_, hrun, ?_⟩
  · rw [he]
    simp
  · intro w1 h1
    rw [h1] at hrun
    rcases except_untraced_cases hrun with ⟨x, h2, -⟩ | ⟨a, a1, h2, h3, h4⟩
    · simp at h2
    · simp only [Except.ok.injEq] at h2
      subst h2
      refine ⟨a, h3, ?_, ?_, ?_, ?_⟩
      · show w1.untraced.tty_out = a.untraced.tty_out
        rw [h4]
      · show w1.untraced.txq = a.untraced.txq
        rw [h4]
      · show w1.untraced.tx_waitq = a.untraced.tx_waitq
        rw [h4]
      · show w1.untraced.tx_skb = a.untraced.tx_skb
        rw [h4]

theorem st_int_enqueue_discards_witness :
    st_int_enqueue both_queues_world .ST_LL_AWAKE_TO_ASLEEP frame_a
      = { both_queues_world with trace := [.kfree_skb frame_a] } ∧
    ∀ w1, tx_run linux (st_int_enqueue both_queues_world .ST_LL_AWAKE_TO_ASLEEP frame_a)
        [.pump, .wake_ack 0x33] = .ok w1 →
      ∃ w2, tx_run linux both_queues_world [.pump, .wake_ack 0x33] = .ok w2 ∧
        w1.tty_out = w2.tty_out :=
  have h := st_int_enqueue_discards linux both_queues_world .ST_LL_AWAKE_TO_ASLEEP frame_a
    [.pump, .wake_ack 0x33] (Or.inl rfl)
  ⟨h.1, fun w1 h1 =>
    have ⟨w2, a, b, _⟩ := h.2.2.2.2.2.2.2 w1 h1
    ⟨w2, a, b⟩⟩

/-- The header of class `c` is completed by the bytes `d` and declares more payload
than the frame has room for: the frame is dropped and the loop goes on with the
bytes that follow. -/
theorem st_int_recv_drop (k : Hdr) (c : pkt_class) (w : World) (skb : sk_buff)
    (d rest : List Nat) (hst : w.rx_state = c.hdr_state) (hs : w.rx_skb = some skb)
    (hp : w.protoid = c.proto) (hd : d ≠ []) (hc : w.rx_count = d.length)
    (hroom : d.length ≤ skb.tailroom)
    (hbig : skb.tailroom - d.length < c.plen k (skb.data ++ d)) :
    st_check_data_len k (w.rx_filled skb d) c.proto (c.plen k (skb.data ++ d))
      = .ok (0, w.rx_dropped skb d) ∧
    st_int_recv k w (d ++ rest) = st_int_recv k (w.rx_dropped skb d) rest := by
  have hchk : st_check_data_len k (w.rx_filled skb d) c.proto (c.plen k (skb.data ++ d))
      = .ok (0, w.rx_dropped skb d) := by
    unfold st_check_data_len
    rw [show (w.rx_filled skb d).rx_skb = some (skb.append d) from rfl]
    simp only
    have hz : ¬ c.plen k (skb.data ++ d) = 0 := by omega
    have hgt : c.plen k (skb.data ++ d) > (skb.append d).tailroom := hbig
    rw [if_neg hz, if_pos hgt]
    rfl
  refine ⟨hchk, ?_⟩
  cases d with
  | nil => exact absurd rfl hd
  | cons b r =>
    have e0 : st_int_recv k w ((b :: r) ++ rest)
        = st_int_recv_loop k ((r ++ rest).length + 1) w (b :: (r ++ rest)) := rfl
    have h0 : w.rx_count ≠ 0 := by rw [hc]; simp
    have hlen : w.rx_count ≤ (b :: (r ++ rest)).length := by
      rw [hc]; simp
    rw [e0, st_int_recv_loop_cons,
      rx_iter_copy_all k w skb (b :: (r ++ rest)) hs h0 hlen (by rw [hc]; exact hroom)]
    have e1 : List.take w.rx_count (b :: (r ++ rest)) = b :: r := by
      rw [hc]
      simp
    have e2 : List.drop w.rx_count (b :: (r ++ rest)) = rest := by
      rw [hc]
      simp
    rw [e1, e2]
    rw [rx_complete_hdr k (w.rx_filled skb (b :: r)) c (skb.append (b :: r)) rest hst rfl hp]
    have hchk1 : st_check_data_len k (w.rx_filled skb (b :: r)) c.proto
        (c.plen k (skb.append (b :: r)).data) = .ok (0, w.rx_dropped skb (b :: r)) := hchk
    rw [hchk1]
    simp only [rx_continue]
    exact st_int_recv_loop_fuel k _ _ _ rest (by simp) (le_refl _)

/-- C19: when a completed header declares a payload length greater than the room
left in the allocated frame, `st_check_data_len` dispatches nothing: it releases
the partial frame and leaves `rx_state = ST_W4_PACKET_TYPE`, `rx_count = 0` and no
frame under construction; `st_int_recv` keeps processing and reads the next input
byte as a packet tag.  For a Bluetooth ACL packet whose four-byte header carries
the length in bytes 2 and 3, little-endian, this happens when that 16-bit value
exceeds the tailroom that the frame has after the four header bytes. -/
theorem st_int_recv_oversized (k : Hdr) (c : pkt_class) (w : World) (skb : sk_buff)
    (d rest : List Nat) (hst : w.rx_state = c.hdr_state) (hs : w.rx_skb = some skb)
    (hp : w.protoid = c.proto) (hd : d ≠ []) (hc : w.rx_count = d.length)
    (hroom : d.length ≤ skb.tailroom)
    (hbig : skb.tailroom - d.length < c.plen k (skb.data ++ d)) :
    st_check_data_len k (w.rx_filled skb d) c.proto (c.plen k (skb.data ++ d))
      = .ok (0, w.rx_dropped skb d) ∧
    (w.rx_dropped skb d).trace = w.trace ++ [.kfree_skb (skb.append d)] ∧
    (w.rx_dropped skb d).rx_state = .ST_W4_PACKET_TYPE ∧
    (w.rx_dropped skb d).rx_count = 0 ∧ (w.rx_dropped skb d).rx_skb = none ∧
    st_int_recv k w (d ++ rest) = st_int_recv k (w.rx_dropped skb d) rest ∧
    (∀ b r, rx_iter k (w.rx_dropped skb d) (b :: r) = rx_tag k (w.rx_dropped skb d) b r) ∧
    (∀ (x : World) (h0 h1 lo hi room t : Nat),
      k.ah_dlen [h0, h1, lo, hi] = lo + 256 * hi →
      x.rx_state = .ST_BT_W4_ACL_HDR → x.rx_count = 4 → x.protoid = ST_BT →
      x.rx_skb = some ⟨[], room, t⟩ → 4 ≤ room → room - 4 < lo + 256 * hi →
      st_int_recv k x ([h0, h1, lo, hi] ++ rest)
        = st_int_recv k (x.rx_dropped ⟨[], room, t⟩ [h0, h1, lo, hi]) rest) := by
  obtain ⟨h1, h2⟩ := st_int_recv_drop k c w skb d rest hst hs hp hd hc hroom hbig
  refine ⟨h1, rfl, rfl, rfl, rfl, h2, fun b r => rfl, ?_⟩
  intro x a0 a1 lo hi room t hl hxs hxc hxp hxk hr4 hgt
  exact (st_int_recv_drop k .acl x ⟨[], room, t⟩ [a0, a1, lo, hi] rest hxs hxk hxp
    (by simp) hxc hr4 (by simpa [pkt_class.plen, hl] using hgt)).2

theorem st_int_recv_oversized_witness :
    st_int_recv linux acl_header_world ([0x01, 0x00, 0x01, 0x04] ++ [0x55])
      = st_int_recv linux
          (acl_header_world.rx_dropped ⟨[], 1028, 2⟩ [0x01, 0x00, 0x01, 0x04]) [0x55] ∧
    pkt_class.acl.plen linux [0x01, 0x00, 0x01, 0x04] = 1025 :=
  ⟨(st_int_recv_oversized linux .acl acl_header_world ⟨[], 1028, 2⟩ [0x01, 0x00, 0x01, 0x04]
    [0x55] rfl rfl rfl (by decide) rfl (by decide) (by decide)).2.2.2.2.2.1, rfl⟩

/-- C20: in a receive state that awaits a tag (`rx_count = 0`, as in the idle
state), for every byte `b` that is none of the five data tags and none of the four
low-power control codes, and for all bytes `rest`, `st_int_recv` on `[b] ++ rest`
gives exactly what `st_int_recv` on `rest` gives, the same final world with the
same log of dispatched frames and collaborator calls or the same fault: the
unknown byte is discarded alone, leaves the receive state as it was, and the loop
goes on with the next byte. -/
theorem st_int_recv_unknown (k : Hdr) (w : World) (b : Nat) (rest : List Nat)
    (h0 : w.rx_count = 0)
    (hb : b ∉ [k.HCI_EVENT_PKT, k.HCI_ACLDATA_PKT, k.HCI_SCODATA_PKT, k.ST_FM_CH8_PKT, 0x9,
      k.LL_SLEEP_IND, k.LL_SLEEP_ACK, k.LL_WAKE_UP_IND, k.LL_WAKE_UP_ACK]) :
    st_int_recv k w ([b] ++ rest) = st_int_recv k w rest ∧
    st_int_recv k w [b] = .ok w ∧
    rx_iter k w ([b] ++ rest) = .cont w rest := by
  simp only [List.mem_cons, List.mem_singleton, List.not_mem_nil, not_or, or_false] at hb
  obtain ⟨b1, b2, b3, b4, b5, b6, b7, b8, b9⟩ := hb
  have hit : ∀ r, rx_iter k w (b :: r) = .cont w r := by
    intro r
    simp only [rx_iter, h0, ne_eq, not_true_eq_false, if_false, rx_tag_at, rx_tag, b1, b2, b3,
      b4, b5, b6, b7, b8, b9, or_self]
  refine ⟨?_, ?_, hit rest⟩
  · have e0 : st_int_recv k w ([b] ++ rest)
        = st_int_recv_loop k (rest.length + 1) w (b :: rest) := rfl
    rw [e0, st_int_recv_loop_cons, hit]
    rfl
  · have e0 : st_int_recv k w [b] = st_int_recv_loop k (0 + 1) w (b :: []) := rfl
    rw [e0, st_int_recv_loop_cons, hit]
    rfl

theorem st_int_recv_unknown_witness :
    st_int_recv linux idle_world ([0x7f] ++ [0x04, 0x0e, 0x00])
      = st_int_recv linux idle_world [0x04, 0x0e, 0x00] ∧
    st_int_recv linux idle_world [0x7f] = .ok idle_world :=
  have h := st_int_recv_unknown linux idle_world 0x7f [0x04, 0x0e, 0x00] rfl (by decide)
  ⟨h.1, h.2.1⟩

theorem held_bytes (w : World) : bytes_of (held w) = pending w ++ bytes_of w.tx_waitq := by
  unfold held pending
  rw [bytes_of_append, bytes_of_append]
  cases w.tx_skb with
  | none => rfl
  | some s => simp [bytes_of]

theorem st_int_dequeue_held (w : World) :
    held w = (st_int_dequeue w).1.toList ++ held (st_int_dequeue w).2 ∧
    (st_int_dequeue w).2.tty_out = w.tty_out ∧ (st_int_dequeue w).2.tty = w.tty := by
  unfold st_int_dequeue held
  cases h1 : w.tx_skb with
  | some s => simp
  | none =>
    cases h2 : w.txq with
    | nil => simp [h1, h2]
    | cons s q => simp [h1]

theorem st_tx_drain_held {α : Type} (key : sk_buff → α)
    (hkey : ∀ (s : sk_buff) (n : Int), key (skb_pull s n) = key s)
    (k : Hdr) (fuel : Nat) (w w1 : World) (h : st_tx_drain k fuel w = .ok w1) :
    ((held w1).map key).Sublist ((held w).map key) := by
  induction fuel generalizing w w1 with
  | zero => simp [st_tx_drain] at h
  | succ f ih =>
    unfold st_tx_drain at h
    have hh := (st_int_dequeue_held w).1
    split at h
    · rename_i w0 hd
      simp at h
      subst h
      rw [(st_int_dequeue_none _ _ hd).1]
    · rename_i skb w0 hd
      rw [hd] at hh
      obtain ⟨-, -, -, -, -, hskb, -, -⟩ := st_int_dequeue_some _ _ _ hd
      split at h
      · simp at h
      · rename_i ht
        simp at ht
        obtain ⟨he2, -, hq2, hts2, -, -, -⟩ := st_int_write_pull k w0 skb ht
        obtain ⟨-, -, -, -, -, -, -, hwq, -⟩ := tx_erase_fields he2
        have e2 : held (st_int_write k w0 skb.data).2 = held w0 := by
          unfold held
          rw [hq2, hts2, hwq]
        simp only at h
        split at h
        · simp at h
          subst h
          have e3 : held { (st_int_write k w0 skb.data).2 with
              tx_skb := some (skb_pull skb (st_int_write k w0 skb.data).1) }
              = skb_pull skb (st_int_write k w0 skb.data).1 :: held w0 := by
            unfold held
            simp only [Option.toList, hq2, hwq, hskb]
            rfl
          rw [e3, hh]
          simp only [Option.toList, List.singleton_append, List.map_cons, hkey]
          exact List.Sublist.refl _
        · have := ih _ _ h
          rw [e2] at this
          rw [hh]
          simp only [Option.toList, List.singleton_append, List.map_cons]
          exact List.Sublist.cons _ this

theorem st_tx_pass_held {α : Type} (key : sk_buff → α)
    (hkey : ∀ (s : sk_buff) (n : Int), key (skb_pull s n) = key s)
    (k : Hdr) (fuel : Nat) (w w1 : World) (h : st_tx_pass k fuel w = .ok w1) :
    ((held w1).map key).Sublist ((held w).map key) := by
  induction fuel generalizing w w1 with
  | zero => simp [st_tx_pass] at h
  | succ f ih =>
    unfold st_tx_pass at h
    simp only at h
    split at h
    · simp at h
    · rename_i w2 hd
      have h2 : ((held w2).map key).Sublist ((held w).map key) :=
        st_tx_drain_held key hkey k _ { w with ST_TX_WAKEUP := false } w2 hd
      split at h
      · exact (ih _ _ h).trans h2
      · simp at h
        subst h
        exact h2

theorem st_tx_wakeup_held {α : Type} (key : sk_buff → α)
    (hkey : ∀ (s : sk_buff) (n : Int), key (skb_pull s n) = key s)
    (k : Hdr) (w w1 : World) (h : st_tx_wakeup k w = .ok w1) :
    ((held w1).map key).Sublist ((held w).map key) := by
  unfold st_tx_wakeup at h
  split at h
  · simp at h
    subst h
    exact List.Sublist.refl _
  · split at h
    · simp at h
    · rename_i w2 hp
      simp at h
      subst h
      exact st_tx_pass_held key hkey k _ { w with ST_TX_SENDING := true } w2 hp

theorem st_wakeup_ack_held {α : Type} (key : sk_buff → α)
    (hkey : ∀ (s : sk_buff) (n : Int), key (skb_pull s n) = key s)
    (k : Hdr) (w w1 : World) (cmd : Nat) (h : st_wakeup_ack k w cmd = .ok w1) :
    ((held w1).map key).Sublist ((held w).map key) := by
  rw [st_wakeup_ack_eq] at h
  have := st_tx_wakeup_held key hkey k _ _ h
  have e : held { w with txq := w.txq ++ w.tx_waitq, tx_waitq := [],
                         trace := w.trace ++ [.st_ll_sleep_state cmd] } = held w := by
    simp [held]
  rw [e] at this
  exact this

theorem st_int_enqueue_held (w : World) (ll : ll_state_t) (skb : sk_buff) :
    (held (st_int_enqueue w ll skb)).Perm
      (held w ++ if ll.queues then [skb] else []) := by
  cases ll with
  | ST_LL_AWAKE =>
    simp only [st_int_enqueue, held, ll_state_t.queues, if_true]
    rw [List.append_assoc, List.append_assoc, List.append_assoc, List.append_assoc]
    apply List.Perm.append_left
    apply List.Perm.append_left
    exact List.perm_append_comm
  | ST_LL_ASLEEP_TO_AWAKE =>
    simp only [st_int_enqueue, held, ll_state_t.queues, if_true]
    rw [List.append_assoc, List.append_assoc, List.append_assoc]
  | ST_LL_ASLEEP =>
    simp only [st_int_enqueue, held, ll_state_t.queues, if_true, World.log]
    rw [List.append_assoc, List.append_assoc, List.append_assoc]
  | ST_LL_AWAKE_TO_ASLEEP =>
    simp [st_int_enqueue, held, ll_state_t.queues, World.log]
  | other v =>
    simp [st_int_enqueue, held, ll_state_t.queues, World.log]

theorem q_accepted_sublist (ops : List QOp) : (q_accepted ops).Sublist (q_submitted ops) := by
  induction ops with
  | nil => exact List.Sublist.refl _
  | cons op ops ih =>
    cases op with
    | enqueue ll skb =>
      simp only [q_accepted, q_submitted]
      split
      · exact List.Sublist.cons₂ _ ih
      · exact List.Sublist.cons _ ih
    | wake_ack cmd => exact ih
    | dequeue => exact ih
    | pump => exact ih

/-- Frames are neither duplicated nor made up: what is held and what was handed
out is, up to order, part of what was held before and what was accepted since. -/
theorem q_run_held {α : Type} (key : sk_buff → α)
    (hkey : ∀ (s : sk_buff) (n : Int), key (skb_pull s n) = key s)
    (k : Hdr) (ops : List QOp) (w w1 : World) (taken : List sk_buff)
    (h : q_run k w ops = .ok (w1, taken)) :
    ((held w1 ++ taken).map key).Subperm ((held w ++ q_accepted ops).map key) := by
  induction ops generalizing w w1 taken with
  | nil =>
    simp only [q_run, Except.ok.injEq, Prod.mk.injEq] at h
    obtain ⟨rfl, rfl⟩ := h
    simp only [q_accepted]
    exact List.Subperm.refl _
  | cons op ops ih =>
    cases op with
    | enqueue ll skb =>
      simp only [q_run] at h
      have h1 := ih _ _ _ h
      have h2 := st_int_enqueue_held w ll skb
      refine h1.trans (List.Perm.subperm ?_)
      apply List.Perm.map
      simp only [q_accepted]
      cases hq : ll.queues with
      | true =>
        rw [hq] at h2
        simp only [if_true] at h2 ⊢
        exact (h2.append_right _).trans (by simp)
      | false =>
        rw [hq] at h2
        simp only [Bool.false_eq_true, if_false, List.append_nil] at h2 ⊢
        exact h2.append_right _
    | wake_ack cmd =>
      simp only [q_run] at h
      split at h
      · rename_i w2 hs
        have h1 := ih _ _ _ h
        have h2 := st_wakeup_ack_held key hkey k w w2 cmd hs
        refine h1.trans (List.Sublist.subperm ?_)
        simp only [q_accepted, List.map_append]
        exact List.Sublist.append h2 (List.Sublist.refl _)
      · simp at h
    | dequeue =>
      simp only [q_run] at h
      split at h
      · rename_i r hs
        simp only [Except.ok.injEq, Prod.mk.injEq] at h
        obtain ⟨rfl, rfl⟩ := h
        have h1 := ih _ _ _ (show q_run k (st_int_dequeue w).2 ops = .ok (r.1, r.2) from hs)
        have hh := (st_int_dequeue_held w).1
        rw [hh]
        simp only [q_accepted, List.map_append, List.append_assoc] at h1 ⊢
        refine List.Subperm.trans (List.Perm.subperm ?_)
          ((List.subperm_append_left ((st_int_dequeue w).1.toList.map key)).mpr h1)
        rw [← List.append_assoc, ← List.append_assoc]
        exact List.Perm.append_right _ List.perm_append_comm
      · simp at h
    | pump =>
      simp only [q_run] at h
      split at h
      · rename_i w2 hs
        have h1 := ih _ _ _ h
        have h2 := st_tx_wakeup_held key hkey k w w2 hs
        refine h1.trans (List.Sublist.subperm ?_)
        simp only [q_accepted, List.map_append]
        exact List.Sublist.append h2 (List.Sublist.refl _)
      · simp at h

theorem bytes_of_perm {p q : List sk_buff} (h : p.Perm q) :
    (bytes_of p).length = (bytes_of q).length := by
  induction h with
  | nil => rfl
  | cons x _ ih => simp only [bytes_of, List.length_append, ih]
  | swap x y l => simp only [bytes_of, List.length_append]; omega
  | trans _ _ ih1 ih2 => exact ih1.trans ih2

theorem st_int_enqueue_out (w : World) (ll : ll_state_t) (skb : sk_buff) :
    (st_int_enqueue w ll skb).tty_out = w.tty_out := by
  cases ll <;> rfl

/-- No byte of an accepted frame is lost: it is on the channel, in a frame that is
held, or in a frame handed out by `st_int_dequeue`. -/
theorem q_run_bytes (k : Hdr) (ops : List QOp) (w w1 : World) (taken : List sk_buff)
    (h : q_run k w ops = .ok (w1, taken)) :
    w1.tty_out.length + (bytes_of (held w1)).length + (bytes_of taken).length
      = w.tty_out.length + (bytes_of (held w)).length + (bytes_of (q_accepted ops)).length := by
  induction ops generalizing w w1 taken with
  | nil =>
    simp only [q_run, Except.ok.injEq, Prod.mk.injEq] at h
    obtain ⟨rfl, rfl⟩ := h
    simp [q_accepted, bytes_of]
  | cons op ops ih =>
    cases op with
    | enqueue ll skb =>
      simp only [q_run] at h
      have h1 := ih _ _ _ h
      have h2 := bytes_of_perm (st_int_enqueue_held w ll skb)
      rw [h1, st_int_enqueue_out, h2]
      simp only [q_accepted]
      cases ll.queues with
      | true => simp [bytes_of_append, bytes_of]; omega
      | false => simp
    | wake_ack cmd =>
      simp only [q_run] at h
      split at h
      · rename_i w2 hs
        have h1 := ih _ _ _ h
        obtain ⟨-, -, -, -, -, -, -, hw, -, hb⟩ := st_wakeup_ack_step k w w2 cmd hs
        have hb1 := congrArg List.length hb
        rw [h1, held_bytes, held_bytes, hw]
        simp only [List.length_append, bytes_of, List.length_nil, q_accepted] at hb1 ⊢
        omega
      · simp at h
    | dequeue =>
      simp only [q_run] at h
      split at h
      · rename_i r hs
        simp only [Except.ok.injEq, Prod.mk.injEq] at h
        obtain ⟨rfl, rfl⟩ := h
        have h1 := ih _ _ _ (show q_run k (st_int_dequeue w).2 ops = .ok (r.1, r.2) from hs)
        obtain ⟨hh, ho, -⟩ := st_int_dequeue_held w
        rw [hh, ← ho]
        simp only [bytes_of_append, List.length_append, q_accepted] at h1 ⊢
        omega
      · simp at h
    | pump =>
      simp only [q_run] at h
      split at h
      · rename_i w2 hs
        have h1 := ih _ _ _ h
        obtain ⟨he, hb⟩ := st_tx_wakeup_step k w w2 hs
        obtain ⟨-, -, -, -, -, -, -, hw, -⟩ := tx_erase_fields he
        have hb1 := congrArg List.length hb
        rw [h1, held_bytes, held_bytes, hw]
        simp only [List.length_append, q_accepted] at hb1 ⊢
        omega
      · simp at h

theorem q_run_total (k : Hdr) (ops : List QOp) (w : World) (ht : w.tty = true) :
    ∃ r, q_run k w ops = .ok r := by
  induction ops generalizing w with
  | nil => exact ⟨_, rfl⟩
  | cons op ops ih =>
    cases op with
    | enqueue ll skb =>
      simp only [q_run]
      exact ih _ ((st_int_enqueue_tty w ll skb).trans ht)
    | wake_ack cmd =>
      simp only [q_run]
      rw [st_wakeup_ack_eq]
      obtain ⟨w2, h2⟩ := st_tx_wakeup_total k
        { w with
          txq := w.txq ++ w.tx_waitq, tx_waitq := [],
          trace := w.trace ++ [.st_ll_sleep_state cmd] } ht
      rw [h2]
      exact ih w2 ((st_tx_wakeup_stream k _ w2 h2).2.trans ht)
    | dequeue =>
      simp only [q_run]
      obtain ⟨r, hr⟩ := ih (st_int_dequeue w).2 ((st_int_dequeue_held w).2.2.trans ht)
      rw [hr]
      exact ⟨_, rfl⟩
    | pump =>
      simp only [q_run]
      obtain ⟨w2, h2⟩ := st_tx_wakeup_total k w ht
      rw [h2]
      exact ih w2 ((st_tx_wakeup_stream k _ w2 h2).2.trans ht)

theorem st_int_write_out (k : Hdr) (w : World) (skb : sk_buff) (ht : w.tty = true) :
    ∃ x, (st_int_write k w skb.data).2.tty_out = w.tty_out ++ x ∧
      skb.data = x ++ (skb_pull skb (st_int_write k w skb.data).1).data := by
  unfold st_int_write
  simp only [ht]
  cases hr : w.tty_ret with
  | nil =>
    refine ⟨skb.data, by simp, ?_⟩
    simp [skb_pull]
  | cons y rest =>
    obtain ⟨r, wake⟩ := y
    simp only [skb_pull]
    by_cases h0 : 0 ≤ min r (skb.data.length : Int)
    · have h1 : min r (skb.data.length : Int) ≤ skb.data.length := min_le_right _ _
      refine ⟨skb.data.take (min r (skb.data.length : Int)).toNat, by simp, ?_⟩
      simp [h0]
    · have h1 : (min r (skb.data.length : Int)).toNat = 0 := by
        apply Int.toNat_eq_zero.mpr; omega
      refine ⟨[], by simp [h1], ?_⟩
      simp [h0]

theorem st_int_dequeue_cases (w : World) :
    (∃ s, w.tx_skb = some s ∧ st_int_dequeue w = (some s, { w with tx_skb := none })) ∨
    (w.tx_skb = none ∧ w.txq = [] ∧ st_int_dequeue w = (none, w)) ∨
    (∃ s q, w.tx_skb = none ∧ w.txq = s :: q ∧
      st_int_dequeue w = (some s, { w with txq := q })) := by
  unfold st_int_dequeue
  cases h1 : w.tx_skb with
  | some s => left; exact ⟨s, rfl, rfl⟩
  | none =>
    cases h2 : w.txq with
    | nil => right; left; exact ⟨rfl, rfl, rfl⟩
    | cons s q => right; right; exact ⟨s, q, rfl, rfl, rfl⟩

theorem TxHeld_of_fields {α : Type} {key : sk_buff → α} {acc : List sk_buff} {n0 : Nat}
    {taken : List sk_buff} (w w1 : World) (h1 : w1.txq = w.txq) (h2 : w1.tx_waitq = w.tx_waitq)
    (h3 : w1.tx_skb = w.tx_skb) (h4 : w1.tty_out = w.tty_out)
    (h : TxHeld key acc n0 taken w) : TxHeld key acc n0 taken w1 := by
  have hh : held w1 = held w := by
    unfold held
    rw [h1, h2, h3]
  exact ⟨by rw [h4]; exact h.base, by rw [h1, h2]; exact h.queued,
    by rw [h3, h4]; exact h.inflight, by rw [hh, h4]; exact h.gone⟩

/-- What `st_int_dequeue` hands out is an accepted frame, or what is left of one
whose first bytes are the last ones written; what it leaves is in order. -/
theorem st_int_dequeue_inv {α : Type} (key : sk_buff → α) (acc : List sk_buff) (n0 : Nat)
    (taken : List sk_buff) (w w0 : World) (skb : sk_buff)
    (hi : TxHeld key acc n0 taken w) (hd : st_int_dequeue w = (some skb, w0)) :
    held w = skb :: held w0 ∧ w0.tx_skb = none ∧ w0.tty_out = w.tty_out ∧
    (∀ s ∈ w0.txq ++ w0.tx_waitq, s ∈ acc) ∧
    ∃ f ∈ acc, key f = key skb ∧ ∃ p, f.data = p ++ skb.data ∧ p <:+ w.tty_out.drop n0 := by
  rcases st_int_dequeue_cases w with ⟨s, h1, h2⟩ | ⟨-, -, h2⟩ | ⟨s, q, h1, h3, h2⟩
  · rw [hd] at h2
    simp only [Prod.mk.injEq, Option.some.injEq] at h2
    obtain ⟨rfl, rfl⟩ := h2
    refine ⟨by simp [held, h1], rfl, rfl, hi.queued, hi.inflight _ h1⟩
  · rw [hd] at h2
    simp at h2
  · rw [hd] at h2
    simp only [Prod.mk.injEq, Option.some.injEq] at h2
    obtain ⟨rfl, rfl⟩ := h2
    refine ⟨by simp [held, h1, h3], h1, rfl, ?_, ?_⟩
    · intro x hx
      apply hi.queued
      simp only [List.mem_append] at hx ⊢
      rcases hx with hx | hx
      · left; rw [h3]; exact List.mem_cons_of_mem _ hx
      · right; exact hx
    · refine ⟨skb, ?_, rfl, [], rfl, ⟨_, List.append_nil _⟩⟩
      apply hi.queued
      rw [h3]
      simp

theorem st_tx_drain_inv {α : Type} (key : sk_buff → α)
    (hkey : ∀ (s : sk_buff) (n : Int), key (skb_pull s n) = key s)
    (acc : List sk_buff) (hinj : ((acc).map key).Nodup) (n0 : Nat) (taken : List sk_buff)
    (k : Hdr) (fuel : Nat) (w w1 : World) (hi : TxHeld key acc n0 taken w)
    (h : st_tx_drain k fuel w = .ok w1) : TxHeld key acc n0 taken w1 := by
  induction fuel generalizing w w1 with
  | zero => simp [st_tx_drain] at h
  | succ f ih =>
    unfold st_tx_drain at h
    split at h
    · rename_i w0 hd
      simp at h
      subst h
      rw [(st_int_dequeue_none _ _ hd).1]
      exact hi
    · rename_i skb w0 hd
      obtain ⟨hh, hskb, hout, hq, g, hg, hgk, p, hp, hps⟩ :=
        st_int_dequeue_inv key acc n0 taken w w0 skb hi hd
      split at h
      · simp at h
      · rename_i ht
        simp at ht
        obtain ⟨he2, -, hq2, hts2, -, -, -⟩ := st_int_write_pull k w0 skb ht
        obtain ⟨-, -, -, -, -, -, -, hwq, -⟩ := tx_erase_fields he2
        obtain ⟨x, hx1, hx2⟩ := st_int_write_out k w0 skb ht
        have hb : n0 ≤ w0.tty_out.length := by rw [hout]; exact hi.base
        have hdrop : ((st_int_write k w0 skb.data).2.tty_out).drop n0
            = w.tty_out.drop n0 ++ x := by
          rw [hx1, List.drop_append_of_le_length hb, hout]
        have e2 : held (st_int_write k w0 skb.data).2 = held w0 := by
          unfold held
          rw [hq2, hts2, hwq]
        simp only at h
        split at h
        · simp at h
          subst h
          have e3 : held { (st_int_write k w0 skb.data).2 with
              tx_skb := some (skb_pull skb (st_int_write k w0 skb.data).1) }
              = skb_pull skb (st_int_write k w0 skb.data).1 :: held w0 := by
            unfold held
            simp only [Option.toList, hq2, hwq, hskb]
            rfl
          refine ⟨?_, ?_, ?_, ?_⟩
          · show n0 ≤ (st_int_write k w0 skb.data).2.tty_out.length
            rw [hx1, List.length_append]
            omega
          · show ∀ s ∈ (st_int_write k w0 skb.data).2.txq ++
                (st_int_write k w0 skb.data).2.tx_waitq, s ∈ acc
            rw [hq2, hwq]
            exact hq
          · intro s hs
            simp only [Option.some.injEq] at hs
            subst hs
            refine ⟨g, hg, by rw [hgk, hkey], p ++ x, ?_, ?_⟩
            · rw [hp, List.append_assoc, ← hx2]
            · show p ++ x <:+ ((st_int_write k w0 skb.data).2.tty_out).drop n0
              rw [hdrop]
              obtain ⟨t, ht1⟩ := hps
              exact ⟨t, by rw [← ht1, List.append_assoc]⟩
          · intro f1 hf1 hn
            rw [e3] at hn
            show f1.data <:+: ((st_int_write k w0 skb.data).2.tty_out).drop n0
            rw [hdrop]
            have : key f1 ∉ (held w ++ taken).map key := by
              rw [hh]
              simpa [hkey] using hn
            obtain ⟨a, b, hab⟩ := hi.gone f1 hf1 this
            exact ⟨a, b ++ x, by rw [← hab]; simp⟩
        · rename_i hz
          simp at hz
          apply ih _ _ _ h
          refine ⟨?_, ?_, ?_, ?_⟩
          · rw [hx1, List.length_append]
            omega
          · rw [hq2, hwq]
            exact hq
          · intro s hs
            rw [hts2, hskb] at hs
            simp at hs
          · intro f1 hf1 hn
            rw [e2] at hn
            rw [hdrop]
            by_cases hk1 : key f1 = key skb
            · have : f1 = g := List.inj_on_of_nodup_map hinj hf1 hg (hk1.trans hgk.symm)
              subst this
              rw [hz, List.append_nil] at hx2
              rw [hp, hx2]
              obtain ⟨t, ht1⟩ := hps
              exact ⟨t, [], by rw [← ht1]; simp⟩
            · have : key f1 ∉ (held w ++ taken).map key := by
                rw [hh]
                simp only [List.cons_append, List.map_cons, List.mem_cons, not_or]
                exact ⟨hk1, hn⟩
              obtain ⟨a, b, hab⟩ := hi.gone f1 hf1 this
              exact ⟨a, b ++ x, by rw [← hab]; simp⟩

theorem st_tx_pass_inv {α : Type} (key : sk_buff → α)
    (hkey : ∀ (s : sk_buff) (n : Int), key (skb_pull s n) = key s)
    (acc : List sk_buff) (hinj : ((acc).map key).Nodup) (n0 : Nat) (taken : List sk_buff)
    (k : Hdr) (fuel : Nat) (w w1 : World) (hi : TxHeld key acc n0 taken w)
    (h : st_tx_pass k fuel w = .ok w1) : TxHeld key acc n0 taken w1 := by
  induction fuel generalizing w w1 with
  | zero => simp [st_tx_pass] at h
  | succ f ih =>
    unfold st_tx_pass at h
    simp only at h
    split at h
    · simp at h
    · rename_i w2 hd
      have h2 : TxHeld key acc n0 taken w2 :=
        st_tx_drain_inv key hkey acc hinj n0 taken k _ { w with ST_TX_WAKEUP := false } w2
          (TxHeld_of_fields w _ rfl rfl rfl rfl hi) hd
      split at h
      · exact ih _ _ h2 h
      · simp at h
        subst h
        exact h2

theorem st_tx_wakeup_inv {α : Type} (key : sk_buff → α)
    (hkey : ∀ (s : sk_buff) (n : Int), key (skb_pull s n) = key s)
    (acc : List sk_buff) (hinj : ((acc).map key).Nodup) (n0 : Nat) (taken : List sk_buff)
    (k : Hdr) (w w1 : World) (hi : TxHeld key acc n0 taken w)
    (h : st_tx_wakeup k w = .ok w1) : TxHeld key acc n0 taken w1 := by
  unfold st_tx_wakeup at h
  split at h
  · simp at h
    subst h
    exact TxHeld_of_fields w _ rfl rfl rfl rfl hi
  · split at h
    · simp at h
    · rename_i w2 hp
      simp at h
      subst h
      have h2 : TxHeld key acc n0 taken w2 :=
        st_tx_pass_inv key hkey acc hinj n0 taken k _ { w with ST_TX_SENDING := true } w2
          (TxHeld_of_fields w _ rfl rfl rfl rfl hi) hp
      exact TxHeld_of_fields w2 _ rfl rfl rfl rfl h2

theorem st_wakeup_ack_inv {α : Type} (key : sk_buff → α)
    (hkey : ∀ (s : sk_buff) (n : Int), key (skb_pull s n) = key s)
    (acc : List sk_buff) (hinj : ((acc).map key).Nodup) (n0 : Nat) (taken : List sk_buff)
    (k : Hdr) (w w1 : World) (cmd : Nat) (hi : TxHeld key acc n0 taken w)
    (h : st_wakeup_ack k w cmd = .ok w1) : TxHeld key acc n0 taken w1 := by
  rw [st_wakeup_ack_eq] at h
  refine st_tx_wakeup_inv key hkey acc hinj n0 taken k _ w1 ?_ h
  have e : held { w with txq := w.txq ++ w.tx_waitq, tx_waitq := [],
                         trace := w.trace ++ [.st_ll_sleep_state cmd] } = held w := by
    simp [held]
  refine ⟨hi.base, ?_, hi.inflight, ?_⟩
  · intro s hs
    apply hi.queued
    simpa using hs
  · rw [e]
    exact hi.gone

theorem st_int_enqueue_inv {α : Type} (key : sk_buff → α) (acc : List sk_buff) (n0 : Nat)
    (taken : List sk_buff) (w : World) (ll : ll_state_t) (skb : sk_buff)
    (hi : TxHeld key acc n0 taken w) :
    TxHeld key (acc ++ if ll.queues then [skb] else []) n0 taken (st_int_enqueue w ll skb) := by
  have hperm := st_int_enqueue_held w ll skb
  have hout := st_int_enqueue_out w ll skb
  have hskb : (st_int_enqueue w ll skb).tx_skb = w.tx_skb := by cases ll <;> rfl
  have hq : ∀ s ∈ (st_int_enqueue w ll skb).txq ++ (st_int_enqueue w ll skb).tx_waitq,
      s ∈ w.txq ++ w.tx_waitq ∨ (ll.queues = true ∧ s = skb) := by
    intro s hs
    cases ll <;>
      simp only [st_int_enqueue, World.log, ll_state_t.queues, List.mem_append,
        List.mem_singleton] at hs ⊢ <;> tauto
  refine ⟨by rw [hout]; exact hi.base, ?_, ?_, ?_⟩
  · intro s hs
    rcases hq s hs with h | ⟨h1, h2⟩
    · exact List.mem_append_left _ (hi.queued s h)
    · rw [h1, h2]
      simp
  · intro s hs
    rw [hskb] at hs
    obtain ⟨f, hf, h1, h2⟩ := hi.inflight s hs
    exact ⟨f, List.mem_append_left _ hf, h1, by rw [hout]; exact h2⟩
  · intro f hf hn
    rw [hout]
    have hn1 : key f ∉ (held w ++ (if ll.queues = true then [skb] else []) ++ taken).map key := by
      intro hm
      apply hn
      rw [List.map_append, List.mem_append] at hm ⊢
      rcases hm with hm | hm
      · left
        exact (hperm.map key).mem_iff.mpr hm
      · right; exact hm
    rcases List.mem_append.mp hf with h | h
    · apply hi.gone f h
      intro hm
      apply hn1
      simp only [List.map_append, List.mem_append] at hm ⊢
      tauto
    · exfalso
      apply hn1
      cases hq1 : ll.queues with
      | true =>
        rw [hq1] at h
        simp only [if_true, List.mem_singleton] at h
        subst h
        simp
      | false =>
        rw [hq1] at h
        simp at h

theorem st_int_dequeue_taken {α : Type} (key : sk_buff → α) (acc : List sk_buff) (n0 : Nat)
    (taken : List sk_buff) (w : World) (hi : TxHeld key acc n0 taken w) :
    TxHeld key acc n0 (taken ++ (st_int_dequeue w).1.toList) (st_int_dequeue w).2 := by
  obtain ⟨hh, hout, -⟩ := st_int_dequeue_held w
  have hset : ∀ x, x ∈ (held (st_int_dequeue w).2 ++
      (taken ++ (st_int_dequeue w).1.toList)).map key ↔ x ∈ (held w ++ taken).map key := by
    intro x
    rw [hh]
    simp only [List.map_append, List.mem_append]
    tauto
  refine ⟨by rw [hout]; exact hi.base, ?_, ?_, ?_⟩
  · intro s hs
    apply hi.queued
    rcases st_int_dequeue_cases w with ⟨s1, -, h2⟩ | ⟨-, -, h2⟩ | ⟨s1, q, -, h3, h2⟩
    · rw [h2] at hs; exact hs
    · rw [h2] at hs; exact hs
    · rw [h2] at hs
      rw [h3]
      simp only [List.mem_append, List.mem_cons] at hs ⊢
      tauto
  · intro s hs
    rcases st_int_dequeue_cases w with ⟨s1, -, h2⟩ | ⟨h1, -, h2⟩ | ⟨s1, q, h1, -, h2⟩
    · rw [h2] at hs; simp at hs
    · rw [h2] at hs; rw [h1] at hs; simp at hs
    · rw [h2] at hs; simp only at hs; rw [h1] at hs; simp at hs
  · intro f hf hn
    rw [hout]
    exact hi.gone f hf (fun hm => hn ((hset _).mpr hm))

/-- The frames stay where `TxHeld` says along a sequence of steps. -/
theorem q_run_inv {α : Type} (key : sk_buff → α)
    (hkey : ∀ (s : sk_buff) (n : Int), key (skb_pull s n) = key s)
    (k : Hdr) (n0 : Nat) (ops : List QOp) (w w1 : World) (acc taken t : List sk_buff)
    (hinj : ((acc ++ q_accepted ops).map key).Nodup)
    (hi : TxHeld key acc n0 taken w) (h : q_run k w ops = .ok (w1, t)) :
    TxHeld key (acc ++ q_accepted ops) n0 (taken ++ t) w1 := by
  induction ops generalizing w w1 acc taken t with
  | nil =>
    simp only [q_run, Except.ok.injEq, Prod.mk.injEq] at h
    obtain ⟨rfl, rfl⟩ := h
    simp only [q_accepted, List.append_nil]
    exact hi
  | cons op ops ih =>
    have hacc : ((acc).map key).Nodup := by
      rw [List.map_append] at hinj
      exact (List.nodup_append.mp hinj).1
    cases op with
    | enqueue ll skb =>
      simp only [q_run] at h
      have e : acc ++ q_accepted (.enqueue ll skb :: ops)
          = (acc ++ if ll.queues then [skb] else []) ++ q_accepted ops := by
        simp only [q_accepted]
        cases ll.queues <;> simp
      rw [e] at hinj ⊢
      exact ih _ _ _ _ _ hinj (st_int_enqueue_inv key acc n0 taken w ll skb hi) h
    | wake_ack cmd =>
      simp only [q_run] at h
      split at h
      · rename_i w2 hs
        exact ih _ _ _ _ _ hinj (st_wakeup_ack_inv key hkey acc hacc n0 taken k w w2 cmd hi hs) h
      · simp at h
    | dequeue =>
      simp only [q_run] at h
      split at h
      · rename_i r hs
        simp only [Except.ok.injEq, Prod.mk.injEq] at h
        obtain ⟨rfl, rfl⟩ := h
        have := ih _ _ _ _ _ hinj (st_int_dequeue_taken key acc n0 taken w hi)
          (show q_run k (st_int_dequeue w).2 ops = .ok (r.1, r.2) from hs)
        rw [List.append_assoc] at this
        exact this
      · simp at h
    | pump =>
      simp only [q_run] at h
      split at h
      · rename_i w2 hs
        exact ih _ _ _ _ _ hinj (st_tx_wakeup_inv key hkey acc hacc n0 taken k w w2 hi hs) h
      · simp at h

theorem st_int_recv_left_fst (k : Hdr) (f : Nat) (w : World) (d : List Nat) :
    (st_int_recv_left k f w d).map Prod.fst = st_int_recv_loop k f w d := by
  induction f generalizing w d with
  | zero =>
    cases d with
    | nil => rfl
    | cons b r => rfl
  | succ n ih =>
    cases d with
    | nil => rfl
    | cons b r =>
      rw [st_int_recv_loop_cons]
      simp only [st_int_recv_left]
      cases hr : rx_iter k w (b :: r) with
      | cont w1 q => simp only; exact ih w1 q
      | ret w1 => rfl
      | fault e => rfl

theorem rx_tag_data (k : Hdr) (w : World) (b : Nat) (ptr : List Nat)
    (hb : b ∈ [k.HCI_EVENT_PKT, k.HCI_ACLDATA_PKT, k.HCI_SCODATA_PKT, k.ST_FM_CH8_PKT, 0x9]) :
    ∃ c : pkt_class, b = c.tag k ∧
      rx_tag k w b ptr =
        rx_alloc k { w with rx_state := c.hdr_state, rx_count := c.hdr_size k,
                            protoid := c.proto } (c.tag k) ptr := by
  unfold rx_tag
  by_cases h1 : b = k.HCI_EVENT_PKT
  · exact ⟨.event, h1, by simp only [if_pos h1]; rfl⟩
  by_cases h2 : b = k.HCI_ACLDATA_PKT
  · exact ⟨.acl, h2, by simp only [if_neg h1, if_pos h2]; rfl⟩
  by_cases h3 : b = k.HCI_SCODATA_PKT
  · exact ⟨.sco, h3, by simp only [if_neg h1, if_neg h2, if_pos h3]; rfl⟩
  by_cases h4 : b = k.ST_FM_CH8_PKT
  · exact ⟨.fm, h4, by simp only [if_neg h1, if_neg h2, if_neg h3, if_pos h4]; rfl⟩
  by_cases h5 : b = 0x9
  · exact ⟨.gps, h5, by simp only [if_neg h1, if_neg h2, if_neg h3, if_neg h4, if_pos h5]; rfl⟩
  simp only [List.mem_cons, List.mem_singleton, List.not_mem_nil, or_false] at hb
  rcases hb with h | h | h | h | h
  · exact absurd h h1
  · exact absurd h h2
  · exact absurd h h3
  · exact absurd h h4
  · exact absurd h h5

theorem rx_iter_tag (k : Hdr) (w : World) (b : Nat) (rest : List Nat) (h0 : w.rx_count = 0) :
    rx_iter k w (b :: rest) = rx_tag k w b rest := by
  unfold rx_iter
  rw [if_neg (by simp [h0])]
  rfl

theorem rx_iter_alloc_failed (k : Hdr) (w : World) (b : Nat) (rest : List Nat)
    (hb : b ∈ [k.HCI_EVENT_PKT, k.HCI_ACLDATA_PKT, k.HCI_SCODATA_PKT, k.ST_FM_CH8_PKT, 0x9])
    (h0 : w.rx_count = 0) (ha : (alloc_skb w).1 = false) :
    ∃ c : pkt_class, b = c.tag k ∧ rx_iter k w (b :: rest) = .ret (w.rx_alloc_failed c) := by
  obtain ⟨c, hc, h⟩ := rx_tag_data k w b rest hb
  refine ⟨c, hc, ?_⟩
  rw [rx_iter_tag k w b rest h0, h]
  rcases rx_alloc_class k w c rest with ⟨w1, h1, -⟩ | ⟨w1, h1, h2⟩
  · rw [h1] at ha
    simp at ha
  · rw [h2]
    simp only [World.rx_alloc_failed, h1]

/-- C21: when the assembler awaits a tag (`rx_count = 0`), reads the tag byte of
one of the five packet classes and the allocation of the frame fails, the pass
through the loop ends the call: `st_int_recv` returns (it does not fail) whatever
bytes `rest` follow the tag in the chunk and whatever iteration of the loop this
is; the bytes `rest` are left unread; the world it leaves waits for a tag, with
`rx_count = 0` and no partial frame; the log, the registry and the transmit side
are as before, so that no receive callback has been invoked; and the first pass of
a later call is the tag switch on the first byte of its chunk. -/
theorem st_int_recv_alloc_fails (k : Hdr) (w : World) (b : Nat) (rest : List Nat)
    (hb : b ∈ [k.HCI_EVENT_PKT, k.HCI_ACLDATA_PKT, k.HCI_SCODATA_PKT, k.ST_FM_CH8_PKT, 0x9])
    (h0 : w.rx_count = 0) (ha : (alloc_skb w).1 = false) :
    ∃ c : pkt_class, b = c.tag k ∧
      st_int_recv k w (b :: rest) = .ok (w.rx_alloc_failed c) ∧
      (∀ fuel, st_int_recv_loop k (fuel + 1) w (b :: rest) = .ok (w.rx_alloc_failed c) ∧
        st_int_recv_left k (fuel + 1) w (b :: rest) = .ok (w.rx_alloc_failed c, rest)) ∧
      (w.rx_alloc_failed c).rx_state = .ST_W4_PACKET_TYPE ∧
      (w.rx_alloc_failed c).rx_count = 0 ∧ (w.rx_alloc_failed c).rx_skb = none ∧
      (w.rx_alloc_failed c).trace = w.trace ∧ (w.rx_alloc_failed c).list = w.list ∧
      (w.rx_alloc_failed c).tty_out = w.tty_out ∧ (w.rx_alloc_failed c).txq = w.txq ∧
      (w.rx_alloc_failed c).tx_waitq = w.tx_waitq ∧
      (∀ b2 r2, rx_iter k (w.rx_alloc_failed c) (b2 :: r2)
        = rx_tag k (w.rx_alloc_failed c) b2 r2) := by
  obtain ⟨c, hc, h⟩ := rx_iter_alloc_failed k w b rest hb h0 ha
  have hf : ∀ fuel, st_int_recv_loop k (fuel + 1) w (b :: rest) = .ok (w.rx_alloc_failed c) ∧
      st_int_recv_left k (fuel + 1) w (b :: rest) = .ok (w.rx_alloc_failed c, rest) := by
    intro fuel
    constructor
    · rw [st_int_recv_loop_cons, h]
    · simp only [st_int_recv_left]
      rw [h]
  have hfld : (w.rx_alloc_failed c).trace = w.trace ∧ (w.rx_alloc_failed c).list = w.list ∧
      (w.rx_alloc_failed c).tty_out = w.tty_out ∧ (w.rx_alloc_failed c).txq = w.txq ∧
      (w.rx_alloc_failed c).tx_waitq = w.tx_waitq := by
    rw [World.rx_alloc_failed, alloc_skb_snd w]
    exact ⟨rfl, rfl, rfl, rfl, rfl⟩
  refine ⟨c, hc, (hf rest.length).1, hf, rfl, rfl, rfl, hfld.1, hfld.2.1, hfld.2.2.1,
    hfld.2.2.2.1, hfld.2.2.2.2, ?_⟩
  intro b2 r2
  exact rx_iter_tag k _ b2 r2 rfl

theorem st_int_recv_alloc_fails_witness :
    ∃ c : pkt_class, 0x04 = c.tag linux ∧
      st_int_recv linux no_memory_world (0x04 :: [0x0e, 0x01, 0xAA, 0x04, 0x0e, 0x00])
        = .ok (no_memory_world.rx_alloc_failed c) ∧
      (no_memory_world.rx_alloc_failed c).rx_state = .ST_W4_PACKET_TYPE ∧
      (no_memory_world.rx_alloc_failed c).rx_count = 0 ∧
      (no_memory_world.rx_alloc_failed c).rx_skb = none ∧
      (no_memory_world.rx_alloc_failed c).trace = no_memory_world.trace :=
  have ⟨c, h1, h2, _, h4, h5, h6, h7, _⟩ :=
    st_int_recv_alloc_fails linux no_memory_world 0x04 [0x0e, 0x01, 0xAA, 0x04, 0x0e, 0x00]
      (by decide) rfl rfl
  ⟨c, h1, h2, h4, h5, h6, h7⟩

theorem st_tx_pass_fuel (k : Hdr) (f1 f2 : Nat) (w : World)
    (h1 : w.tty_ret.length < f1) (h2 : w.tty_ret.length < f2) :
    st_tx_pass k f1 w = st_tx_pass k f2 w := by
  induction f1 generalizing f2 w with
  | zero => omega
  | succ n ih =>
    cases f2 with
    | zero => omega
    | succ m =>
      unfold st_tx_pass
      simp only
      cases hd : st_tx_drain k ({ w with ST_TX_WAKEUP := false }.txq.length + 2)
          { w with ST_TX_WAKEUP := false } with
      | error e => rfl
      | ok w2 =>
        simp only
        have hs := st_tx_drain_step _ _ _ _ hd
        by_cases hw : w2.ST_TX_WAKEUP = true
        · rw [if_pos hw, if_pos hw]
          rcases hs.wake hw with h | h
          · simp at h
          · simp only at h
            exact ih m w2 (by omega) (by omega)
        · rw [if_neg hw, if_neg hw]

theorem st_tx_wakeup_unfold (k : Hdr) (w : World) (hs : w.ST_TX_SENDING = false) :
    st_tx_wakeup k w =
      match tx_first_drain k w with
      | .error e => .error e
      | .ok w2 =>
        if w2.ST_TX_WAKEUP then st_tx_wakeup k { w2 with ST_TX_SENDING := false }
        else .ok { w2 with ST_TX_SENDING := false } := by
  unfold tx_first_drain
  conv_lhs => unfold st_tx_wakeup
  rw [if_neg (by simp [hs])]
  unfold st_tx_pass
  simp only
  cases hd : st_tx_drain k (w.txq.length + 2)
      { w with ST_TX_SENDING := true, ST_TX_WAKEUP := false } with
  | error e => rfl
  | ok w2 =>
    simp only
    have hst := st_tx_drain_step _ _ _ _ hd
    have hsend : w2.ST_TX_SENDING = true := hst.sending
    by_cases hw : w2.ST_TX_WAKEUP = true
    · rw [if_pos hw, if_pos hw]
      unfold st_tx_wakeup
      rw [if_neg (by simp)]
      have he : ({ ({ w2 with ST_TX_SENDING := false } : World) with ST_TX_SENDING := true }
          : World) = w2 := by
        cases w2
        simp only at hsend
        subst hsend
        rfl
      rw [he]
      rcases hst.wake hw with h | h
      · simp at h
      · simp only at h
        rw [st_tx_pass_fuel k w.tty_ret.length (w2.tty_ret.length + 1) w2 h (by omega)]
    · rw [if_neg hw, if_neg hw]

theorem st_int_write_wake (k : Hdr) (w : World) (r : Int) (rest : List (Int × Bool))
    (d : List Nat) (hs : w.ST_TX_SENDING = true) (ht : w.tty = true) :
    st_tx_wakeup k (st_int_write k { w with tty_ret := (r, false) :: rest } d).2
      = .ok (st_int_write k { w with tty_ret := (r, true) :: rest } d).2 ∧
    (st_int_write k { w with tty_ret := (r, false) :: rest } d).1
      = (st_int_write k { w with tty_ret := (r, true) :: rest } d).1 := by
  unfold st_int_write
  simp only [ht, Bool.true_eq_false, if_false, Bool.or_false, Bool.or_true]
  refine ⟨?_, trivial⟩
  unfold st_tx_wakeup
  simp only [hs, if_true]

/-- C22: `st_tx_wakeup` invoked while `ST_TX_SENDING` is set returns at once with
the latch `ST_TX_WAKEUP` set and everything else as it was: no write is attempted,
no byte goes to the channel, `txq`, `tx_waitq`, the in-flight slot and
`ST_TX_SENDING` are unchanged.  An invocation from another context while a write
of the running pass is under way is such a call: the write answered with the
wake-up mark leaves the world that the write followed by `st_tx_wakeup` leaves.  A
call that finds `ST_TX_SENDING` clear drains the queue and, if the latch was set
meanwhile, goes on as a fresh call does: the drain loop is repeated while the
latch is set.  With a tty attached such a call returns with `ST_TX_SENDING` and
`ST_TX_WAKEUP` both clear.  Whatever invocations come in meanwhile, a call that
returns has neither duplicated nor dropped a byte: what is on the channel followed
by what is still to be written is the same before and after. -/
theorem st_tx_wakeup_reentrant (k : Hdr) (w : World) :
    (w.ST_TX_SENDING = true →
      st_tx_wakeup k w = .ok { w with ST_TX_WAKEUP := true } ∧
      ∃ w1, st_tx_wakeup k w = .ok w1 ∧ w1.ST_TX_WAKEUP = true ∧
        w1.ST_TX_SENDING = true ∧ w1.tty_out = w.tty_out ∧ w1.txq = w.txq ∧
        w1.tx_waitq = w.tx_waitq ∧ w1.tx_skb = w.tx_skb ∧ w1.tty_ret = w.tty_ret ∧
        w1.trace = w.trace) ∧
    (w.ST_TX_SENDING = true → w.tty = true →
      ∀ (r : Int) (rest : List (Int × Bool)) (d : List Nat),
        st_tx_wakeup k (st_int_write k { w with tty_ret := (r, false) :: rest } d).2
          = .ok (st_int_write k { w with tty_ret := (r, true) :: rest } d).2 ∧
        (st_int_write k { w with tty_ret := (r, false) :: rest } d).1
          = (st_int_write k { w with tty_ret := (r, true) :: rest } d).1) ∧
    (w.ST_TX_SENDING = false →
      st_tx_wakeup k w =
        match tx_first_drain k w with
        | .error e => .error e
        | .ok w2 =>
          if w2.ST_TX_WAKEUP then st_tx_wakeup k { w2 with ST_TX_SENDING := false }
          else .ok { w2 with ST_TX_SENDING := false }) ∧
    (w.ST_TX_SENDING = false → w.tty = true →
      ∃ w1, st_tx_wakeup k w = .ok w1 ∧ w1.ST_TX_SENDING = false ∧
        w1.ST_TX_WAKEUP = false) ∧
    (∀ w1, st_tx_wakeup k w = .ok w1 →
      w1.tty_out ++ pending w1 = w.tty_out ++ pending w ∧ w1.tx_waitq = w.tx_waitq ∧
      w1.trace = w.trace) := by
  refine ⟨?_, ?_, st_tx_wakeup_unfold k w, fun hs ht => st_tx_wakeup_idle k w ht hs, ?_⟩
  · intro hs
    have h : st_tx_wakeup k w = .ok { w with ST_TX_WAKEUP := true } := by
      unfold st_tx_wakeup
      simp only [hs, if_true]
    exact ⟨h, _, h, rfl, hs, rfl, rfl, rfl, rfl, rfl, rfl⟩
  · intro hs ht r rest d
    exact st_int_write_wake k w r rest d hs ht
  · intro w1 h
    obtain ⟨a, b⟩ := st_tx_wakeup_step k w w1 h
    obtain ⟨-, -, -, -, -, -, h7, h8, -⟩ := tx_erase_fields a
    exact ⟨b, h8, h7⟩

theorem st_tx_wakeup_reentrant_witness :
    (∃ w1, st_tx_wakeup linux { latched_world with ST_TX_SENDING := true } = .ok w1 ∧
      w1.ST_TX_WAKEUP = true ∧ w1.ST_TX_SENDING = true ∧ w1.tty_out = [] ∧
      w1.txq = [frame_a, frame_b]) ∧
    (∃ w1, st_tx_wakeup linux latched_world = .ok w1 ∧ w1.ST_TX_SENDING = false ∧
      w1.ST_TX_WAKEUP = false) ∧
    (∀ w1, st_tx_wakeup linux latched_world = .ok w1 →
      w1.tty_out ++ pending w1 = latched_world.tty_out ++ pending latched_world ∧
      w1.tx_waitq = latched_world.tx_waitq ∧ w1.trace = latched_world.trace) ∧
    (st_tx_wakeup linux latched_world).map World.tty_out = .ok [1, 2, 3, 4, 5] :=
  have ⟨w1, h1, h2, h3, h4, h5, _⟩ :=
    ((st_tx_wakeup_reentrant linux { latched_world with ST_TX_SENDING := true }).1 rfl).2
  ⟨⟨w1, h1, h2, h3, h4, h5⟩,
    (st_tx_wakeup_reentrant linux latched_world).2.2.2.1 rfl rfl,
    (st_tx_wakeup_reentrant linux latched_world).2.2.2.2, rfl⟩

theorem st_register_started_ok (k : Hdr) (mid : World) (p : st_proto_s) :
    ∃ evs, st_register_started k mid p k.ST_SUCCESS =
      if (mid.list.getD p.type none).isSome then (k.ST_ERR_ALREADY, mid.bringup_done evs)
      else (k.ST_SUCCESS, (mid.bringup_done evs).set_list p.type (some p.stored)) := by
  simp only [st_register_started]
  rw [if_neg (by simp)]
  by_cases hc : is_protocol_list_empty k
        { mid.log (.st_kim_chip_toggle p.type k.KIM_GPIO_ACTIVE) with
          ST_REG_IN_PROGRESS := false, st_recv := .st_int_recv } ≠ k.ST_EMPTY ∧
      World.ST_REG_PENDING { mid.log (.st_kim_chip_toggle p.type k.KIM_GPIO_ACTIVE) with
          ST_REG_IN_PROGRESS := false, st_recv := .st_int_recv } = true
  · rw [if_pos hc, st_reg_complete_eq]
    refine ⟨.st_kim_chip_toggle p.type k.KIM_GPIO_ACTIVE ::
      cb_events mid.list (to_char k k.ST_SUCCESS), ?_⟩
    simp only [World.log]
    by_cases hs : (mid.list.getD p.type none).isSome = true
    · rw [if_pos hs, if_pos hs]
      simp [World.bringup_done]
    · rw [if_neg hs, if_neg hs]
      simp [World.bringup_done, World.set_list]
  · rw [if_neg hc]
    refine ⟨[.st_kim_chip_toggle p.type k.KIM_GPIO_ACTIVE], ?_⟩
    simp only [World.log]
    by_cases hs : (mid.list.getD p.type none).isSome = true
    · rw [if_pos hs, if_pos hs]
      simp [World.bringup_done]
    · rw [if_neg hs, if_neg hs]
      simp [World.bringup_done, World.set_list]

/-- C23: in the branch of `st_register` that finds the registry empty, once
`st_kim_start()` has returned `ST_SUCCESS` and left the world `mid`, the registry
entry of the protocol is looked at once more.  If `mid` has a binding there, the
call returns `ST_ERR_ALREADY` and leaves the registry as `mid` has it, so that the
binding is not overwritten; this is the case when a call of `st_register` made
during the bring-up for the same protocol returned `ST_ERR_PENDING`, and the
binding kept is the one of that call.  Otherwise the call stores its own binding
with `st_write` as write handle, touches no other entry and returns `ST_SUCCESS`.
In both cases `ST_REG_IN_PROGRESS` and `ST_REG_PENDING` are clear and the receive
sink is `st_int_recv` again. -/
theorem st_register_recheck (k : Hdr) (kim : World → Int × World) (w mid w1 : World)
    (p : st_proto_s) (ret : Int)
    (hE : k.ST_EMPTY = 0) (hN : k.ST_NOTEMPTY ≠ 0)
    (hr : p.recv.isSome = true) (hc : p.reg_complete_cb.isSome = true)
    (h0 : ST_BT ≤ p.type) (ht : p.type < ST_MAX)
    (he : RegistryEmpty w) (hip : w.ST_REG_IN_PROGRESS = false)
    (hkim : kim w.kim_entered = (k.ST_SUCCESS, mid)) (hl : mid.list.length = ST_MAX)
    (hcall : st_register k kim w (some p) = (ret, w1)) :
    (∀ b, mid.list.getD p.type none = some b →
      ret = k.ST_ERR_ALREADY ∧ w1.list = mid.list ∧ w1.list.getD p.type none = some b) ∧
    (mid.list.getD p.type none = none →
      ret = k.ST_SUCCESS ∧ w1.list = mid.list.set p.type (some p.stored) ∧
      w1.list.getD p.type none = some { p with write := true } ∧
      ∀ j, j ≠ p.type → w1.list.getD j none = mid.list.getD j none) ∧
    w1.ST_REG_IN_PROGRESS = false ∧ w1.ST_REG_PENDING = false ∧
    w1.st_recv = .st_int_recv ∧
    (∀ (kim2 : World → Int × World) (others : List st_proto_s) (q : st_proto_s),
      k.DistinctCodes → w.list.length = ST_MAX →
      mid = (register_each k kim2 w.kim_entered others).2 →
      (q, k.ST_ERR_PENDING) ∈ (register_each k kim2 w.kim_entered others).1 →
      q.type = p.type →
      ret = k.ST_ERR_ALREADY ∧ w1.list.getD p.type none = some q.stored) := by
  have hfirst := st_register_first k kim w p hE hN hr hc h0 ht he hip
  rw [hkim, hcall] at hfirst
  simp only at hfirst
  obtain ⟨evs, hev⟩ := st_register_started_ok k mid p
  rw [hev] at hfirst
  have hA : ∀ b, mid.list.getD p.type none = some b →
      ret = k.ST_ERR_ALREADY ∧ w1 = mid.bringup_done evs := by
    intro b hb
    rw [if_pos (by rw [hb]; rfl)] at hfirst
    simp only [Prod.mk.injEq] at hfirst
    exact hfirst
  have hB : mid.list.getD p.type none = none →
      ret = k.ST_SUCCESS ∧ w1 = (mid.bringup_done evs).set_list p.type (some p.stored) := by
    intro hb
    rw [if_neg (by rw [hb]; simp)] at hfirst
    simp only [Prod.mk.injEq] at hfirst
    exact hfirst
  have hflags : w1.ST_REG_IN_PROGRESS = false ∧ w1.ST_REG_PENDING = false ∧
      w1.st_recv = .st_int_recv := by
    cases hx : mid.list.getD p.type none with
    | none => rw [(hB hx).2]; exact ⟨rfl, rfl, rfl⟩
    | some b => rw [(hA b hx).2]; exact ⟨rfl, rfl, rfl⟩
  refine ⟨?_, ?_, hflags.1, hflags.2.1, hflags.2.2, ?_⟩
  · intro b hb
    obtain ⟨h1, h2⟩ := hA b hb
    refine ⟨h1, by rw [h2]; rfl, ?_⟩
    rw [h2]
    exact hb
  · intro hb
    obtain ⟨h1, h2⟩ := hB hb
    have hlist : w1.list = mid.list.set p.type (some p.stored) := by rw [h2]; rfl
    refine ⟨h1, hlist, ?_, ?_⟩
    · rw [hlist, getD_set_self _ _ _ (by rw [hl]; exact ht)]
      rfl
    · intro j hj
      rw [hlist, getD_set_ne _ _ _ _ hj]
  · intro kim2 others q hd hwl hmid hq hty
    have hp := register_each_pending k kim2 hd others w.kim_entered rfl hwl
    rw [← hmid] at hp
    have hs := (hp.stored q hq).2.2
    rw [hty] at hs
    obtain ⟨h1, h2⟩ := hA _ hs
    refine ⟨h1, ?_⟩
    rw [h2]
    exact hs

theorem st_register_recheck_witness :
    ((st_register linux (kim_with linux (kim_alone 0) [fm_rival] 0) fresh_world
        (some fm_binding)).1 = linux.ST_ERR_ALREADY ∧
      (st_register linux (kim_with linux (kim_alone 0) [fm_rival] 0) fresh_world
        (some fm_binding)).2.list.getD ST_FM none = some fm_rival.stored) ∧
    ((st_register linux (kim_alone 0) fresh_world (some fm_binding)).1 = linux.ST_SUCCESS ∧
      (st_register linux (kim_alone 0) fresh_world (some fm_binding)).2.list.getD ST_FM none
        = some { fm_binding with write := true } ∧
      (st_register linux (kim_alone 0) fresh_world (some fm_binding)).2.ST_REG_IN_PROGRESS
        = false ∧
      (st_register linux (kim_alone 0) fresh_world (some fm_binding)).2.ST_REG_PENDING
        = false ∧
      (st_register linux (kim_alone 0) fresh_world (some fm_binding)).2.st_recv
        = .st_int_recv) :=
  ⟨(st_register_recheck linux (kim_with linux (kim_alone 0) [fm_rival] 0) fresh_world
      (register_each linux (kim_alone 0) fresh_world.kim_entered [fm_rival]).2 _ fm_binding _
      rfl (by decide) rfl rfl (by decide) (by decide) fresh_world_empty rfl rfl rfl
      rfl).2.2.2.2.2 (kim_alone 0) [fm_rival] fm_rival linux_codes rfl rfl
      (List.mem_cons_self _ _) rfl,
   have h := st_register_recheck linux (kim_alone 0) fresh_world fresh_world.kim_entered _
      fm_binding _ rfl (by decide) rfl rfl (by decide) (by decide) fresh_world_empty rfl rfl
      rfl rfl
   ⟨(h.2.1 rfl).1, (h.2.1 rfl).2.2.1, h.2.2.1, h.2.2.2.1, h.2.2.2.2.1⟩⟩

theorem st_tx_drain_fault (k : Hdr) (f : Nat) (w : World) (e : Fault)
    (h : st_tx_drain k f w = .error e)
    (hf : w.txq.length + (if w.tx_skb.isSome then 1 else 0) < f) :
    e = .null_deref ∧ w.tty = false := by
  cases ht : w.tty with
  | true =>
    obtain ⟨w1, h1⟩ := st_tx_drain_total k f w ht hf
    rw [h1] at h
    simp at h
  | false =>
    cases f with
    | zero => omega
    | succ n =>
      unfold st_tx_drain at h
      split at h
      · simp at h
      · rename_i skb w0 hd
        obtain ⟨he, -⟩ := st_int_dequeue_some _ _ _ hd
        have ht0 : w0.tty = false := (tx_erase_tty he).trans ht
        simp only [ht0, if_true] at h
        simp at h
        exact ⟨h.symm, rfl⟩

theorem st_tx_pass_fault (k : Hdr) (f : Nat) (w : World) (e : Fault)
    (h : st_tx_pass k f w = .error e) (hf : w.tty_ret.length < f) :
    e = .null_deref ∧ w.tty = false := by
  induction f generalizing w with
  | zero => omega
  | succ n ih =>
    unfold st_tx_pass at h
    simp only at h
    cases hd : st_tx_drain k ({ w with ST_TX_WAKEUP := false }.txq.length + 2)
        { w with ST_TX_WAKEUP := false } with
    | error e1 =>
      rw [hd] at h
      simp at h
      subst h
      have := st_tx_drain_fault k _ { w with ST_TX_WAKEUP := false } _ hd
        (by simp only; split <;> omega)
      exact this
    | ok w2 =>
      rw [hd] at h
      simp only at h
      have hs := st_tx_drain_step _ _ _ _ hd
      by_cases hw : w2.ST_TX_WAKEUP = true
      · rw [if_pos hw] at h
        rcases hs.wake hw with h1 | h1
        · simp at h1
        · simp only at h1
          obtain ⟨a, b⟩ := ih w2 h (by omega)
          exact ⟨a, by rw [← tx_erase_tty hs.erase]; exact b⟩
      · rw [if_neg hw] at h
        simp at h

theorem st_tx_wakeup_fault (k : Hdr) (w : World) (e : Fault)
    (h : st_tx_wakeup k w = .error e) : e = .null_deref ∧ w.tty = false := by
  unfold st_tx_wakeup at h
  split at h
  · simp at h
  · split at h
    · rename_i e1 hp
      simp at h
      subst h
      have := st_tx_pass_fault k _ { w with ST_TX_SENDING := true } _ hp
        (by simp only; omega)
      exact this
    · simp at h

theorem st_wakeup_ack_fault (k : Hdr) (w : World) (cmd : Nat) (e : Fault)
    (h : st_wakeup_ack k w cmd = .error e) : e = .null_deref ∧ w.tty = false := by
  rw [st_wakeup_ack_eq] at h
  have := st_tx_wakeup_fault k
    { w with txq := w.txq ++ w.tx_waitq, tx_waitq := [], trace := w.trace ++ [.st_ll_sleep_state cmd] }
    e h
  exact this

theorem st_send_frame_fault (k : Hdr) (w : World) (p : proto_type) (skb : Option sk_buff)
    (e : Fault) (h : st_send_frame k w p skb = .error e) : e = .oob_read ∧ ST_MAX ≤ p := by
  unfold st_send_frame at h
  split at h
  · simp at h
  · split at h
    · rename_i hp
      simp at h
      exact ⟨h.symm, hp⟩
    · split at h
      · simp at h
      · split at h
        · split at h <;> simp at h
        · simp at h

theorem st_check_data_len_fault (k : Hdr) (w : World) (p : proto_type) (len : Nat)
    (e : Fault) (h : st_check_data_len k w p len = .error e) :
    (e = .null_deref ∧ w.rx_skb = none) ∨ (e = .oob_read ∧ ST_MAX ≤ p) := by
  unfold st_check_data_len at h
  split at h
  · rename_i hs
    simp at h
    exact Or.inl ⟨h.symm, hs⟩
  · simp only at h
    split at h
    · split at h
      · rename_i e1 hsf
        simp at h
        subst h
        exact Or.inr (st_send_frame_fault _ _ _ _ _ hsf)
      · simp at h
    · split at h <;> simp at h

theorem rx_tag_fault (k : Hdr) (w : World) (b : Nat) (ptr : List Nat) (e : Fault)
    (h : rx_tag k w b ptr = .fault e) : e = .null_deref ∧ w.tty = false := by
  rcases rx_tag_cases k w b ptr with ⟨c, -, h1⟩ | h1 | h1 | h1
  · rw [h1] at h
    rcases rx_alloc_class k w c ptr with ⟨w1, -, h2⟩ | ⟨w1, -, h2⟩ <;>
      · rw [h2] at h
        simp at h
  · rw [h1] at h
    simp at h
  · rw [h1] at h
    cases hs : st_wakeup_ack k w b with
    | error e1 =>
      rw [hs] at h
      simp at h
      subst h
      exact st_wakeup_ack_fault k w b _ hs
    | ok w1 =>
      rw [hs] at h
      simp at h
  · rw [h1] at h
    simp at h

theorem rx_tag_at_fault (k : Hdr) (w : World) (ptr : List Nat) (e : Fault)
    (h : rx_tag_at k w ptr = .fault e) :
    (ptr = [] ∧ e = .oob_read) ∨ (e = .null_deref ∧ w.tty = false) := by
  cases ptr with
  | nil =>
    simp [rx_tag_at] at h
    exact Or.inl ⟨rfl, h.symm⟩
  | cons b rest => exact Or.inr (rx_tag_fault k w b rest e h)

theorem rx_continue_fault (k : Hdr) (w : World) (p : proto_type) (len : Nat)
    (ptr : List Nat) (e : Fault)
    (h : rx_continue (st_check_data_len k w p len) ptr = .fault e) :
    e = .null_deref ∨ e = .oob_read := by
  cases hr : st_check_data_len k w p len with
  | error e1 =>
    rw [hr] at h
    simp [rx_continue] at h
    subst h
    rcases st_check_data_len_fault _ _ _ _ _ hr with ⟨a, -⟩ | ⟨a, -⟩
    · exact Or.inl a
    · exact Or.inr a
  | ok r =>
    rw [hr] at h
    simp [rx_continue] at h

theorem rx_complete_fault (k : Hdr) (w : World) (ptr : List Nat) (e : Fault)
    (h : rx_complete k w ptr = .fault e) : e = .null_deref ∨ e = .oob_read := by
  unfold rx_complete at h
  cases hst : w.rx_state with
  | ST_BT_W4_DATA =>
    rw [hst] at h
    simp only at h
    cases hsf : st_send_frame k w w.protoid w.rx_skb with
    | error e1 =>
      rw [hsf] at h
      simp at h
      subst h
      exact Or.inr (st_send_frame_fault _ _ _ _ _ hsf).1
    | ok w2 =>
      rw [hsf] at h
      simp at h
  | ST_W4_PACKET_TYPE =>
    rw [hst] at h
    simp only at h
    rcases rx_tag_at_fault k w ptr e h with ⟨-, a⟩ | ⟨a, -⟩
    · exact Or.inr a
    · exact Or.inl a
  | ST_BT_W4_EVENT_HDR =>
    rw [hst] at h
    simp only at h
    cases hs : w.rx_skb with
    | none => rw [hs] at h; simp at h; exact Or.inl h.symm
    | some skb => rw [hs] at h; exact rx_continue_fault _ _ _ _ _ _ h
  | ST_BT_W4_ACL_HDR =>
    rw [hst] at h
    simp only at h
    cases hs : w.rx_skb with
    | none => rw [hs] at h; simp at h; exact Or.inl h.symm
    | some skb => rw [hs] at h; exact rx_continue_fault _ _ _ _ _ _ h
  | ST_BT_W4_SCO_HDR =>
    rw [hst] at h
    simp only at h
    cases hs : w.rx_skb with
    | none => rw [hs] at h; simp at h; exact Or.inl h.symm
    | some skb => rw [hs] at h; exact rx_continue_fault _ _ _ _ _ _ h
  | ST_FM_W4_EVENT_HDR =>
    rw [hst] at h
    simp only at h
    cases hs : w.rx_skb with
    | none => rw [hs] at h; simp at h; exact Or.inl h.symm
    | some skb => rw [hs] at h; exact rx_continue_fault _ _ _ _ _ _ h
  | ST_GPS_W4_EVENT_HDR =>
    rw [hst] at h
    simp only at h
    cases hs : w.rx_skb with
    | none => rw [hs] at h; simp at h; exact Or.inl h.symm
    | some skb => rw [hs] at h; exact rx_continue_fault _ _ _ _ _ _ h

theorem rx_iter_fault_any (k : Hdr) (w : World) (data : List Nat) (e : Fault)
    (h : rx_iter k w data = .fault e) : e ≠ .out_of_fuel := by
  unfold rx_iter at h
  by_cases h0 : w.rx_count = 0
  · rw [if_neg (by simp [h0])] at h
    rcases rx_tag_at_fault k w data e h with ⟨-, a⟩ | ⟨a, -⟩ <;> rw [a] <;> decide
  · rw [if_pos h0] at h
    simp only at h
    cases hs : w.rx_skb with
    | none =>
      rw [hs] at h
      simp at h
      rw [← h]; decide
    | some skb =>
      rw [hs] at h
      simp only at h
      cases hput : skb_put skb (List.take (min w.rx_count data.length) data) with
      | none =>
        rw [hput] at h
        simp at h
        rw [← h]; decide
      | some skb1 =>
        rw [hput] at h
        simp only at h
        split at h
        · simp at h
        · rcases rx_complete_fault _ _ _ _ h with a | a <;> rw [a] <;> decide

theorem st_int_recv_loop_fuel_ok (k : Hdr) (f : Nat) (w : World) (d : List Nat)
    (hf : d.length ≤ f) : st_int_recv_loop k f w d ≠ .error .out_of_fuel := by
  induction f generalizing w d with
  | zero =>
    cases d with
    | nil => simp [st_int_recv_loop_nil]
    | cons b r => simp at hf
  | succ n ih =>
    cases d with
    | nil => simp [st_int_recv_loop_nil]
    | cons b r =>
      rw [st_int_recv_loop_cons]
      have hs := rx_iter_step k w (b :: r) (by simp)
      cases hr : rx_iter k w (b :: r) with
      | cont w2 q =>
        rw [hr] at hs
        simp only at hs ⊢
        exact ih w2 q (by have := hs.1; simp at this hf; omega)
      | ret w2 => simp
      | fault e =>
        simp only
        intro he
        simp at he
        exact rx_iter_fault_any k w _ e hr he

theorem rx_iter_fault (k : Hdr) (w : World) (data : List Nat) (e : Fault)
    (hd : data ≠ []) (hi : RxInv k w) (hk : HdrFits k)
    (h : rx_iter k w data = .fault e) : e = .null_deref ∧ w.tty = false := by
  have hst := rx_iter_step k w data hd
  rw [h] at hst
  simp only at hst
  have htty : w.tty = false := by
    cases ht : w.tty with
    | false => rfl
    | true => exact absurd ⟨hi, ht, hk⟩ hst
  refine ⟨?_, htty⟩
  unfold rx_iter at h
  by_cases h0 : w.rx_count = 0
  · rw [if_neg (by simp [h0])] at h
    rcases rx_tag_at_fault k w data e h with ⟨a, -⟩ | ⟨a, -⟩
    · exact absurd a hd
    · exact a
  · exfalso
    rw [if_pos h0] at h
    simp only at h
    obtain ⟨skb, c, e1, e2, e3, e4, e5⟩ := hi h0
    rw [e1] at h
    simp only at h
    have hfc := hk c
    have hroom : (List.take (min w.rx_count data.length) data).length ≤ skb.tailroom := by
      simp only [List.length_take]
      rcases e5 with ⟨-, e6⟩ | ⟨-, -, -, e6⟩ <;> omega
    rw [skb_put_fits skb _ hroom] at h
    simp only at h
    split at h
    · simp at h
    · rename_i hz
      have hz0 : w.rx_count - min w.rx_count data.length = 0 := by simpa using hz
      have hb := rx_copy_body k w skb _ _ e1 (skb_put_fits skb _ hroom)
        (by simp only [List.length_take]; omega) (hi h0)
      simp only [List.length_take] at hb
      have hmin : min (min w.rx_count data.length) data.length = min w.rx_count data.length := by
        omega
      rw [hmin] at hb
      have hc := rx_complete_step k
        { w with rx_skb := some (skb.append (List.take (min w.rx_count data.length) data)),
                 rx_count := w.rx_count - min w.rx_count data.length }
        (List.drop (min w.rx_count data.length) data) hz0
      rw [h] at hc
      exact hc hb

theorem st_int_recv_loop_fault (k : Hdr) (f : Nat) (w : World) (d : List Nat) (e : Fault)
    (hf : d.length ≤ f) (hi : RxInv k w) (hk : HdrFits k)
    (h : st_int_recv_loop k f w d = .error e) : e = .null_deref ∧ w.tty = false := by
  induction f generalizing w d with
  | zero =>
    cases d with
    | nil => simp [st_int_recv_loop_nil] at h
    | cons b r => simp at hf
  | succ n ih =>
    cases d with
    | nil => simp [st_int_recv_loop_nil] at h
    | cons b r =>
      rw [st_int_recv_loop_cons] at h
      have hs := rx_iter_step k w (b :: r) (by simp)
      cases hr : rx_iter k w (b :: r) with
      | cont w2 q =>
        rw [hr] at hs h
        simp only at hs h
        obtain ⟨a, b1⟩ := ih w2 q (by have := hs.1; simp at this hf; omega) (hs.2.inv hi) h
        exact ⟨a, by rw [← hs.2.tty]; exact b1⟩
      | ret w2 =>
        rw [hr] at h
        simp at h
      | fault e1 =>
        rw [hr] at h
        simp at h
        subst h
        exact rx_iter_fault k w _ _ (by simp) hi hk hr

theorem RxObserved.rx_inv {k : Hdr} {w : World} (h : RxObserved k w) : RxInv k w := by
  induction h with
  | init w hi => exact RxInv_of_zero hi.2.1
  | pass w w1 data ptr _ hd hrun ih =>
    have hs := rx_iter_step k w data hd
    rw [hrun] at hs
    exact hs.2.inv ih
  | ret w w1 data _ hd hrun ih =>
    have hs := rx_iter_step k w data hd
    rw [hrun] at hs
    exact hs.1.inv ih
  | recv w w1 data _ hrun ih => exact (st_int_recv_step k w w1 data hrun).inv ih
  | other w w1 _ h1 h2 h3 h4 ih => exact RxInv_of_fields h1 h2 h3 h4 ih

theorem rx_chunks_fault (k : Hdr) (w : World) (cs : List (List Nat)) (e : Fault)
    (hi : RxInv k w) (hk : HdrFits k) (h : rx_chunks k w cs = .error e) :
    e = .null_deref ∧ w.tty = false := by
  induction cs generalizing w with
  | nil => simp [rx_chunks] at h
  | cons c cs ih =>
    simp only [rx_chunks] at h
    cases hr : st_int_recv k w c with
    | error e1 =>
      rw [hr] at h
      simp at h
      subst h
      exact st_int_recv_loop_fault k _ w c _ (le_refl _) hi hk hr
    | ok w1 =>
      rw [hr] at h
      simp only at h
      have hs := st_int_recv_step k w w1 c hr
      obtain ⟨a, b⟩ := ih w1 (hs.inv hi) h
      exact ⟨a, by rw [← hs.tty]; exact b⟩

theorem rx_chunks_total (k : Hdr) (w : World) (cs : List (List Nat))
    (hi : RxInv k w) (hk : HdrFits k) (ht : w.tty = true) :
    ∃ w1, rx_chunks k w cs = .ok w1 := by
  cases hr : rx_chunks k w cs with
  | ok w1 => exact ⟨w1, rfl⟩
  | error e =>
    have := (rx_chunks_fault k w cs e hi hk hr).2
    rw [ht] at this
    simp at this

theorem RxBody_room (k : Hdr) (hk : HdrFits k) (w : World) (hb : RxBody k w) :
    ∃ (skb : sk_buff) (c : pkt_class), w.rx_skb = some skb ∧ skb.data.length + skb.tailroom = c.room k ∧
      w.rx_count ≤ skb.tailroom ∧
      (w.rx_state = .ST_BT_W4_DATA →
        skb.data.length + w.rx_count
          = c.hdr_size k + c.plen k (skb.data.take (c.hdr_size k))) ∧
      (w.rx_state ≠ .ST_BT_W4_DATA → skb.data.length + w.rx_count = c.hdr_size k) := by
  obtain ⟨skb, c, e1, e2, e3, e4, e5⟩ := hb
  have hfc := hk c
  refine ⟨skb, c, e1, e4, ?_, ?_, ?_⟩
  · rcases e5 with ⟨-, e6⟩ | ⟨-, -, -, e6⟩ <;> omega
  · intro hst
    rcases e5 with ⟨e6, -⟩ | ⟨-, -, e6, -⟩
    · rw [hst] at e6
      exact absurd e6.symm (hdr_state_ne_data c)
    · exact e6
  · intro hst
    rcases e5 with ⟨-, e6⟩ | ⟨e6, -⟩
    · exact e6
    · exact absurd e6 hst

/-- C24: buffer-capacity safety of the receive assembler, the fixed header of every
class being no longer than the room of the frame allocated for it.  In every state
the assembler can be observed in (between two passes through the loop of
`st_int_recv`, whatever the stream and its chunking, and whether allocations
succeed or not), while bytes are awaited there is a partial frame of some class
whose length and tailroom add up to the room allocated for the class, and the
number of bytes awaited is at most the tailroom; in the payload stage the bytes
buffered and awaited are the header and the payload length that the header
declares, in a header stage they are the header.  Hence the append of the next
pass, of `min(rx_count, count)` bytes, succeeds and leaves the frame within the
room allocated.  `st_check_data_len` enters the payload stage only with a length
that is at most the tailroom of the frame.  No pass, no call and no sequence of
calls ends in `skb_over_panic`, and with a tty attached every sequence of calls
returns. -/
theorem st_int_recv_capacity (k : Hdr) (hk : HdrFits k) (w : World) (h : RxObserved k w) :
    (w.rx_count ≠ 0 →
      ∃ (skb : sk_buff) (c : pkt_class), w.rx_skb = some skb ∧ skb.data.length + skb.tailroom = c.room k ∧
        w.rx_count ≤ skb.tailroom ∧
        (w.rx_state = .ST_BT_W4_DATA →
          skb.data.length + w.rx_count
            = c.hdr_size k + c.plen k (skb.data.take (c.hdr_size k))) ∧
        (w.rx_state ≠ .ST_BT_W4_DATA → skb.data.length + w.rx_count = c.hdr_size k) ∧
        ∀ data : List Nat,
          skb_put skb (data.take (min w.rx_count data.length))
            = some (skb.append (data.take (min w.rx_count data.length))) ∧
          (skb.append (data.take (min w.rx_count data.length))).data.length ≤ c.room k) ∧
    (∀ (p : proto_type) (len n : Nat) (w1 : World),
      st_check_data_len k w p len = .ok (n, w1) → w1.rx_state = .ST_BT_W4_DATA →
      w.rx_state ≠ .ST_BT_W4_DATA →
      ∃ skb, w1.rx_skb = some skb ∧ w1.rx_count = len ∧ len ≤ skb.tailroom) ∧
    (∀ data e, data ≠ [] → rx_iter k w data = .fault e → e ≠ .skb_over_panic) ∧
    (∀ data e, st_int_recv k w data = .error e → e ≠ .skb_over_panic) ∧
    (∀ cs e, rx_chunks k w cs = .error e → e ≠ .skb_over_panic) ∧
    (w.tty = true → ∀ cs, ∃ w1, rx_chunks k w cs = .ok w1) := by
  have hi := h.rx_inv
  refine ⟨?_, ?_, ?_, ?_, ?_, ?_⟩
  · intro h0
    obtain ⟨skb, c, e1, e2, e3, e4, e5⟩ := RxBody_room k hk w (hi h0)
    refine ⟨skb, c, e1, e2, e3, e4, e5, ?_⟩
    intro data
    have hroom : (List.take (min w.rx_count data.length) data).length ≤ skb.tailroom := by
      simp only [List.length_take]
      omega
    refine ⟨skb_put_fits skb _ hroom, ?_⟩
    simp only [sk_buff.append, List.length_append]
    omega
  · intro p len n w1 hc hst hne
    obtain ⟨skb, hs, hcase⟩ := st_check_data_len_ok k w w1 p len n hc
    rcases hcase with ⟨-, -, evs, he, -⟩ | ⟨-, -, -, he⟩ | ⟨-, hle, -, he⟩
    · rw [he] at hst
      simp at hst
    · rw [he] at hst
      simp at hst
    · refine ⟨skb, ?_, ?_, hle⟩
      · rw [he]
        exact hs
      · rw [he]
  · intro data e hd hf
    rw [(rx_iter_fault k w data e hd hi hk hf).1]
    decide
  · intro data e hf
    rw [(st_int_recv_loop_fault k _ w data e (le_refl _) hi hk hf).1]
    decide
  · intro cs e hf
    rw [(rx_chunks_fault k w cs e hi hk hf).1]
    decide
  · intro ht cs
    exact rx_chunks_total k w cs hi hk ht

theorem acl_payload_world_observed : RxObserved linux acl_payload_world :=
  .recv idle_world _ [0x02, 0x01, 0x20, 0x03, 0x00, 0xAA] (.init _ idle_world_init) rfl

theorem st_int_recv_capacity_witness :
    RxObserved linux acl_payload_world ∧ acl_payload_world.rx_count = 2 ∧
    (∃ (skb : sk_buff) (c : pkt_class), acl_payload_world.rx_skb = some skb ∧
      skb.data.length + skb.tailroom = c.room linux ∧
      acl_payload_world.rx_count ≤ skb.tailroom) ∧
    (∀ cs e, rx_chunks linux acl_payload_world cs = .error e → e ≠ .skb_over_panic) ∧
    (acl_payload_world.tty = true → ∀ cs, ∃ w1, rx_chunks linux acl_payload_world cs = .ok w1) :=
  have h := st_int_recv_capacity linux linux_fits acl_payload_world acl_payload_world_observed
  ⟨acl_payload_world_observed, rfl,
    (let ⟨skb, c, h1, h2, h3, _⟩ := h.1 (Nat.succ_ne_zero 1); ⟨skb, c, h1, h2, h3⟩),
    h.2.2.2.2.1, h.2.2.2.2.2⟩

theorem withPtr_cont {r : Iter} {p q : List Nat} {w1 : World}
    (h : r.withPtr p = .cont w1 q) : q = p := by
  cases r with
  | cont w0 p0 =>
    simp only [Iter.withPtr, Iter.cont.injEq] at h
    exact h.2.symm
  | ret w0 => simp [Iter.withPtr] at h
  | fault e => simp [Iter.withPtr] at h

theorem rx_iter_reads (k : Hdr) (w : World) (data : List Nat) (hi : RxInv k w)
    (h0 : w.rx_count ≠ 0) :
    rx_iter k w data
      = (rx_iter k w (data.take (min w.rx_count data.length))).withPtr
          (data.drop (min w.rx_count data.length)) := by
  have hst := RxInv_state hi h0
  unfold rx_iter
  rw [if_pos h0, if_pos h0]
  simp only
  cases w.rx_skb with
  | none => rfl
  | some skb =>
    simp only
    have e1 : min w.rx_count (List.take (min w.rx_count data.length) data).length
        = min w.rx_count data.length := by
      simp only [List.length_take]
      omega
    rw [e1]
    have e2 : List.take (min w.rx_count data.length) (List.take (min w.rx_count data.length) data)
        = List.take (min w.rx_count data.length) data := by
      rw [List.take_take]
      simp
    have e3 : List.drop (min w.rx_count data.length) (List.take (min w.rx_count data.length) data)
        = [] := by
      simp
    rw [e2, e3]
    cases skb_put skb (List.take (min w.rx_count data.length) data) with
    | none => rfl
    | some skb1 =>
      simp only
      by_cases hz : w.rx_count - min w.rx_count data.length = 0
      · rw [if_neg (by simpa using hz), if_neg (by simpa using hz)]
        exact rx_complete_withPtr k _ (List.drop (min w.rx_count data.length) data) hst
      · rw [if_pos hz, if_pos hz]
        rfl

theorem st_int_recv_left_ok (k : Hdr) (f : Nat) (w w1 : World) (d : List Nat)
    (h : st_int_recv_loop k f w d = .ok w1) :
    ∃ left, st_int_recv_left k f w d = .ok (w1, left) := by
  have := st_int_recv_left_fst k f w d
  rw [h] at this
  cases hr : st_int_recv_left k f w d with
  | error e =>
    rw [hr] at this
    simp [Except.map] at this
  | ok r =>
    rw [hr] at this
    simp only [Except.map, Except.ok.injEq] at this
    exact ⟨r.2, by rw [← this]⟩

theorem st_int_recv_left_alloc (k : Hdr) (f : Nat) (w w1 : World) (d left : List Nat)
    (ha : AllocOk w) (h : st_int_recv_left k f w d = .ok (w1, left)) : left = [] := by
  induction f generalizing w d with
  | zero =>
    cases d with
    | nil =>
      simp only [st_int_recv_left, Except.ok.injEq, Prod.mk.injEq] at h
      exact h.2.symm
    | cons b r => simp [st_int_recv_left] at h
  | succ n ih =>
    cases d with
    | nil =>
      simp only [st_int_recv_left, Except.ok.injEq, Prod.mk.injEq] at h
      exact h.2.symm
    | cons b r =>
      simp only [st_int_recv_left] at h
      have hs := rx_iter_step k w (b :: r) (by simp)
      cases hr : rx_iter k w (b :: r) with
      | cont w2 q =>
        rw [hr] at hs h
        simp only at hs h
        exact ih w2 q (hs.2.alloc ha) h
      | ret w2 =>
        rw [hr] at hs
        simp only at hs
        exact absurd ha hs.2
      | fault e =>
        rw [hr] at h
        simp at h

/-- C25: `st_int_recv` terminates.  The loop bounded by the length of the chunk
never runs out of iterations, in any state: a pass that goes back to the loop test
has consumed at least one byte.  When no byte is awaited the pass is the tag
switch on the first byte of what is left, which is there because the loop test
has passed, and it consumes exactly this byte.  In a state the assembler can be
observed in, a pass entered while bytes are awaited copies `min(rx_count, count)`
bytes, at least one, looks at none of the bytes behind them, and goes back to the
loop test with exactly these bytes consumed.  With fixed headers that fit their
frames, a call made in such a state never reads past the end of the chunk: it can
only stop without returning when no tty is attached, on the null `tty` pointer
that `st_tx_wakeup` meets.  With a tty attached the call returns, and if every
allocation succeeds it returns with no byte of the chunk left unread. -/
theorem st_int_recv_terminates (k : Hdr) (w : World) (data : List Nat) :
    st_int_recv k w data ≠ .error .out_of_fuel ∧
    (∀ w1 q, data ≠ [] → rx_iter k w data = .cont w1 q → q.length < data.length) ∧
    (∀ b rest, w.rx_count = 0 → data = b :: rest →
      rx_iter k w data = rx_tag k w b rest ∧
      ∀ w1 q, rx_iter k w data = .cont w1 q → q = rest) ∧
    (RxObserved k w → w.rx_count ≠ 0 → data ≠ [] →
      1 ≤ min w.rx_count data.length ∧
      rx_iter k w data
        = (rx_iter k w (data.take (min w.rx_count data.length))).withPtr
            (data.drop (min w.rx_count data.length)) ∧
      ∀ w1 q, rx_iter k w data = .cont w1 q →
        q = data.drop (min w.rx_count data.length)) ∧
    (RxObserved k w → HdrFits k →
      ∀ e, st_int_recv k w data = .error e → e = .null_deref ∧ w.tty = false) ∧
    (RxObserved k w → HdrFits k → w.tty = true →
      ∃ w1 left, st_int_recv_left k data.length w data = .ok (w1, left) ∧
        st_int_recv k w data = .ok w1 ∧ (AllocOk w → left = [])) := by
  refine ⟨st_int_recv_loop_fuel_ok k _ w data (le_refl _), ?_, ?_, ?_, ?_, ?_⟩
  · intro w1 q hd hc
    have hs := rx_iter_step k w data hd
    rw [hc] at hs
    exact hs.1
  · intro b rest h0 hd
    subst hd
    have ht := rx_iter_tag k w b rest h0
    refine ⟨ht, ?_⟩
    intro w1 q hc
    rw [ht, rx_tag_withPtr] at hc
    exact withPtr_cont hc
  · intro ho h0 hd
    have hi := ho.rx_inv
    have hl : 0 < data.length := List.length_pos.mpr hd
    refine ⟨by omega, rx_iter_reads k w data hi h0, ?_⟩
    intro w1 q hc
    rw [rx_iter_reads k w data hi h0] at hc
    exact withPtr_cont hc
  · intro ho hk e he
    exact st_int_recv_loop_fault k _ w data e (le_refl _) ho.rx_inv hk he
  · intro ho hk ht
    obtain ⟨w1, h1⟩ := st_int_recv_loop_total k data.length w data (le_refl _) ho.rx_inv ht hk
    obtain ⟨left, h2⟩ := st_int_recv_left_ok k _ w w1 data h1
    exact ⟨w1, left, h2, h1, fun ha => st_int_recv_left_alloc k _ w w1 data left ha h2⟩

theorem st_int_recv_terminates_witness :
    st_int_recv linux acl_payload_world [0xBB, 0xCC, 0x04, 0x0e] ≠ .error .out_of_fuel ∧
    (1 ≤ min acl_payload_world.rx_count [0xBB, 0xCC, 0x04, 0x0e].length ∧
      ∀ w1 q, rx_iter linux acl_payload_world [0xBB, 0xCC, 0x04, 0x0e] = .cont w1 q →
        q = [0xBB, 0xCC, 0x04, 0x0e].drop
          (min acl_payload_world.rx_count [0xBB, 0xCC, 0x04, 0x0e].length)) ∧
    (∃ w1 left, st_int_recv_left linux [0xBB, 0xCC, 0x04, 0x0e].length acl_payload_world
          [0xBB, 0xCC, 0x04, 0x0e] = .ok (w1, left) ∧
        st_int_recv linux acl_payload_world [0xBB, 0xCC, 0x04, 0x0e] = .ok w1 ∧
        (AllocOk acl_payload_world → left = [])) :=
  have h := st_int_recv_terminates linux acl_payload_world [0xBB, 0xCC, 0x04, 0x0e]
  have h4 := h.2.2.2.1 acl_payload_world_observed (Nat.succ_ne_zero 1) (List.cons_ne_nil _ _)
  ⟨h.1, ⟨h4.1, h4.2.2⟩, h.2.2.2.2.2 acl_payload_world_observed linux_fits rfl⟩

/-- C4: in the header-wait state of any class, when the last bytes `d` of the
header arrive and the header declares a payload length of 0, `st_int_recv`
dispatches the header-only frame within that call: if the protocol of the class
has a binding, its receive callback is invoked with the frame made of the header
bytes (and the frame is released when the callback does not return `ST_SUCCESS`);
if it has none, the frame is released.  This is what `st_send_frame` does with the
frame.  The call leaves the assembler in `ST_W4_PACKET_TYPE` with `rx_count = 0`
and no frame under construction; while the header is still incomplete the state
stays the header-wait state, so `ST_BT_W4_DATA` is never taken for this packet. -/
theorem st_int_recv_zero_payload (k : Hdr) (c : pkt_class) (w : World) (skb : sk_buff)
    (d : List Nat) (hst : w.rx_state = c.hdr_state) (hs : w.rx_skb = some skb)
    (hp : w.protoid = c.proto) (hd : d ≠ []) (hc : w.rx_count = d.length)
    (hroom : d.length ≤ skb.tailroom) (hz : c.plen k (skb.data ++ d) = 0) :
    (∀ b f, w.list.getD c.proto none = some b → b.recv = some f →
      st_int_recv k w d
        = .ok (w.rx_dispatched (.recv c.proto (skb.append d) ::
            if f (skb.append d) ≠ k.ST_SUCCESS then [.kfree_skb (skb.append d)] else []))) ∧
    (¬ Bound w.list c.proto →
      st_int_recv k w d = .ok (w.rx_dispatched [.kfree_skb (skb.append d)])) ∧
    (skb.append d).data = skb.data ++ d ∧
    (∃ w1, st_send_frame k (w.rx_filled skb d) c.proto (some (skb.append d)) = .ok w1 ∧
        st_int_recv k w d = .ok w1.rx_reset ∧
        w1.rx_reset.rx_state = .ST_W4_PACKET_TYPE ∧ w1.rx_reset.rx_count = 0 ∧
        w1.rx_reset.rx_skb = none) ∧
    (∀ n, n < d.length → ∃ w2, st_int_recv k w (d.take n) = .ok w2 ∧
        w2.rx_state = c.hdr_state ∧ w2.rx_state ≠ .ST_BT_W4_DATA) := by
  have hmain : ∀ w1, st_send_frame k (w.rx_filled skb d) c.proto (some (skb.append d)) = .ok w1 →
      st_int_recv k w d = .ok w1.rx_reset := by
    intro w1 h1
    cases d with
    | nil => exact absurd rfl hd
    | cons b r =>
      have e0 : st_int_recv k w (b :: r)
          = st_int_recv_loop k (r.length + 1) w (b :: r) := rfl
      have h0 : w.rx_count ≠ 0 := by rw [hc]; simp
      rw [e0, st_int_recv_loop_cons,
        rx_iter_copy_all k w skb (b :: r) hs h0 (by rw [hc]) (by rw [hc]; exact hroom)]
      rw [hc, List.take_length, List.drop_length]
      rw [rx_complete_hdr k (w.rx_filled skb (b :: r)) c (skb.append (b :: r)) [] hst rfl hp]
      have hz' : c.plen k (skb.append (b :: r)).data = 0 := hz
      have hchk : st_check_data_len k (w.rx_filled skb (b :: r)) c.proto
          (c.plen k (skb.append (b :: r)).data) = .ok (0, w1.rx_reset) := by
        unfold st_check_data_len
        rw [show (w.rx_filled skb (b :: r)).rx_skb = some (skb.append (b :: r)) from rfl]
        simp only
        rw [if_pos hz', h1]
        rfl
      rw [hchk]
      simp only [rx_continue, st_int_recv_loop_nil]
  refine ⟨?_, ?_, rfl, ?_, ?_⟩
  · intro b f hb hf
    have hlt : ¬ ST_MAX ≤ c.proto := Nat.not_le.mpr (proto_lt_max c)
    have hb1 : (w.rx_filled skb d).list.getD c.proto none = some b := hb
    have h1 : st_send_frame k (w.rx_filled skb d) c.proto (some (skb.append d))
        = .ok { w.rx_filled skb d with trace := (w.rx_filled skb d).trace ++
            (.recv c.proto (skb.append d) ::
              if f (skb.append d) ≠ k.ST_SUCCESS then [.kfree_skb (skb.append d)] else []) } := by
      unfold st_send_frame
      simp only [hlt, if_false, hb1, hf]
      split <;> simp [World.log]
    rw [hmain _ h1]
    rfl
  · intro hb
    have hlt : ¬ ST_MAX ≤ c.proto := Nat.not_le.mpr (proto_lt_max c)
    have h1 : st_send_frame k (w.rx_filled skb d) c.proto (some (skb.append d))
        = .ok ((w.rx_filled skb d).log (.kfree_skb (skb.append d))) := by
      unfold st_send_frame
      simp only [hlt, if_false]
      cases hl : (w.rx_filled skb d).list.getD c.proto none with
      | none => rfl
      | some b =>
        simp only
        cases hf : b.recv with
        | none => rfl
        | some f => exact absurd ⟨b, f, hl, hf⟩ hb
    rw [hmain _ h1]
    rfl
  · obtain ⟨w1, h1⟩ := st_send_frame_total k (w.rx_filled skb d) c.proto
      (some (skb.append d)) (proto_lt_max c)
    exact ⟨w1, h1, hmain w1 h1, rfl, rfl, rfl⟩
  · intro n hn
    cases n with
    | zero => exact ⟨w, rfl, hst, by rw [hst]; exact hdr_state_ne_data c⟩
    | succ m =>
      have hlen : (d.take (m + 1)).length = m + 1 := by simp; omega
      cases hd2 : d.take (m + 1) with
      | nil => rw [hd2] at hlen; simp at hlen
      | cons b r =>
        rw [hd2] at hlen
        have e0 : st_int_recv k w (b :: r)
            = st_int_recv_loop k (r.length + 1) w (b :: r) := rfl
        rw [e0, st_int_recv_loop_cons,
          rx_iter_copy_some k w skb (b :: r) hs (by rw [hlen, hc]; exact hn)
            (by rw [hlen]; omega)]
        simp only [st_int_recv_loop_nil]
        have hst2 : (w.rx_copied skb (b :: r)).rx_state = c.hdr_state := hst
        exact ⟨_, rfl, hst2, by rw [hst2]; exact hdr_state_ne_data c⟩

theorem st_int_recv_zero_payload_witness :
    st_int_recv linux mid_header_world [0]
      = .ok (mid_header_world.rx_dispatched (.recv pkt_class.event.proto
            (sk_buff.append ⟨[1], 1027, 4⟩ [0]) ::
          if (fun _ => (0 : Int)) (sk_buff.append ⟨[1], 1027, 4⟩ [0]) ≠ linux.ST_SUCCESS
          then [.kfree_skb (sk_buff.append ⟨[1], 1027, 4⟩ [0])] else [])) ∧
    (mid_header_world.rx_dispatched [.recv ST_BT ⟨[1, 0], 1026, 4⟩]).trace
      = [.recv ST_BT ⟨[1, 0], 1026, 4⟩] ∧
    (st_int_recv linux mid_header_world [0]).map World.trace
      = .ok [.recv ST_BT ⟨[1, 0], 1026, 4⟩] ∧
    (∀ n, n < [0].length → ∃ w2, st_int_recv linux mid_header_world ([0].take n) = .ok w2 ∧
        w2.rx_state = pkt_class.event.hdr_state ∧ w2.rx_state ≠ .ST_BT_W4_DATA) :=
  have h := st_int_recv_zero_payload linux .event mid_header_world ⟨[1], 1027, 4⟩ [0]
    rfl rfl rfl (by decide) rfl (by decide) rfl
  ⟨h.1 bt_binding (fun _ => 0) rfl rfl, rfl, rfl, h.2.2.2.2⟩

/-- C17 as stated fails: a frame submitted while the link is Awake and then taken
by a step `st_int_dequeue` is with the caller of that step.  It has been accepted,
no byte of it is on the channel and it has not been released, and yet it is in
none of `txq`, `tx_waitq` and the in-flight slot. -/
theorem tx_frame_once_counterexample :
    ∃ w1, q_run linux idle_world [.enqueue .ST_LL_AWAKE frame_a, .dequeue]
        = .ok (w1, [frame_a]) ∧
      q_accepted [.enqueue .ST_LL_AWAKE frame_a, .dequeue] = [frame_a] ∧
      idle_world.txq = [] ∧ idle_world.tx_waitq = [] ∧ idle_world.tx_skb = none ∧
      w1.tty_out = [] ∧ w1.trace = [] ∧
      w1.txq = [] ∧ w1.tx_waitq = [] ∧ w1.tx_skb = none :=
  ⟨_, rfl, rfl, rfl, rfl, rfl, rfl, rfl, rfl, rfl, rfl⟩

/-- C17 (amended): queue-membership invariant.  Frames are told apart by a key that
`skb_pull` keeps, as the address of the buffer is.  Starting from empty queues and
an empty in-flight slot and submitting frames with pairwise distinct keys, after
every sequence of `st_int_enqueue`, `st_wakeup_ack`, `st_int_dequeue` and
`st_tx_wakeup` steps (which return when a tty is attached): the frames in the
in-flight slot `tx_skb`, in `txq` and in `tx_waitq`, together with the frames that
`st_int_dequeue` has handed to its callers, have pairwise distinct keys, so that no
frame is duplicated or in two places; each of them is an accepted frame, as it was
submitted in the two queues and with its written bytes removed in the in-flight
slot; and every accepted frame that is in none of the three places and was not
handed out has all its bytes on the channel.  Hence an accepted frame that was not
handed out by `st_int_dequeue` and whose bytes are not all on the channel is in
exactly one of the three places, exactly once.  No byte is lost: the bytes written,
those of the frames held and those of the frames handed out add up to the bytes of
the accepted frames. -/
theorem tx_frame_once {α : Type} [DecidableEq α] (key : sk_buff → α) (k : Hdr) (w : World)
    (ops : List QOp)
    (hkey : ∀ (s : sk_buff) (n : Int), key (skb_pull s n) = key s)
    (h0 : w.tx_skb = none ∧ w.txq = [] ∧ w.tx_waitq = [])
    (hnd : ((q_submitted ops).map key).Nodup) :
    (w.tty = true → ∃ r, q_run k w ops = .ok r) ∧
    ∀ w1 taken, q_run k w ops = .ok (w1, taken) →
      ((w1.tx_skb.toList ++ w1.txq ++ w1.tx_waitq ++ taken).map key).Nodup ∧
      ((w1.tx_skb.toList ++ w1.txq ++ w1.tx_waitq ++ taken).map key).Subperm
        ((q_accepted ops).map key) ∧
      (∀ s ∈ w1.tx_skb.toList ++ w1.txq ++ w1.tx_waitq ++ taken,
        ∃ f ∈ q_accepted ops, key f = key s) ∧
      (∀ s ∈ w1.txq ++ w1.tx_waitq, s ∈ q_accepted ops) ∧
      (∀ s, w1.tx_skb = some s →
        ∃ f ∈ q_accepted ops, key f = key s ∧ ∃ p, f.data = p ++ s.data ∧
          p <:+ w1.tty_out.drop w.tty_out.length) ∧
      (∀ f ∈ q_accepted ops,
        key f ∉ (w1.tx_skb.toList ++ w1.txq ++ w1.tx_waitq ++ taken).map key →
        f.data <:+: w1.tty_out.drop w.tty_out.length) ∧
      (∀ f ∈ q_accepted ops, key f ∉ taken.map key →
        ¬ f.data <:+: w1.tty_out.drop w.tty_out.length →
        ((w1.tx_skb.toList ++ w1.txq ++ w1.tx_waitq).map key).count (key f) = 1) ∧
      w1.tty_out.length + (bytes_of (w1.tx_skb.toList ++ w1.txq ++ w1.tx_waitq)).length
          + (bytes_of taken).length
        = w.tty_out.length + (bytes_of (q_accepted ops)).length := by
  refine ⟨q_run_total k ops w, ?_⟩
  intro w1 taken hrun
  obtain ⟨a, b, c⟩ := h0
  have hw : held w = [] := by simp [held, a, b, c]
  have hsub := q_run_held key hkey k ops w w1 taken hrun
  rw [hw, List.nil_append] at hsub
  have hacc : ((q_accepted ops).map key).Nodup :=
    hnd.sublist ((q_accepted_sublist ops).map key)
  have hbytes := q_run_bytes k ops w w1 taken hrun
  rw [hw] at hbytes
  have hinit : TxHeld key [] w.tty_out.length [] w :=
    ⟨le_refl _, by rw [b, c]; simp, by rw [a]; simp, by simp⟩
  have hinv := q_run_inv key hkey k w.tty_out.length ops w w1 [] [] taken
    (by simpa using hacc) hinit hrun
  simp only [List.nil_append] at hinv
  obtain ⟨l, hl1, hl2⟩ := hsub
  have hnodup : ((held w1 ++ taken).map key).Nodup := (hl1.nodup_iff).mp (hacc.sublist hl2)
  refine ⟨hnodup, ⟨l, hl1, hl2⟩, ?_, hinv.queued, hinv.inflight, hinv.gone, ?_, ?_⟩
  · intro s hs
    have h1 : key s ∈ (held w1 ++ taken).map key := List.mem_map_of_mem key hs
    have h2 : key s ∈ (q_accepted ops).map key := hl2.subset (hl1.mem_iff.mpr h1)
    obtain ⟨f, hf, he⟩ := List.mem_map.mp h2
    exact ⟨f, hf, he⟩
  · intro f hf hnt hnw
    have hin : key f ∈ (held w1 ++ taken).map key := by
      by_contra hno
      exact hnw (hinv.gone f hf hno)
    rw [List.map_append, List.mem_append] at hin
    rcases hin with hin | hin
    · rw [List.map_append] at hnodup
      exact List.count_eq_one_of_mem hnodup.of_append_left hin
    · exact absurd hin hnt
  · simpa [bytes_of, held] using hbytes

theorem tx_frame_once_witness :
    ∃ w1 taken, q_run linux slow_tty_world
        [.enqueue .ST_LL_ASLEEP ⟨[1, 2, 3], 0, 1⟩, .enqueue .ST_LL_AWAKE ⟨[4, 5], 0, 2⟩, .pump,
          .dequeue, .wake_ack 0x33] = .ok (w1, taken) ∧
      ((w1.tx_skb.toList ++ w1.txq ++ w1.tx_waitq ++ taken).map fun s => s.pkt_type).Nodup ∧
      ∀ f ∈ q_accepted [.enqueue .ST_LL_ASLEEP ⟨[1, 2, 3], 0, 1⟩,
          .enqueue .ST_LL_AWAKE ⟨[4, 5], 0, 2⟩, .pump, .dequeue, .wake_ack 0x33],
        f.pkt_type ∉ taken.map (fun s => s.pkt_type) →
        ¬ f.data <:+: w1.tty_out.drop slow_tty_world.tty_out.length →
        ((w1.tx_skb.toList ++ w1.txq ++ w1.tx_waitq).map fun s => s.pkt_type).count
          f.pkt_type = 1 := by
  have h := tx_frame_once (fun s => s.pkt_type) linux slow_tty_world
    [.enqueue .ST_LL_ASLEEP ⟨[1, 2, 3], 0, 1⟩, .enqueue .ST_LL_AWAKE ⟨[4, 5], 0, 2⟩, .pump,
      .dequeue, .wake_ack 0x33]
    (by intro s n; unfold skb_pull; split <;> rfl) ⟨rfl, rfl, rfl⟩ (by decide)
  obtain ⟨r, hr⟩ := h.1 rfl
  exact ⟨r.1, r.2, hr, (h.2 r.1 r.2 hr).1, (h.2 r.1 r.2 hr).2.2.2.2.2.2.1⟩

end StCore
